import Mathlib

/-!
# QuarkPackage: the package and manifest formats

A shallow embedding of `package.hpp` / `package.cpp`.

* A byte is a `Nat` below 256; a file or a memory buffer is a `List Nat`.
* `uint64_t` / `uint32_t` values are `Nat`s; every place where the C code
  does arithmetic on them carries an explicit `% 2 ^ 64`.
* Structs are written to and read from files field by field, little endian,
  in declaration order (the layout documented at the top of `package.hpp`;
  none of the structs has padding).
* A `FILE*` is the content of the file together with the file position.
* A pointer into a buffer is an offset into the list that models the buffer.
* `std::unordered_map` is an association list; `insert` keeps an existing key.
-/

namespace quark

/-! ## Fixed-width integers in files -/

/-- The `w` little-endian bytes of `n` (the value is truncated to `w` bytes). -/
def to_le : Nat → Nat → List Nat
  | 0, _ => []
  | w + 1, n => n % 256 :: to_le w (n / 256)

/-- The integer held by little-endian bytes. -/
def of_le : List Nat → Nat
  | [] => 0
  | b :: bs => b + 256 * of_le bs

/-! ## `hash_filename` -/

/-- The conversion `char → int → uint64_t` applied to `*filename` in
`hash ^ *filename`: `char` is a signed 8-bit type for the compilers this code
is written for (it uses `fopen_s`), so a byte `0x80..0xFF` is a negative
`char` and is sign-extended to 64 bits. -/
def char_to_u64 (c : Nat) : Nat :=
  if c < 128 then c else c + (2 ^ 64 - 256)

/-- The body of the loop of `hash_filename`, from the character the pointer is
at; the end of the list stands for the terminating NUL of the C string. -/
def hash_filename_loop : List Nat → Nat → Nat
  | [], hash => hash
  | c :: rest, hash =>
    if c = 0 then hash
    else hash_filename_loop rest (((hash ^^^ char_to_u64 c) * 0x100000001B3) % 2 ^ 64)

/-- The function `hash_filename(const char* filename)` of `package.hpp`. -/
def hash_filename (filename : List Nat) : Nat :=
  hash_filename_loop filename 0xCBF29CE484222325

/-- The reference 64-bit FNV-1a over unsigned bytes, as the specification
words it: start from the offset basis, and for each byte xor it in and
multiply by the prime modulo `2 ^ 64`. -/
def fnv1a_64_reference (bytes : List Nat) : Nat :=
  bytes.foldl (fun acc b => ((acc ^^^ b) * 0x100000001B3) % 2 ^ 64) 0xCBF29CE484222325

/-! ## Constants and structs of `package.hpp` -/

/-- The constant `*(uint32_t*)("qpck")`: the four characters, read as a `uint32_t`. -/
def PACKAGE_MAGIC : Nat := of_le [0x71, 0x70, 0x63, 0x6B]

def PACKAGE_VERSION : Nat := 1

/-- The constant `*(uint32_t*)("qmnf")`. -/
def MANIFEST_MAGIC : Nat := of_le [0x71, 0x6D, 0x6E, 0x66]

def MANIFEST_VERSION : Nat := 1

/-- The struct `PackageFlags`: one `CompressionMode` byte and `uint8_t reserved[7]`. -/
structure PackageFlags where
  compression_mode : Nat
  reserved : List Nat
deriving DecidableEq, Repr

/-- A `uint8_t* data` of an `EntryInfo`: either a pointer into memory of the
caller (the list holds the bytes readable from the pointer on), or
`info->memory_block + offset`. -/
inductive DataPtr where
  | caller (memory : List Nat)
  | memory_block (offset : Nat)
deriving DecidableEq, Repr

structure EntryInfo where
  size_in_bytes : Nat
  data : DataPtr
  filename_hash : Nat
deriving DecidableEq, Repr

structure PackageInfo where
  memory_block_capacity : Nat
  data_size_in_bytes : Nat
  memory_block : List Nat
  entries : List EntryInfo
  filenames : List (List Nat)
  flags : PackageFlags
deriving DecidableEq, Repr

structure PackageEntry where
  data_offset_in_bytes : Nat
  data_size_in_bytes : Nat
  filename_hash : Nat
deriving DecidableEq, Repr

structure PackageHeader where
  magic : Nat
  version : Nat
  flags : PackageFlags
  entries_count : Nat
  uncompressed_data_size_in_bytes : Nat
  reserved : List Nat
deriving DecidableEq, Repr

/-- The struct `Package`. `entries` and `data` are the two `malloc`ed buffers
as far as `fread` filled them; a `uint8_t*` stored in `filename_hash_to_data`
is `package->data + offset` and is kept as the offset. -/
structure Package where
  header : PackageHeader
  entries : List PackageEntry
  data : List Nat
  filename_hash_to_data : List (Nat × Nat)
  filename_hash_to_data_size : List (Nat × Nat)
deriving DecidableEq, Repr

structure PackageManifestHeader where
  magic : Nat
  version : Nat
  filenames_size_in_bytes : Nat
deriving DecidableEq, Repr

/-- The struct `PackageManifest`. `filenames` is the `malloc`ed buffer as far
as `fread` filled it; a `const char*` stored in `filename_hash_to_filename`
points into that buffer and is kept as the offset. -/
structure PackageManifest where
  filenames_size_in_bytes : Nat
  filenames : List Nat
  filename_hash_to_filename : List (Nat × Nat)
deriving DecidableEq, Repr

def sizeof_PackageHeader : Nat := 64

def sizeof_PackageEntry : Nat := 24

def sizeof_PackageManifestHeader : Nat := 16

/-! ## Struct images in a file -/

def PackageFlags.to_bytes (fl : PackageFlags) : List Nat :=
  to_le 1 fl.compression_mode ++ (List.range 7).map (fun i => fl.reserved.getD i 0 % 256)

def PackageFlags.of_bytes (b : List Nat) : PackageFlags :=
  { compression_mode := of_le (b.take 1), reserved := (b.drop 1).take 7 }

def PackageHeader.to_bytes (h : PackageHeader) : List Nat :=
  to_le 4 h.magic ++ to_le 4 h.version ++ h.flags.to_bytes
    ++ to_le 8 h.entries_count ++ to_le 8 h.uncompressed_data_size_in_bytes
    ++ (List.range 4).flatMap (fun i => to_le 8 (h.reserved.getD i 0))

def PackageHeader.of_bytes (b : List Nat) : PackageHeader :=
  { magic := of_le (b.take 4)
    version := of_le ((b.drop 4).take 4)
    flags := PackageFlags.of_bytes ((b.drop 8).take 8)
    entries_count := of_le ((b.drop 16).take 8)
    uncompressed_data_size_in_bytes := of_le ((b.drop 24).take 8)
    reserved := (List.range 4).map (fun i => of_le ((b.drop (32 + 8 * i)).take 8)) }

def PackageEntry.to_bytes (e : PackageEntry) : List Nat :=
  to_le 8 e.data_offset_in_bytes ++ to_le 8 e.data_size_in_bytes ++ to_le 8 e.filename_hash

def PackageEntry.of_bytes (b : List Nat) : PackageEntry :=
  { data_offset_in_bytes := of_le (b.take 8)
    data_size_in_bytes := of_le ((b.drop 8).take 8)
    filename_hash := of_le ((b.drop 16).take 8) }

def PackageManifestHeader.to_bytes (h : PackageManifestHeader) : List Nat :=
  to_le 4 h.magic ++ to_le 4 h.version ++ to_le 8 h.filenames_size_in_bytes

def PackageManifestHeader.of_bytes (b : List Nat) : PackageManifestHeader :=
  { magic := of_le (b.take 4)
    version := of_le ((b.drop 4).take 4)
    filenames_size_in_bytes := of_le ((b.drop 8).take 8) }

/-- An array of `PackageEntry` filled by `fread` from the bytes `b`: the
records that were read whole. -/
def entries_of_bytes : Nat → List Nat → List PackageEntry
  | 0, _ => []
  | k + 1, b =>
    if b.length < sizeof_PackageEntry then []
    else PackageEntry.of_bytes (b.take sizeof_PackageEntry)
      :: entries_of_bytes k (b.drop sizeof_PackageEntry)

/-! ## Files -/

/-- A `FILE*`: the content of the file and the file position. -/
structure FILE where
  content : List Nat
  pos : Nat
deriving DecidableEq, Repr

/-- The stream of `fopen_s(&f, filename, "rb")` on a file with this content. -/
def fopen_rb (content : List Nat) : FILE := { content := content, pos := 0 }

/-- The stream of `fopen_s(&f, filename, "wb")`: an empty file. -/
def fopen_wb : FILE := { content := [], pos := 0 }

/-- The call `fwrite(buf, 1, buf.length, f)`: overwrites from the position on
and extends the file (the position is never beyond the end in this program). -/
def fwrite (buf : List Nat) (f : FILE) : FILE :=
  { content := f.content.take f.pos ++ buf ++ f.content.drop (f.pos + buf.length)
    pos := f.pos + buf.length }

/-- The call `fread(buf, 1, n, f)`: the bytes stored in `buf` (fewer than `n` at
the end of the file) and the stream after it. -/
def fread (n : Nat) (f : FILE) : List Nat × FILE :=
  ((f.content.drop f.pos).take n,
   { content := f.content, pos := f.pos + ((f.content.drop f.pos).take n).length })

/-- The call `fseek(f, offset, SEEK_SET)`. -/
def fseek_set (offset : Nat) (f : FILE) : FILE := { content := f.content, pos := offset }

/-- The sequence `fseek(f, 0, SEEK_END); ftell(f); fseek(f, 0, SEEK_SET)` of
the loaders (a file is shorter than the range of `ftell`). -/
def file_size (f : FILE) : Nat := f.content.length

/-! ## `std::unordered_map` -/

/-- The call `m.insert(std::make_pair(k, v))`: a key that is present keeps its
value. -/
def map_insert {α : Type} (m : List (Nat × α)) (k : Nat) (v : α) : List (Nat × α) :=
  match m.lookup k with
  | some _ => m
  | none => m ++ [(k, v)]

/-- The call `m.at(k)`; `none` where `at` throws. -/
def map_at {α : Type} (m : List (Nat × α)) (k : Nat) : Option α := m.lookup k

/-! ## The builder -/

def create_package_info (flags : PackageFlags) (memory_block_capacity : Nat) : PackageInfo :=
  { memory_block_capacity := memory_block_capacity
    data_size_in_bytes := 0
    memory_block := List.replicate memory_block_capacity 0
    entries := []
    filenames := []
    flags := flags }

/-- The `std::string` built from a `const char*`: the characters before the
first NUL (the end of the list stands for the terminating NUL). -/
def std_string (filename : List Nat) : List Nat := filename.takeWhile (fun c => c ≠ 0)

def add_package_entry_from_memory (info : PackageInfo) (filename : List Nat)
    (size_in_bytes : Nat) (data : DataPtr) : PackageInfo :=
  let entry : EntryInfo :=
    { size_in_bytes := size_in_bytes, data := data, filename_hash := hash_filename filename }
  { info with
    entries := info.entries ++ [entry]
    filenames := info.filenames ++ [std_string filename]
    data_size_in_bytes := (info.data_size_in_bytes + size_in_bytes) % 2 ^ 64 }

/-- The call `fread(ptr, 1, file_size, f)` with `ptr = memory_block + offset`. -/
def memory_block_store (memory_block : List Nat) (offset : Nat) (bytes : List Nat) : List Nat :=
  memory_block.take offset ++ bytes ++ memory_block.drop (offset + bytes.length)

/-- How `add_package_entry_from_disk` ends. `added` is `return true`.
`out_of_space` is the capacity branch: its `printf`, then `fclose(f)` at
`ERR_EXIT` and `return false`. `fclose_null` is the branch of a failed
`fopen_s`: it jumps to the same `ERR_EXIT`, where `fclose(f)` is called on the
null `FILE*` that `fopen_s` left; C defines no result for that call, the
process is stopped there and the function does not return. -/
inductive AddStatus where
  | added
  | out_of_space
  | fclose_null
deriving DecidableEq, Repr

/-- The outcome of `add_package_entry_from_disk`: how it ended, and the
builder behind the pointer `info` at that point. -/
structure AddResult where
  status : AddStatus
  info : PackageInfo

/-- The function `add_package_entry_from_disk`; `file` is the content of the
file at the path `filename`, `none` when `fopen_s` fails. -/
def add_package_entry_from_disk (info : PackageInfo) (filename : List Nat)
    (file : Option (List Nat)) : AddResult :=
  let ptr := info.data_size_in_bytes
  match file with
  | none => { status := AddStatus.fclose_null, info := info }
  | some content =>
    let file_size := content.length
    if (info.data_size_in_bytes + file_size) % 2 ^ 64 > info.memory_block_capacity then
      { status := AddStatus.out_of_space, info := info }
    else
      let info1 := { info with memory_block := memory_block_store info.memory_block ptr content }
      { status := AddStatus.added
        info := add_package_entry_from_memory info1 filename file_size
          (DataPtr.memory_block ptr) }

/-- The bytes `fwrite(entry_info->data, entry_info->size_in_bytes, 1, f)`
takes from memory. -/
def entry_data (info : PackageInfo) (entry_info : EntryInfo) : List Nat :=
  match entry_info.data with
  | DataPtr.caller memory => memory.take entry_info.size_in_bytes
  | DataPtr.memory_block offset =>
    (info.memory_block.drop offset).take entry_info.size_in_bytes

/-! ## `save_package` -/

/-- The first loop of `save_package`, from entry `i` on, with the running
`data_offset`. -/
def save_package_entries : List EntryInfo → Nat → FILE → FILE
  | [], _, f => f
  | entry_info :: rest, data_offset, f =>
    let entry : PackageEntry :=
      { filename_hash := entry_info.filename_hash
        data_size_in_bytes := entry_info.size_in_bytes
        data_offset_in_bytes := data_offset }
    save_package_entries rest ((data_offset + entry_info.size_in_bytes) % 2 ^ 64)
      (fwrite entry.to_bytes f)

/-- The second loop of `save_package`, from entry `i` on. -/
def save_package_data (info : PackageInfo) : List EntryInfo → FILE → FILE
  | [], f => f
  | entry_info :: rest, f => save_package_data info rest (fwrite (entry_data info entry_info) f)

/-- The header `save_package` fills in. -/
def save_package_header (info : PackageInfo) : PackageHeader :=
  { magic := PACKAGE_MAGIC
    version := PACKAGE_VERSION
    flags := info.flags
    entries_count := info.entries.length
    uncompressed_data_size_in_bytes := info.data_size_in_bytes
    reserved := [0, 0, 0, 0] }

/-- The function `save_package` when the file can be opened (it then returns
`true`): the stream at `fclose`. -/
def save_package (info : PackageInfo) : FILE :=
  let header := save_package_header info
  let f := fopen_wb
  let f := fwrite header.to_bytes f
  let f := save_package_entries info.entries 0 f
  save_package_data info info.entries f

/-! ## `save_package_manifest` -/

/-- The loop of `save_package_manifest`, from filename `i` on, with the running
`filenames_size_in_bytes`. -/
def save_package_manifest_filenames : List (List Nat) → Nat → FILE → Nat × FILE
  | [], filenames_size_in_bytes, f => (filenames_size_in_bytes, f)
  | name :: rest, filenames_size_in_bytes, f =>
    let f1 := fwrite name f
    let size1 := (filenames_size_in_bytes + name.length) % 2 ^ 64
    let f2 := fwrite [0] f1
    let size2 := (size1 + 1) % 2 ^ 64
    save_package_manifest_filenames rest size2 f2

/-- The stream of `save_package_manifest` just before the `fseek`. -/
def save_package_manifest_body (info : PackageInfo) : Nat × FILE :=
  let header : PackageManifestHeader :=
    { magic := MANIFEST_MAGIC, version := MANIFEST_VERSION, filenames_size_in_bytes := 0 }
  let f := fopen_wb
  let f := fwrite header.to_bytes f
  save_package_manifest_filenames info.filenames 0 f

/-- The function `save_package_manifest` when the file can be opened (it then
returns `true`): the stream at `fclose`. -/
def save_package_manifest (info : PackageInfo) : FILE :=
  let r := save_package_manifest_body info
  let f := fseek_set 8 r.2
  fwrite (to_le 8 r.1) f

/-! ## The loaders -/

/-- How a loader ends. `loaded` is `return true`; the next four are the four
`printf` branches that lead to `return false`; `invalid_read` is a run in which
the C code reads bytes that `fread` did not store (memory from `malloc` that
was not written, or memory beyond the buffer), where C defines no result. -/
inductive LoadStatus where
  | loaded
  | too_small
  | bad_magic
  | version_too_high
  | no_loader
  | invalid_read
deriving DecidableEq, Repr

/-- The outcome of a loader: how it ended, the struct of the caller after the
call, and the stream after the call. -/
structure LoadResult (α : Type) where
  status : LoadStatus
  value : α
  file : FILE

/-- The loop of `load_package_version_1` over the records in `entries`. -/
def load_package_index : List PackageEntry → Package → Package
  | [], package => package
  | entry :: rest, package =>
    load_package_index rest
      { package with
        filename_hash_to_data :=
          map_insert package.filename_hash_to_data entry.filename_hash entry.data_offset_in_bytes
        filename_hash_to_data_size :=
          map_insert package.filename_hash_to_data_size entry.filename_hash
            entry.data_size_in_bytes }

def load_package_version_1 (package : Package) (f : FILE) : LoadResult Package :=
  let r1 := fread (package.header.entries_count * sizeof_PackageEntry) f
  let entries := entries_of_bytes package.header.entries_count r1.1
  let r2 := fread package.header.uncompressed_data_size_in_bytes r1.2
  let package1 := { package with entries := entries, data := r2.1 }
  let package2 := load_package_index entries package1
  if entries.length < package.header.entries_count then
    { status := LoadStatus.invalid_read, value := package2, file := r2.2 }
  else
    { status := LoadStatus.loaded, value := package2, file := r2.2 }

/-- The function `load_package` on a file with this content that can be opened. -/
def load_package (package : Package) (content : List Nat) : LoadResult Package :=
  let f := fopen_rb content
  if file_size f < sizeof_PackageHeader then
    { status := LoadStatus.too_small, value := package, file := f }
  else
    let r := fread sizeof_PackageHeader f
    let package1 := { package with header := PackageHeader.of_bytes r.1 }
    if package1.header.magic ≠ PACKAGE_MAGIC then
      { status := LoadStatus.bad_magic, value := package1, file := r.2 }
    else if package1.header.version > PACKAGE_VERSION then
      { status := LoadStatus.version_too_high, value := package1, file := r.2 }
    else if package1.header.version = 1 then
      load_package_version_1 package1 r.2
    else
      { status := LoadStatus.no_loader, value := package1, file := r.2 }

/-- The characters of the C string at `buf + p`. -/
def c_string_at (buf : List Nat) (p : Nat) : List Nat := std_string (buf.drop p)

/-- The loop of `load_package_manifest_version_1` from the offset `p` on, for
at most `fuel` rounds; `none` when the rounds are used up, which `size` rounds
never are (`load_package_manifest_scan_fuel`). A round whose string has no NUL
among the bytes of `buf` reads beyond them. -/
def load_package_manifest_scan (buf : List Nat) (size : Nat) :
    Nat → Nat → List (Nat × Nat) → Option (LoadStatus × List (Nat × Nat))
  | 0, p, m => if p < size then none else some (LoadStatus.loaded, m)
  | fuel + 1, p, m =>
    if p < size then
      if p + (c_string_at buf p).length < buf.length then
        load_package_manifest_scan buf size fuel (p + (c_string_at buf p).length + 1)
          (map_insert m (hash_filename (buf.drop p)) p)
      else some (LoadStatus.invalid_read, m)
    else some (LoadStatus.loaded, m)

def load_package_manifest_version_1 (manifest : PackageManifest) (f : FILE) :
    LoadResult PackageManifest :=
  let r := fread manifest.filenames_size_in_bytes f
  let manifest1 := { manifest with filenames := r.1 }
  match load_package_manifest_scan r.1 manifest.filenames_size_in_bytes
      manifest.filenames_size_in_bytes 0 manifest.filename_hash_to_filename with
  | some (status, m) =>
    { status := status, value := { manifest1 with filename_hash_to_filename := m }, file := r.2 }
  | none => { status := LoadStatus.invalid_read, value := manifest1, file := r.2 }

/-- The function `load_package_manifest` on a file with this content that can
be opened. -/
def load_package_manifest (manifest : PackageManifest) (content : List Nat) :
    LoadResult PackageManifest :=
  let f := fopen_rb content
  if file_size f < sizeof_PackageManifestHeader then
    { status := LoadStatus.too_small, value := manifest, file := f }
  else
    let r := fread sizeof_PackageManifestHeader f
    let header := PackageManifestHeader.of_bytes r.1
    if header.magic ≠ MANIFEST_MAGIC then
      { status := LoadStatus.bad_magic, value := manifest, file := r.2 }
    else if header.version > MANIFEST_VERSION then
      { status := LoadStatus.version_too_high, value := manifest, file := r.2 }
    else
      let manifest1 := { manifest with filenames_size_in_bytes := header.filenames_size_in_bytes }
      if header.version = 1 then
        load_package_manifest_version_1 manifest1 r.2
      else
        { status := LoadStatus.no_loader, value := manifest1, file := r.2 }

/-! ## Reading a decoded package and manifest -/

/-- The bytes of the entry with this name hash: `filename_hash_to_data.at(h)`
gives where they start in `package.data`, `filename_hash_to_data_size.at(h)`
how many they are; `none` when a lookup throws or the bytes are not all inside
`package.data`. -/
def package_entry_bytes (package : Package) (h : Nat) : Option (List Nat) :=
  match map_at package.filename_hash_to_data h, map_at package.filename_hash_to_data_size h with
  | some offset, some size =>
    if offset + size ≤ package.data.length then some ((package.data.drop offset).take size)
    else none
  | _, _ => none

/-- The string `manifest.filename_hash_to_filename.at(h)` points at; `none`
when the lookup throws. -/
def manifest_filename (manifest : PackageManifest) (h : Nat) : Option (List Nat) :=
  match map_at manifest.filename_hash_to_filename h with
  | some p => some (c_string_at manifest.filenames p)
  | none => none

/-- A `Package` variable as `main` declares it: the two maps are empty (the
other members are not initialised; they are overwritten before they are read). -/
def Package.declared : Package :=
  { header := { magic := 0, version := 0, flags := { compression_mode := 0, reserved := [] },
                entries_count := 0, uncompressed_data_size_in_bytes := 0, reserved := [] }
    entries := []
    data := []
    filename_hash_to_data := []
    filename_hash_to_data_size := [] }

/-- A `PackageManifest` variable as `main` declares it. -/
def PackageManifest.declared : PackageManifest :=
  { filenames_size_in_bytes := 0, filenames := [], filename_hash_to_filename := [] }

/-! ## Vocabulary of the statements -/

/-- The sum of `size_in_bytes` over builder entries. -/
def total_size (entries : List EntryInfo) : Nat :=
  (entries.map (fun e => e.size_in_bytes)).sum

/-- The records the first loop of `save_package` writes for these entries when
it reaches them with this `data_offset`. -/
def entry_records : List EntryInfo → Nat → List PackageEntry
  | [], _ => []
  | entry_info :: rest, data_offset =>
    { filename_hash := entry_info.filename_hash
      data_size_in_bytes := entry_info.size_in_bytes
      data_offset_in_bytes := data_offset }
      :: entry_records rest ((data_offset + entry_info.size_in_bytes) % 2 ^ 64)

/-- The number of bytes of these names, each with its terminating NUL. -/
def names_size (names : List (List Nat)) : Nat :=
  (names.map (fun name => name.length + 1)).sum

/-- The builder after `add_package_entry_from_memory(&info, name, bytes.size, bytes)`
for each (name, bytes) pair in turn. -/
def add_entries (info : PackageInfo) (pairs : List (List Nat × List Nat)) : PackageInfo :=
  pairs.foldl
    (fun acc p => add_package_entry_from_memory acc p.1 p.2.length (DataPtr.caller p.2)) info

/-- One call that adds to a builder: `add_package_entry_from_memory` with a
buffer of the caller, or `add_package_entry_from_disk` with the state of the
file at the path. -/
inductive AddCall where
  | from_memory (filename : List Nat) (size_in_bytes : Nat) (memory : List Nat)
  | from_disk (filename : List Nat) (file : Option (List Nat))
deriving DecidableEq, Repr

/-- The builder after one add call. A call that ends in `fclose_null` stops
the program; the builder is then the one the call was made on. -/
def AddCall.run (info : PackageInfo) : AddCall → PackageInfo
  | AddCall.from_memory filename size_in_bytes memory =>
    add_package_entry_from_memory info filename size_in_bytes (DataPtr.caller memory)
  | AddCall.from_disk filename file => (add_package_entry_from_disk info filename file).info

/-- The builder after a sequence of add calls. -/
def run_calls (info : PackageInfo) (calls : List AddCall) : PackageInfo :=
  calls.foldl AddCall.run info

/-- The buffer a `from_memory` call passes holds the bytes it announces. -/
def AddCall.buffer_ok : AddCall → Prop
  | AddCall.from_memory _ size_in_bytes memory => size_in_bytes ≤ memory.length
  | AddCall.from_disk _ _ => True

instance (c : AddCall) : Decidable c.buffer_ok := by
  cases c <;> simp only [AddCall.buffer_ok] <;> infer_instance

/-- The name `Cj;eC08=jd4`. -/
def colliding_name_1 : List Nat := [67, 106, 59, 101, 67, 48, 56, 61, 106, 100, 52]

/-- The name `<;[n;9k866<`; `hash_filename` gives it the hash of `Cj;eC08=jd4`. -/
def colliding_name_2 : List Nat := [60, 59, 91, 110, 59, 57, 107, 56, 54, 54, 60]

/-- The flags of the example program: `CompressionMode::None`. -/
def example_flags : PackageFlags := { compression_mode := 0, reserved := [0, 0, 0, 0, 0, 0, 0] }

/-- The first two entries of the example program: `apple` (the `uint64_t` 5)
and `banana` (four `float`s: 1, 2, 3, 4). -/
def example_pairs : List (List Nat × List Nat) :=
  [([97, 112, 112, 108, 101], [5, 0, 0, 0, 0, 0, 0, 0]),
   ([98, 97, 110, 97, 110, 97],
    [0, 0, 128, 63, 0, 0, 0, 64, 0, 0, 64, 64, 0, 0, 128, 64])]

/-- The builder of the example program after its two adds from memory. -/
def example_info : PackageInfo :=
  add_entries (create_package_info example_flags 1048576) example_pairs

/-- A builder in which the name `a` is added twice, with different bytes. -/
def twice_info : PackageInfo :=
  add_entries (create_package_info example_flags 0) [([97], [1]), ([97], [2, 3])]

/-- The three adds of the example program; `simple.txt` holds `hi`. -/
def example_calls : List AddCall :=
  [AddCall.from_memory [97, 112, 112, 108, 101] 8 [5, 0, 0, 0, 0, 0, 0, 0],
   AddCall.from_memory [98, 97, 110, 97, 110, 97] 16
     [0, 0, 128, 63, 0, 0, 0, 64, 0, 0, 64, 64, 0, 0, 128, 64],
   AddCall.from_disk [115, 105, 109, 112, 108, 101, 46, 116, 120, 116] (some [104, 105])]

/-- The index the loop of `load_package_manifest_version_1` builds when the
strings from the offset `p` on are these names. -/
def names_index : List (List Nat) → Nat → List (Nat × Nat) → List (Nat × Nat)
  | [], _, m => m
  | name :: rest, p, m =>
    names_index rest (p + name.length + 1) (map_insert m (hash_filename name) p)

/-- A builder that recorded two names with the same hash. -/
def colliding_info : PackageInfo :=
  add_entries (create_package_info example_flags 0)
    [(colliding_name_1, [1]), (colliding_name_2, [2])]

/-- A package header with the right signature and version 2, and nothing after it. -/
def version_2_package : List Nat := [0x71, 0x70, 0x63, 0x6B, 2, 0, 0, 0] ++ List.replicate 56 0

/-- A manifest header with the right signature and version 2, and nothing after it. -/
def version_2_manifest : List Nat := [0x71, 0x6D, 0x6E, 0x66, 2, 0, 0, 0] ++ List.replicate 8 0

/-- A package stream that starts with the signature of a manifest. -/
def misnamed_package : List Nat := [0x71, 0x6D, 0x6E, 0x66, 1, 0, 0, 0] ++ List.replicate 56 0

/-- A manifest stream that starts with the signature of a package. -/
def misnamed_manifest : List Nat := [0x71, 0x70, 0x63, 0x6B, 1, 0, 0, 0] ++ List.replicate 8 0

/-! ## The `save_` functions with the builder as state -/

/-- The outcome of a `save_` function: the returned `bool`, the builder behind
the pointer `info` after the call, and the stream at `fclose`. -/
structure SaveResult where
  returned : Bool
  info : PackageInfo
  file : FILE

/-- The first loop of `save_package`, `for(i; i < info->entries.size(); i += 1)`,
run on the builder for at most `fuel` rounds. -/
def save_package_entries_loop : Nat → Nat → Nat → PackageInfo → FILE → PackageInfo × FILE
  | 0, _, _, info, f => (info, f)
  | fuel + 1, i, data_offset, info, f =>
    if i < info.entries.length then
      match info.entries[i]? with
      | none => (info, f)
      | some entry_info =>
        let entry : PackageEntry :=
          { filename_hash := entry_info.filename_hash
            data_size_in_bytes := entry_info.size_in_bytes
            data_offset_in_bytes := data_offset }
        save_package_entries_loop fuel (i + 1)
          ((data_offset + entry_info.size_in_bytes) % 2 ^ 64) info (fwrite entry.to_bytes f)
    else (info, f)

/-- The second loop of `save_package`, run on the builder for at most `fuel`
rounds. -/
def save_package_data_loop : Nat → Nat → PackageInfo → FILE → PackageInfo × FILE
  | 0, _, info, f => (info, f)
  | fuel + 1, i, info, f =>
    if i < info.entries.length then
      match info.entries[i]? with
      | none => (info, f)
      | some entry_info =>
        save_package_data_loop fuel (i + 1) info (fwrite (entry_data info entry_info) f)
    else (info, f)

/-- The function `save_package(PackageInfo* info, ...)` when the file can be
opened, statement by statement, with the builder as state. -/
def save_package_call (info : PackageInfo) : SaveResult :=
  let header : PackageHeader :=
    { magic := PACKAGE_MAGIC
      version := PACKAGE_VERSION
      flags := info.flags
      entries_count := info.entries.length
      uncompressed_data_size_in_bytes := info.data_size_in_bytes
      reserved := [0, 0, 0, 0] }
  let f := fwrite header.to_bytes fopen_wb
  let r1 := save_package_entries_loop info.entries.length 0 0 info f
  let r2 := save_package_data_loop r1.1.entries.length 0 r1.1 r1.2
  { returned := true, info := r2.1, file := r2.2 }

/-- The loop of `save_package_manifest`, run on the builder for at most `fuel`
rounds. -/
def save_package_manifest_loop :
    Nat → Nat → Nat → PackageInfo → FILE → PackageInfo × Nat × FILE
  | 0, _, filenames_size_in_bytes, info, f => (info, filenames_size_in_bytes, f)
  | fuel + 1, i, filenames_size_in_bytes, info, f =>
    if i < info.filenames.length then
      match info.filenames[i]? with
      | none => (info, filenames_size_in_bytes, f)
      | some name =>
        let f1 := fwrite name f
        let size1 := (filenames_size_in_bytes + name.length) % 2 ^ 64
        let f2 := fwrite [0] f1
        let size2 := (size1 + 1) % 2 ^ 64
        save_package_manifest_loop fuel (i + 1) size2 info f2
    else (info, filenames_size_in_bytes, f)

/-- The function `save_package_manifest(PackageInfo* info, ...)` when the file
can be opened, statement by statement, with the builder as state. -/
def save_package_manifest_call (info : PackageInfo) : SaveResult :=
  let header : PackageManifestHeader :=
    { magic := MANIFEST_MAGIC, version := MANIFEST_VERSION, filenames_size_in_bytes := 0 }
  let f := fwrite header.to_bytes fopen_wb
  let r := save_package_manifest_loop info.filenames.length 0 0 info f
  let f1 := fseek_set 8 r.2.2
  let f2 := fwrite (to_le 8 r.2.1) f1
  { returned := true, info := r.1, file := f2 }

/-! ## More vocabulary of the statements -/

/-- The offsets of the strings the loop of `load_package_manifest_version_1`
visits (hashes and inserts), in the order of the visits; the rounds are those
of `load_package_manifest_scan`. -/
def load_package_manifest_visits (buf : List Nat) (size : Nat) : Nat → Nat → List Nat
  | 0, _ => []
  | fuel + 1, p =>
    if p < size then
      if p + (c_string_at buf p).length < buf.length then
        p :: load_package_manifest_visits buf size fuel (p + (c_string_at buf p).length + 1)
      else []
    else []

/-- The bytes of the entries whose data lies in `memory_block`: what
`add_package_entry_from_disk` has put there. -/
def disk_size (entries : List EntryInfo) : Nat :=
  total_size (entries.filter (fun e =>
    match e.data with
    | DataPtr.memory_block _ => true
    | DataPtr.caller _ => false))

/-- A builder with a block of 8 bytes after one add of 8 bytes from memory. -/
def memory_only_info : PackageInfo :=
  run_calls (create_package_info example_flags 8)
    [AddCall.from_memory [97] 8 [1, 2, 3, 4, 5, 6, 7, 8]]

/-- A builder with a block of 8 bytes after one add from memory that announces
`2 ^ 64 - 1` bytes. -/
def announced_info : PackageInfo :=
  run_calls (create_package_info example_flags 8) [AddCall.from_memory [97] (2 ^ 64 - 1) []]

/-- A package stream of 40 bytes: signature, version 1, and zeros. -/
def package_of_40_bytes : List Nat := [0x71, 0x70, 0x63, 0x6B, 1, 0, 0, 0] ++ List.replicate 32 0

/-- A package header with the right signature and version 0, and nothing after it. -/
def version_0_package : List Nat := [0x71, 0x70, 0x63, 0x6B, 0, 0, 0, 0] ++ List.replicate 56 0

/-- A manifest header with the right signature and version 0, and nothing after it. -/
def version_0_manifest : List Nat := [0x71, 0x6D, 0x6E, 0x66, 0, 0, 0, 0] ++ List.replicate 8 0

/-- A manifest that declares one byte of filenames and holds the byte `a`,
with no NUL after it. -/
def unterminated_manifest : List Nat :=
  [0x71, 0x6D, 0x6E, 0x66, 1, 0, 0, 0, 1, 0, 0, 0, 0, 0, 0, 0, 97]

/-! ## Fixed-width integers: lemmas -/

theorem length_to_le (w n : Nat) : (to_le w n).length = w := by
  induction w generalizing n with
  | zero => rfl
  | succ w ih => simp [to_le, ih]

theorem of_le_to_le (w n : Nat) : of_le (to_le w n) = n % 256 ^ w := by
  induction w generalizing n with
  | zero => simp [to_le, of_le, Nat.mod_one]
  | succ w ih =>
    simp only [to_le, of_le, ih]
    rw [pow_succ, Nat.mul_comm (256 ^ w) 256, Nat.mod_mul]

theorem of_le_to_le_of_lt (w n : Nat) (h : n < 256 ^ w) : of_le (to_le w n) = n := by
  rw [of_le_to_le, Nat.mod_eq_of_lt h]

theorem to_le_of_le (bs : List Nat) (h : ∀ b ∈ bs, b < 256) :
    to_le bs.length (of_le bs) = bs := by
  induction bs with
  | nil => rfl
  | cons b bs ih =>
    have hb : b < 256 := h b (List.mem_cons_self _ _)
    have ih1 := ih (fun c hc => h c (List.mem_cons_of_mem _ hc))
    simp only [List.length_cons, to_le, of_le]
    have h1 : (b + 256 * of_le bs) % 256 = b := by omega
    have h2 : (b + 256 * of_le bs) / 256 = of_le bs := by omega
    rw [h1, h2, ih1]

theorem hash_filename_loop_lt (s : List Nat) (hash : Nat) (h : hash < 2 ^ 64) :
    hash_filename_loop s hash < 2 ^ 64 := by
  induction s generalizing hash with
  | nil => simpa [hash_filename_loop] using h
  | cons c rest ih =>
    simp only [hash_filename_loop]
    split
    · exact h
    · exact ih _ (Nat.mod_lt _ (by norm_num))

theorem hash_filename_lt (s : List Nat) : hash_filename s < 2 ^ 64 :=
  hash_filename_loop_lt s _ (by norm_num [hash_filename])

theorem hash_filename_loop_ascii (s : List Nat) (hash : Nat)
    (h : ∀ c ∈ s, 0 < c ∧ c < 128) :
    hash_filename_loop s hash
      = s.foldl (fun acc b => ((acc ^^^ b) * 0x100000001B3) % 2 ^ 64) hash := by
  induction s generalizing hash with
  | nil => rfl
  | cons c rest ih =>
    have hc := h c (List.mem_cons_self _ _)
    have hne : c ≠ 0 := by omega
    simp only [hash_filename_loop, hne, if_false, List.foldl_cons, char_to_u64, hc.2, if_true]
    exact ih _ (fun d hd => h d (List.mem_cons_of_mem _ hd))

/-- On names made of the characters `0x01..0x7F` the code computes the reference hash. -/
theorem hash_filename_eq_reference_of_ascii (s : List Nat) (h : ∀ c ∈ s, 0 < c ∧ c < 128) :
    hash_filename s = fnv1a_64_reference s :=
  hash_filename_loop_ascii s _ h

theorem hash_filename_std_string_loop (s : List Nat) (hash : Nat) :
    hash_filename_loop (std_string s) hash = hash_filename_loop s hash := by
  induction s generalizing hash with
  | nil => rfl
  | cons c rest ih =>
    by_cases hc : c = 0
    · simp [std_string, hash_filename_loop, hc]
    · have : std_string (c :: rest) = c :: std_string rest := by
        simp [std_string, List.takeWhile_cons, hc]
      rw [this]
      simp only [hash_filename_loop, hc, if_false]
      exact ih _

theorem hash_filename_std_string (s : List Nat) :
    hash_filename (std_string s) = hash_filename s :=
  hash_filename_std_string_loop s _

/-! ## Writing at the end of a file -/

theorem fwrite_content_at_end (buf : List Nat) (f : FILE) (h : f.pos = f.content.length) :
    (fwrite buf f).content = f.content ++ buf := by
  simp [fwrite, h]

theorem fwrite_pos_at_end (buf : List Nat) (f : FILE) (h : f.pos = f.content.length) :
    (fwrite buf f).pos = (fwrite buf f).content.length := by
  simp [fwrite, h]

theorem save_package_entries_at_end (es : List EntryInfo) (data_offset : Nat) (f : FILE)
    (h : f.pos = f.content.length) :
    (save_package_entries es data_offset f).content
        = f.content ++ (entry_records es data_offset).flatMap PackageEntry.to_bytes
      ∧ (save_package_entries es data_offset f).pos
        = (save_package_entries es data_offset f).content.length := by
  induction es generalizing data_offset f with
  | nil => simp [save_package_entries, entry_records, h]
  | cons e rest ih =>
    simp only [save_package_entries, entry_records, List.flatMap_cons]
    have h1 := ih ((data_offset + e.size_in_bytes) % 2 ^ 64) (fwrite _ f)
      (fwrite_pos_at_end (PackageEntry.to_bytes
        { filename_hash := e.filename_hash, data_size_in_bytes := e.size_in_bytes,
          data_offset_in_bytes := data_offset }) f h)
    refine ⟨?_, h1.2⟩
    rw [h1.1, fwrite_content_at_end _ _ h, List.append_assoc]

theorem save_package_data_at_end (info : PackageInfo) (es : List EntryInfo) (f : FILE)
    (h : f.pos = f.content.length) :
    (save_package_data info es f).content = f.content ++ es.flatMap (entry_data info)
      ∧ (save_package_data info es f).pos = (save_package_data info es f).content.length := by
  induction es generalizing f with
  | nil => simp [save_package_data, h]
  | cons e rest ih =>
    simp only [save_package_data, List.flatMap_cons]
    have h1 := ih (fwrite (entry_data info e) f) (fwrite_pos_at_end _ f h)
    refine ⟨?_, h1.2⟩
    rw [h1.1, fwrite_content_at_end _ _ h, List.append_assoc]

/-- The stream `save_package` produces: header, records, data. -/
theorem save_package_content (info : PackageInfo) :
    (save_package info).content
      = (save_package_header info).to_bytes
        ++ (entry_records info.entries 0).flatMap PackageEntry.to_bytes
        ++ info.entries.flatMap (entry_data info) := by
  have hw : (fopen_wb).pos = (fopen_wb).content.length := by simp [fopen_wb]
  have h0 := fwrite_pos_at_end (save_package_header info).to_bytes fopen_wb hw
  have h1 := save_package_entries_at_end info.entries 0 _ h0
  have h2 := save_package_data_at_end info info.entries _ h1.2
  have h3 := fwrite_content_at_end (save_package_header info).to_bytes fopen_wb hw
  have h4 : (fopen_wb).content = [] := by simp [fopen_wb]
  unfold save_package
  rw [h2.1, h1.1, h3, h4, List.nil_append]

theorem length_flags_to_bytes (fl : PackageFlags) : fl.to_bytes.length = 8 := by
  simp [PackageFlags.to_bytes, length_to_le]

theorem length_header_to_bytes (h : PackageHeader) : h.to_bytes.length = 64 := by
  simp [PackageHeader.to_bytes, length_to_le, length_flags_to_bytes, List.range_succ, List.flatMap_cons]

theorem length_entry_to_bytes (e : PackageEntry) : e.to_bytes.length = 24 := by
  simp [PackageEntry.to_bytes, length_to_le]

theorem length_manifest_header_to_bytes (h : PackageManifestHeader) : h.to_bytes.length = 16 := by
  simp [PackageManifestHeader.to_bytes, length_to_le]

theorem length_entry_records (es : List EntryInfo) (off : Nat) :
    (entry_records es off).length = es.length := by
  induction es generalizing off with
  | nil => rfl
  | cons e rest ih => simp [entry_records, ih]

theorem length_flatMap_entry_to_bytes (rs : List PackageEntry) :
    (rs.flatMap PackageEntry.to_bytes).length = 24 * rs.length := by
  induction rs with
  | nil => rfl
  | cons r rest ih =>
    simp only [List.flatMap_cons, List.length_append, List.length_cons, ih, length_entry_to_bytes]
    omega

theorem length_flatMap_entry_data (info : PackageInfo) (es : List EntryInfo)
    (h : ∀ e ∈ es, (entry_data info e).length = e.size_in_bytes) :
    (es.flatMap (entry_data info)).length = total_size es := by
  induction es with
  | nil => rfl
  | cons e rest ih =>
    simp only [List.flatMap_cons, List.length_append, total_size, List.map_cons, List.sum_cons]
    rw [h e (List.mem_cons_self _ _)]
    have := ih (fun d hd => h d (List.mem_cons_of_mem _ hd))
    simp only [total_size] at this
    rw [this]

/-! ## Reading back what was written -/

theorem take_append_len {α : Type} (a b : List α) (n : Nat) (h : a.length = n) :
    (a ++ b).take n = a := by
  subst h; simp

theorem drop_append_len {α : Type} (a b : List α) (n : Nat) (h : a.length = n) :
    (a ++ b).drop n = b := by
  subst h; simp

theorem entry_of_bytes_to_bytes (e : PackageEntry) (h1 : e.data_offset_in_bytes < 2 ^ 64)
    (h2 : e.data_size_in_bytes < 2 ^ 64) (h3 : e.filename_hash < 2 ^ 64) :
    PackageEntry.of_bytes e.to_bytes = e := by
  have e1 : (to_le 8 e.data_offset_in_bytes ++ to_le 8 e.data_size_in_bytes
      ++ to_le 8 e.filename_hash).take 8 = to_le 8 e.data_offset_in_bytes := by
    rw [List.append_assoc]; exact take_append_len _ _ 8 (length_to_le _ _)
  have e2 : (to_le 8 e.data_offset_in_bytes ++ to_le 8 e.data_size_in_bytes
      ++ to_le 8 e.filename_hash).drop 8 = to_le 8 e.data_size_in_bytes ++ to_le 8 e.filename_hash := by
    rw [List.append_assoc]; exact drop_append_len _ _ 8 (length_to_le _ _)
  have e3 : (to_le 8 e.data_offset_in_bytes ++ to_le 8 e.data_size_in_bytes
      ++ to_le 8 e.filename_hash).drop 16 = to_le 8 e.filename_hash := by
    exact drop_append_len _ _ 16 (by simp [length_to_le])
  have p64 : (2 : Nat) ^ 64 = 256 ^ 8 := by norm_num
  cases e with
  | mk o s hsh =>
    simp only [PackageEntry.of_bytes, PackageEntry.to_bytes] at *
    rw [e1, e2, e3, take_append_len _ _ 8 (length_to_le _ _),
      List.take_of_length_le (by simp [length_to_le])]
    rw [of_le_to_le_of_lt 8 o (p64 ▸ h1), of_le_to_le_of_lt 8 s (p64 ▸ h2),
      of_le_to_le_of_lt 8 hsh (p64 ▸ h3)]

theorem entries_of_bytes_records (rs : List PackageEntry) (rest : List Nat) (n : Nat)
    (hn : n = rs.length)
    (h : ∀ r ∈ rs, r.data_offset_in_bytes < 2 ^ 64 ∧ r.data_size_in_bytes < 2 ^ 64
      ∧ r.filename_hash < 2 ^ 64) :
    entries_of_bytes n ((rs.flatMap PackageEntry.to_bytes ++ rest).take (n * sizeof_PackageEntry))
      = rs := by
  subst hn
  have ht : (rs.flatMap PackageEntry.to_bytes ++ rest).take (rs.length * sizeof_PackageEntry)
      = rs.flatMap PackageEntry.to_bytes :=
    take_append_len _ _ _ (by rw [length_flatMap_entry_to_bytes, sizeof_PackageEntry]; omega)
  rw [ht]
  clear ht
  induction rs with
  | nil => rfl
  | cons r rs ih =>
    have hr := h r (List.mem_cons_self _ _)
    simp only [List.length_cons, entries_of_bytes, List.flatMap_cons, sizeof_PackageEntry]
    have hl : ¬ (r.to_bytes ++ rs.flatMap PackageEntry.to_bytes).length < 24 := by
      simp [length_entry_to_bytes]
    rw [if_neg hl, take_append_len _ _ 24 (length_entry_to_bytes r),
      drop_append_len _ _ 24 (length_entry_to_bytes r),
      entry_of_bytes_to_bytes r hr.1 hr.2.1 hr.2.2,
      ih (fun d hd => h d (List.mem_cons_of_mem _ hd))]

theorem header_of_bytes_to_bytes (h : PackageHeader) :
    (PackageHeader.of_bytes h.to_bytes).magic = h.magic % 2 ^ 32
      ∧ (PackageHeader.of_bytes h.to_bytes).version = h.version % 2 ^ 32
      ∧ (PackageHeader.of_bytes h.to_bytes).entries_count = h.entries_count % 2 ^ 64
      ∧ (PackageHeader.of_bytes h.to_bytes).uncompressed_data_size_in_bytes
          = h.uncompressed_data_size_in_bytes % 2 ^ 64 := by
  have p32 : (2 : Nat) ^ 32 = 256 ^ 4 := by norm_num
  have p64 : (2 : Nat) ^ 64 = 256 ^ 8 := by norm_num
  rw [p32, p64]
  simp only [PackageHeader.of_bytes, PackageHeader.to_bytes, List.append_assoc]
  have l4 := length_to_le 4
  have l8 := length_to_le 8
  have lf := length_flags_to_bytes h.flags
  refine ⟨?_, ?_, ?_, ?_⟩
  · rw [take_append_len _ _ 4 (l4 _), of_le_to_le]
  · rw [drop_append_len _ _ 4 (l4 _), take_append_len _ _ 4 (l4 _), of_le_to_le]
  · rw [← List.append_assoc, ← List.append_assoc,
      drop_append_len _ _ 16 (by simp [l4, lf]), take_append_len _ _ 8 (l8 _), of_le_to_le]
  · rw [← List.append_assoc, ← List.append_assoc, ← List.append_assoc,
      drop_append_len _ _ 24 (by simp [l4, l8, lf]), take_append_len _ _ 8 (l8 _), of_le_to_le]

theorem manifest_header_of_bytes_to_bytes (h : PackageManifestHeader) :
    (PackageManifestHeader.of_bytes h.to_bytes).magic = h.magic % 2 ^ 32
      ∧ (PackageManifestHeader.of_bytes h.to_bytes).version = h.version % 2 ^ 32
      ∧ (PackageManifestHeader.of_bytes h.to_bytes).filenames_size_in_bytes
          = h.filenames_size_in_bytes % 2 ^ 64 := by
  have p32 : (2 : Nat) ^ 32 = 256 ^ 4 := by norm_num
  have p64 : (2 : Nat) ^ 64 = 256 ^ 8 := by norm_num
  rw [p32, p64]
  simp only [PackageManifestHeader.of_bytes, PackageManifestHeader.to_bytes, List.append_assoc]
  have l4 := length_to_le 4
  have l8 := length_to_le 8
  refine ⟨?_, ?_, ?_⟩
  · rw [take_append_len _ _ 4 (l4 _), of_le_to_le]
  · rw [drop_append_len _ _ 4 (l4 _), take_append_len _ _ 4 (l4 _), of_le_to_le]
  · rw [← List.append_assoc, drop_append_len _ _ 8 (by simp [l4]),
      List.take_of_length_le (by simp [l8]), of_le_to_le]

/-! ## The hash index -/

theorem map_at_insert {α : Type} (m : List (Nat × α)) (k : Nat) (v : α) (h : Nat) :
    map_at (map_insert m k v) h
      = match map_at m h with
        | some x => some x
        | none => if k = h then some v else none := by
  unfold map_insert map_at
  cases hk : m.lookup k with
  | some x =>
    simp only
    cases hh : m.lookup h with
    | some y => rfl
    | none =>
      simp only
      have : k ≠ h := by
        intro e; subst e; rw [hk] at hh; exact Option.noConfusion hh
      rw [if_neg this]
  | none =>
    simp only [List.lookup_append]
    cases hh : m.lookup h with
    | some y => simp
    | none =>
      by_cases e : k = h
      · subst e; simp
      · have e2 : (h == k) = false := by
          simp only [beq_eq_false_iff_ne, ne_eq]; exact fun x => e x.symm
        simp [List.lookup, e, e2]

/-- After the loop of `load_package_version_1`, a lookup gives what the map held
before, and otherwise the first record with that hash. -/
theorem load_package_index_at (rs : List PackageEntry) (package : Package) (h : Nat) :
    map_at (load_package_index rs package).filename_hash_to_data h
        = (match map_at package.filename_hash_to_data h with
          | some x => some x
          | none => (rs.find? (fun r => r.filename_hash == h)).map
              (fun r => r.data_offset_in_bytes))
      ∧ map_at (load_package_index rs package).filename_hash_to_data_size h
        = (match map_at package.filename_hash_to_data_size h with
          | some x => some x
          | none => (rs.find? (fun r => r.filename_hash == h)).map
              (fun r => r.data_size_in_bytes)) := by
  induction rs generalizing package with
  | nil =>
    simp only [load_package_index, List.find?_nil, Option.map_none']
    constructor <;> split <;> simp_all
  | cons r rest ih =>
    simp only [load_package_index]
    have ih1 := ih { package with
        filename_hash_to_data :=
          map_insert package.filename_hash_to_data r.filename_hash r.data_offset_in_bytes
        filename_hash_to_data_size :=
          map_insert package.filename_hash_to_data_size r.filename_hash r.data_size_in_bytes }
    rw [ih1.1, ih1.2]
    simp only [map_at_insert, List.find?_cons]
    constructor
    · cases map_at package.filename_hash_to_data h with
      | some x => rfl
      | none =>
        by_cases e : r.filename_hash = h
        · simp [e]
        · have e2 : (r.filename_hash == h) = false := by
            simp only [beq_eq_false_iff_ne, ne_eq]; exact e
          simp [e, e2]
    · cases map_at package.filename_hash_to_data_size h with
      | some x => rfl
      | none =>
        by_cases e : r.filename_hash = h
        · simp [e]
        · have e2 : (r.filename_hash == h) = false := by
            simp only [beq_eq_false_iff_ne, ne_eq]; exact e
          simp [e, e2]

theorem load_package_index_frame (rs : List PackageEntry) (package : Package) :
    (load_package_index rs package).header = package.header
      ∧ (load_package_index rs package).entries = package.entries
      ∧ (load_package_index rs package).data = package.data := by
  induction rs generalizing package with
  | nil => simp [load_package_index]
  | cons r rest ih =>
    simp only [load_package_index]
    have ih1 := ih { package with
        filename_hash_to_data :=
          map_insert package.filename_hash_to_data r.filename_hash r.data_offset_in_bytes
        filename_hash_to_data_size :=
          map_insert package.filename_hash_to_data_size r.filename_hash r.data_size_in_bytes }
    exact ih1

/-! ## Loading a stream with the layout of `save_package` -/

theorem load_package_version_1_layout (package : Package) (hb : List Nat)
    (rs : List PackageEntry) (d : List Nat) (hlen : hb.length = 64)
    (hcount : package.header.entries_count = rs.length)
    (hrs : ∀ r ∈ rs, r.data_offset_in_bytes < 2 ^ 64 ∧ r.data_size_in_bytes < 2 ^ 64
      ∧ r.filename_hash < 2 ^ 64) :
    (load_package_version_1 package
        { content := hb ++ rs.flatMap PackageEntry.to_bytes ++ d, pos := 64 }).status
        = LoadStatus.loaded
      ∧ (load_package_version_1 package
        { content := hb ++ rs.flatMap PackageEntry.to_bytes ++ d, pos := 64 }).value
        = load_package_index rs
            { package with
              entries := rs
              data := d.take package.header.uncompressed_data_size_in_bytes } := by
  have hdrop : (hb ++ rs.flatMap PackageEntry.to_bytes ++ d).drop 64
      = rs.flatMap PackageEntry.to_bytes ++ d := by
    rw [List.append_assoc]; exact drop_append_len _ _ 64 hlen
  have hents : entries_of_bytes rs.length
      ((rs.flatMap PackageEntry.to_bytes ++ d).take (rs.length * sizeof_PackageEntry)) = rs :=
    entries_of_bytes_records rs d _ rfl hrs
  have htake : ((rs.flatMap PackageEntry.to_bytes ++ d).take
      (rs.length * sizeof_PackageEntry)).length = 24 * rs.length := by
    rw [take_append_len _ _ _ (by
      rw [length_flatMap_entry_to_bytes, sizeof_PackageEntry]; omega),
      length_flatMap_entry_to_bytes]
  have hdata : (hb ++ rs.flatMap PackageEntry.to_bytes ++ d).drop (64 + 24 * rs.length) = d :=
    drop_append_len _ _ _ (by rw [List.length_append, hlen, length_flatMap_entry_to_bytes])
  unfold load_package_version_1
  simp only [fread, hcount]
  simp only [hdrop, hents, htake, hdata, lt_irrefl, if_false]
  exact ⟨trivial, trivial⟩

theorem load_package_layout (package : Package) (h : PackageHeader)
    (rs : List PackageEntry) (d : List Nat)
    (hmagic : h.magic = PACKAGE_MAGIC) (hversion : h.version = 1)
    (hcount : h.entries_count = rs.length) (hcount64 : rs.length < 2 ^ 64)
    (hrs : ∀ r ∈ rs, r.data_offset_in_bytes < 2 ^ 64 ∧ r.data_size_in_bytes < 2 ^ 64
      ∧ r.filename_hash < 2 ^ 64) :
    (load_package package (h.to_bytes ++ rs.flatMap PackageEntry.to_bytes ++ d)).status
        = LoadStatus.loaded
      ∧ (load_package package (h.to_bytes ++ rs.flatMap PackageEntry.to_bytes ++ d)).value
        = load_package_index rs
            { package with
              header := PackageHeader.of_bytes h.to_bytes
              entries := rs
              data := d.take (h.uncompressed_data_size_in_bytes % 2 ^ 64) } := by
  have hl := length_header_to_bytes h
  have hd := header_of_bytes_to_bytes h
  have hsize : ¬ (h.to_bytes ++ rs.flatMap PackageEntry.to_bytes ++ d).length < 64 := by
    simp [hl]
  have htake : (h.to_bytes ++ rs.flatMap PackageEntry.to_bytes ++ d).take 64 = h.to_bytes := by
    rw [List.append_assoc]; exact take_append_len _ _ 64 hl
  have hm : (PackageHeader.of_bytes h.to_bytes).magic = PACKAGE_MAGIC := by
    rw [hd.1, hmagic]; decide
  have hv : (PackageHeader.of_bytes h.to_bytes).version = 1 := by
    rw [hd.2.1, hversion]; norm_num
  have hc : (PackageHeader.of_bytes h.to_bytes).entries_count = rs.length := by
    rw [hd.2.2.1, hcount, Nat.mod_eq_of_lt hcount64]
  have hv1 := load_package_version_1_layout
    { package with header := PackageHeader.of_bytes h.to_bytes } h.to_bytes rs d hl hc hrs
  unfold load_package
  simp only [file_size, fopen_rb, sizeof_PackageHeader, hsize, if_false, fread, List.drop_zero,
    htake, hl, Nat.zero_add, hm, ne_eq, not_true_eq_false, hv, PACKAGE_VERSION, gt_iff_lt,
    lt_irrefl, if_true]
  rw [hd.2.2.2] at hv1
  exact hv1

/-! ## The records and the data section -/

theorem total_size_cons (e : EntryInfo) (es : List EntryInfo) :
    total_size (e :: es) = e.size_in_bytes + total_size es := by
  simp [total_size]

theorem total_size_append (es fs : List EntryInfo) :
    total_size (es ++ fs) = total_size es + total_size fs := by
  simp [total_size, List.sum_append]

theorem size_le_total_size (es : List EntryInfo) (e : EntryInfo) (h : e ∈ es) :
    e.size_in_bytes ≤ total_size es := by
  induction es with
  | nil => cases h
  | cons d rest ih =>
    rw [total_size_cons]
    rcases List.mem_cons.mp h with h1 | h1
    · subst h1; omega
    · have := ih h1; omega

theorem entry_records_getElem? (es : List EntryInfo) (off i : Nat) (hoff : off < 2 ^ 64)
    (e : EntryInfo) (hi : es[i]? = some e) :
    (entry_records es off)[i]?
      = some { data_offset_in_bytes := (off + total_size (es.take i)) % 2 ^ 64
               data_size_in_bytes := e.size_in_bytes
               filename_hash := e.filename_hash } := by
  induction es generalizing off i with
  | nil => simp at hi
  | cons d rest ih =>
    cases i with
    | zero =>
      simp only [List.getElem?_cons_zero, Option.some.injEq] at hi
      subst hi
      simp only [entry_records, List.getElem?_cons_zero, List.take_zero, total_size,
        List.map_nil, List.sum_nil, Nat.add_zero, Nat.mod_eq_of_lt hoff]
    | succ i =>
      simp only [List.getElem?_cons_succ] at hi
      simp only [entry_records, List.getElem?_cons_succ, List.take_succ_cons, total_size_cons]
      rw [ih ((off + d.size_in_bytes) % 2 ^ 64) i (Nat.mod_lt _ (by norm_num)) hi]
      have : ((off + d.size_in_bytes) % 2 ^ 64 + total_size (List.take i rest)) % 2 ^ 64
          = (off + (d.size_in_bytes + total_size (List.take i rest))) % 2 ^ 64 := by
        omega
      rw [this]

theorem entry_records_in_range (es : List EntryInfo) (off : Nat) (hoff : off < 2 ^ 64)
    (hes : ∀ e ∈ es, e.size_in_bytes < 2 ^ 64 ∧ e.filename_hash < 2 ^ 64) :
    ∀ r ∈ entry_records es off, r.data_offset_in_bytes < 2 ^ 64 ∧ r.data_size_in_bytes < 2 ^ 64
      ∧ r.filename_hash < 2 ^ 64 := by
  induction es generalizing off with
  | nil => intro r hr; simp [entry_records] at hr
  | cons d rest ih =>
    intro r hr
    simp only [entry_records, List.mem_cons] at hr
    have hd := hes d (List.mem_cons_self _ _)
    rcases hr with hr | hr
    · subst hr; exact ⟨hoff, hd.1, hd.2⟩
    · exact ih _ (Nat.mod_lt _ (by norm_num)) (fun e he => hes e (List.mem_cons_of_mem _ he)) r hr

/-- The first record with a given hash belongs to the first entry with that
hash, and the bytes it delimits in the data section are the data of that entry. -/
theorem data_slice_of_first_record (info : PackageInfo) (h : Nat) (es : List EntryInfo)
    (off : Nat) (d0 : List Nat) (hd0 : d0.length = off)
    (hfit : off + total_size es < 2 ^ 64)
    (hes : ∀ e ∈ es, (entry_data info e).length = e.size_in_bytes) :
    ((entry_records es off).find? (fun r => r.filename_hash == h)).map
        (fun r => (r.data_offset_in_bytes, r.data_size_in_bytes,
          ((d0 ++ es.flatMap (entry_data info)).drop r.data_offset_in_bytes).take
            r.data_size_in_bytes))
      = (es.find? (fun e => e.filename_hash == h)).map
        (fun e => (off + total_size (es.takeWhile (fun e => !(e.filename_hash == h))),
          e.size_in_bytes, entry_data info e)) := by
  induction es generalizing off d0 with
  | nil => simp [entry_records]
  | cons d rest ih =>
    rw [total_size_cons] at hfit
    have hdl := hes d (List.mem_cons_self _ _)
    by_cases e : d.filename_hash = h
    · simp only [entry_records, List.find?_cons, e, beq_self_eq_true, Option.map_some',
        List.flatMap_cons, List.takeWhile_cons, Bool.not_true]
      rw [← List.append_assoc, List.append_assoc d0, drop_append_len _ _ off hd0,
        take_append_len _ _ _ hdl]
      simp [total_size]
    · have e2 : (d.filename_hash == h) = false := by
        simp only [beq_eq_false_iff_ne, ne_eq]; exact e
      have htw : List.takeWhile (fun e => !(e.filename_hash == h)) (d :: rest)
          = d :: List.takeWhile (fun e => !(e.filename_hash == h)) rest := by
        simp [List.takeWhile_cons, e2]
      simp only [entry_records, List.find?_cons, e2, List.flatMap_cons, htw, total_size_cons]
      have hmod : (off + d.size_in_bytes) % 2 ^ 64 = off + d.size_in_bytes :=
        Nat.mod_eq_of_lt (by omega)
      rw [hmod]
      have := ih (off + d.size_in_bytes) (d0 ++ entry_data info d)
        (by rw [List.length_append, hd0, hdl]) (by omega)
        (fun x hx => hes x (List.mem_cons_of_mem _ hx))
      rw [List.append_assoc] at this
      rw [this]
      simp only [Nat.add_assoc]

theorem total_size_takeWhile_le (es : List EntryInfo) (e : EntryInfo) (h : Nat)
    (hf : es.find? (fun e => e.filename_hash == h) = some e) :
    total_size (es.takeWhile (fun e => !(e.filename_hash == h))) + e.size_in_bytes
      ≤ total_size es := by
  induction es with
  | nil => simp at hf
  | cons d rest ih =>
    by_cases c : d.filename_hash = h
    · simp only [List.find?_cons, c, beq_self_eq_true, Option.some.injEq] at hf
      subst hf
      simp [List.takeWhile_cons, c, total_size]
    · have e2 : (d.filename_hash == h) = false := by
        simp only [beq_eq_false_iff_ne, ne_eq]; exact c
      simp only [List.find?_cons, e2] at hf
      have htw : List.takeWhile (fun e => !(e.filename_hash == h)) (d :: rest)
          = d :: List.takeWhile (fun e => !(e.filename_hash == h)) rest := by
        simp [List.takeWhile_cons, e2]
      rw [htw, total_size_cons, total_size_cons]
      have := ih hf
      omega

/-- Loading what `save_package` wrote: the loader succeeds and holds the written
header, the written records and the written data. -/
theorem load_save_package (info : PackageInfo) (package : Package)
    (hcount : info.entries.length < 2 ^ 64)
    (hhash : ∀ e ∈ info.entries, e.filename_hash < 2 ^ 64)
    (htotal : total_size info.entries < 2 ^ 64) :
    (load_package package (save_package info).content).status = LoadStatus.loaded
      ∧ (load_package package (save_package info).content).value
        = load_package_index (entry_records info.entries 0)
            { package with
              header := PackageHeader.of_bytes (save_package_header info).to_bytes
              entries := entry_records info.entries 0
              data := (info.entries.flatMap (entry_data info)).take
                (info.data_size_in_bytes % 2 ^ 64) } := by
  rw [save_package_content]
  have hes : ∀ e ∈ info.entries, e.size_in_bytes < 2 ^ 64 ∧ e.filename_hash < 2 ^ 64 := by
    intro e he
    have := size_le_total_size _ e he
    exact ⟨by omega, hhash e he⟩
  exact load_package_layout package (save_package_header info) (entry_records info.entries 0)
    (info.entries.flatMap (entry_data info)) rfl rfl
    (by rw [length_entry_records]; rfl) (by rw [length_entry_records]; exact hcount)
    (entry_records_in_range _ 0 (by norm_num) hes)

/-- Looking a hash up in a package that was saved and loaded gives the data of
the first builder entry with that hash. -/
theorem package_entry_bytes_load_save (info : PackageInfo)
    (hinv : info.data_size_in_bytes = total_size info.entries)
    (hcount : info.entries.length < 2 ^ 64)
    (hhash : ∀ e ∈ info.entries, e.filename_hash < 2 ^ 64)
    (htotal : total_size info.entries < 2 ^ 64)
    (hread : ∀ e ∈ info.entries, (entry_data info e).length = e.size_in_bytes) (h : Nat) :
    package_entry_bytes (load_package Package.declared (save_package info).content).value h
      = (info.entries.find? (fun e => e.filename_hash == h)).map (entry_data info) := by
  have hl := (load_save_package info Package.declared hcount hhash htotal).2
  have hidx := load_package_index_at (entry_records info.entries 0)
    { Package.declared with
      header := PackageHeader.of_bytes (save_package_header info).to_bytes
      entries := entry_records info.entries 0
      data := (info.entries.flatMap (entry_data info)).take
        (info.data_size_in_bytes % 2 ^ 64) } h
  have hfr := load_package_index_frame (entry_records info.entries 0)
    { Package.declared with
      header := PackageHeader.of_bytes (save_package_header info).to_bytes
      entries := entry_records info.entries 0
      data := (info.entries.flatMap (entry_data info)).take
        (info.data_size_in_bytes % 2 ^ 64) }
  have hlen := length_flatMap_entry_data info info.entries hread
  have hdata : (info.entries.flatMap (entry_data info)).take (info.data_size_in_bytes % 2 ^ 64)
      = info.entries.flatMap (entry_data info) := by
    rw [hinv, Nat.mod_eq_of_lt htotal]
    exact List.take_of_length_le (by omega)
  have hslice := data_slice_of_first_record info h info.entries 0 [] rfl (by omega) hread
  unfold package_entry_bytes
  rw [hl, hidx.1, hidx.2, hfr.2.2]
  simp only [Package.declared, map_at, List.lookup_nil, hdata]
  simp only [List.nil_append, Nat.zero_add] at hslice
  cases hr : (entry_records info.entries 0).find? (fun r => r.filename_hash == h) with
  | none =>
    rw [hr] at hslice
    cases he : info.entries.find? (fun e => e.filename_hash == h) with
    | none => simp
    | some e => rw [he] at hslice; simp at hslice
  | some r =>
    rw [hr] at hslice
    cases he : info.entries.find? (fun e => e.filename_hash == h) with
    | none => rw [he] at hslice; simp at hslice
    | some e =>
      rw [he] at hslice
      simp only [Option.map_some', Option.some.injEq, Prod.mk.injEq] at hslice
      have hb := total_size_takeWhile_le info.entries e h he
      simp only [Option.map_some']
      rw [if_pos (by rw [hlen, hslice.1, hslice.2.1]; exact hb), hslice.2.2]

/-! ## Builders made by `add_package_entry_from_memory` -/

theorem add_entries_fields (info : PackageInfo) (pairs : List (List Nat × List Nat))
    (h : info.data_size_in_bytes < 2 ^ 64) :
    (add_entries info pairs).entries
        = info.entries ++ pairs.map (fun p =>
            { size_in_bytes := p.2.length, data := DataPtr.caller p.2,
              filename_hash := hash_filename p.1 })
      ∧ (add_entries info pairs).filenames = info.filenames ++ pairs.map (fun p => std_string p.1)
      ∧ (add_entries info pairs).data_size_in_bytes
        = (info.data_size_in_bytes + (pairs.map (fun p => p.2.length)).sum) % 2 ^ 64
      ∧ (add_entries info pairs).memory_block = info.memory_block
      ∧ (add_entries info pairs).memory_block_capacity = info.memory_block_capacity
      ∧ (add_entries info pairs).flags = info.flags := by
  induction pairs generalizing info with
  | nil => simp only [add_entries, List.foldl_nil, List.map_nil, List.append_nil, List.sum_nil,
      Nat.add_zero, Nat.mod_eq_of_lt h, and_self]
  | cons p rest ih =>
    have ih1 := ih (add_package_entry_from_memory info p.1 p.2.length (DataPtr.caller p.2))
      (by simp only [add_package_entry_from_memory]; exact Nat.mod_lt _ (by norm_num))
    simp only [add_entries, List.foldl_cons] at ih1 ⊢
    obtain ⟨h1, h2, h3, h4, h5, h6⟩ := ih1
    refine ⟨?_, ?_, ?_, ?_, ?_, ?_⟩
    · rw [h1]; simp [add_package_entry_from_memory]
    · rw [h2]; simp [add_package_entry_from_memory]
    · rw [h3]; simp only [add_package_entry_from_memory, List.map_cons, List.sum_cons]; omega
    · rw [h4]; simp [add_package_entry_from_memory]
    · rw [h5]; simp [add_package_entry_from_memory]
    · rw [h6]; simp [add_package_entry_from_memory]

theorem find?_of_first {α : Type} (q : α → Bool) (l : List α) (i : Nat) (a : α)
    (ha : l[i]? = some a) (hq : q a = true)
    (hfirst : ∀ j x, j < i → l[j]? = some x → q x = false) :
    l.find? q = some a := by
  induction l generalizing i with
  | nil => simp at ha
  | cons b rest ih =>
    cases i with
    | zero =>
      simp only [List.getElem?_cons_zero, Option.some.injEq] at ha
      subst ha
      simp [List.find?_cons, hq]
    | succ i =>
      have hb : q b = false := hfirst 0 b (Nat.succ_pos _) (by simp)
      simp only [List.getElem?_cons_succ] at ha
      simp only [List.find?_cons, hb]
      exact ih i ha (fun j x hj hx => hfirst (j + 1) x (by omega) (by simpa using hx))

/-! ## C1: package round trip -/

/-- C1, as amended. For every sequence of (name, bytes) pairs added to an empty
builder with `add_package_entry_from_memory` (fewer than `2 ^ 64` pairs and
bytes in all), `load_package` succeeds on the stream of `save_package`, and the
lookup by `hash_filename name` yields the bytes of the first pair of the
sequence whose name has that hash: so exactly the bytes added under a name
whenever no earlier pair has a name with the same hash. -/
theorem package_round_trip_first_added (flags : PackageFlags) (capacity : Nat)
    (pairs : List (List Nat × List Nat)) (hcount : pairs.length < 2 ^ 64)
    (hsize : (pairs.map (fun p => p.2.length)).sum < 2 ^ 64) :
    (load_package Package.declared
        (save_package (add_entries (create_package_info flags capacity) pairs)).content).status
        = LoadStatus.loaded
      ∧ (∀ name : List Nat,
          package_entry_bytes (load_package Package.declared
            (save_package (add_entries (create_package_info flags capacity) pairs)).content).value
            (hash_filename name)
          = (pairs.find? (fun p => hash_filename p.1 == hash_filename name)).map (fun p => p.2))
      ∧ (∀ (i : Nat) (name bytes : List Nat), pairs[i]? = some (name, bytes) →
          (∀ j x, j < i → pairs[j]? = some x → hash_filename x.1 ≠ hash_filename name) →
          package_entry_bytes (load_package Package.declared
            (save_package (add_entries (create_package_info flags capacity) pairs)).content).value
            (hash_filename name) = some bytes) := by
  obtain ⟨he, _, hd, _, _, _⟩ := add_entries_fields (create_package_info flags capacity) pairs
    (by simp [create_package_info])
  have he0 : (create_package_info flags capacity).entries = [] := rfl
  have hd0 : (create_package_info flags capacity).data_size_in_bytes = 0 := rfl
  rw [he0, List.nil_append] at he
  rw [hd0, Nat.zero_add] at hd
  have htot : total_size (add_entries (create_package_info flags capacity) pairs).entries
      = (pairs.map (fun p => p.2.length)).sum := by
    rw [he, total_size, List.map_map]; rfl
  have hinv : (add_entries (create_package_info flags capacity) pairs).data_size_in_bytes
      = total_size (add_entries (create_package_info flags capacity) pairs).entries := by
    rw [hd, htot, Nat.mod_eq_of_lt hsize]
  have hcount1 : (add_entries (create_package_info flags capacity) pairs).entries.length < 2 ^ 64 := by
    rw [he, List.length_map]; exact hcount
  have hhash : ∀ e ∈ (add_entries (create_package_info flags capacity) pairs).entries,
      e.filename_hash < 2 ^ 64 := by
    intro e hmem
    rw [he] at hmem
    obtain ⟨p, _, rfl⟩ := List.mem_map.mp hmem
    exact hash_filename_lt _
  have hread : ∀ e ∈ (add_entries (create_package_info flags capacity) pairs).entries,
      (entry_data (add_entries (create_package_info flags capacity) pairs) e).length
        = e.size_in_bytes := by
    intro e hmem
    rw [he] at hmem
    obtain ⟨p, _, rfl⟩ := List.mem_map.mp hmem
    simp [entry_data]
  have hlookup : ∀ name : List Nat,
      package_entry_bytes (load_package Package.declared
        (save_package (add_entries (create_package_info flags capacity) pairs)).content).value
        (hash_filename name)
      = (pairs.find? (fun p => hash_filename p.1 == hash_filename name)).map (fun p => p.2) := by
    intro name
    rw [package_entry_bytes_load_save _ hinv hcount1 hhash (htot ▸ hsize) hread, he,
      List.find?_map, Option.map_map]
    have hpred : ((fun e : EntryInfo => e.filename_hash == hash_filename name) ∘
        fun p : List Nat × List Nat =>
          ({ size_in_bytes := p.2.length, data := DataPtr.caller p.2,
             filename_hash := hash_filename p.1 } : EntryInfo))
        = fun p => hash_filename p.1 == hash_filename name := rfl
    have hfun : (entry_data (add_entries (create_package_info flags capacity) pairs) ∘
        fun p : List Nat × List Nat =>
          ({ size_in_bytes := p.2.length, data := DataPtr.caller p.2,
             filename_hash := hash_filename p.1 } : EntryInfo))
        = fun p => p.2 := by
      funext p; simp [entry_data]
    rw [hpred, hfun]
  refine ⟨(load_save_package _ _ hcount1 hhash (htot ▸ hsize)).1, hlookup, ?_⟩
  intro i name bytes hi hfirst
  rw [hlookup name, find?_of_first _ pairs i (name, bytes) hi (by simp)
    (fun j x hj hx => by simpa using hfirst j x hj hx)]
  rfl

/-- Witness of C1: the entries `apple` and `banana` of the example program. -/
theorem package_round_trip_first_added_witness :
    example_pairs.length < 2 ^ 64
      ∧ (example_pairs.map (fun p => p.2.length)).sum < 2 ^ 64
      ∧ package_entry_bytes (load_package Package.declared
          (save_package (add_entries (create_package_info example_flags 1048576)
            example_pairs)).content).value
          (hash_filename [98, 97, 110, 97, 110, 97])
        = some [0, 0, 128, 63, 0, 0, 0, 64, 0, 0, 64, 64, 0, 0, 128, 64] :=
  ⟨by decide, by decide,
    (package_round_trip_first_added example_flags 1048576 example_pairs
      (by decide) (by decide)).2.2 1 _ _ rfl (by
        intro j x hj hx
        have hj0 : j = 0 := by omega
        subst hj0
        simp only [example_pairs, List.getElem?_cons_zero, Option.some.injEq] at hx
        subst hx
        decide)⟩

set_option maxRecDepth 100000 in
/-- C1 as stated fails: two names with the same hash are added with different
bytes, and the lookup by the second name yields the bytes of the first. -/
theorem package_round_trip_counterexample :
    (colliding_name_2, [2]) ∈ [(colliding_name_1, [1]), (colliding_name_2, [2])]
      ∧ (load_package Package.declared
          (save_package (add_entries (create_package_info example_flags 0)
            [(colliding_name_1, [1]), (colliding_name_2, [2])])).content).status
        = LoadStatus.loaded
      ∧ package_entry_bytes (load_package Package.declared
          (save_package (add_entries (create_package_info example_flags 0)
            [(colliding_name_1, [1]), (colliding_name_2, [2])])).content).value
          (hash_filename colliding_name_2) = some [1] := by
  decide

/-! ## C3: the hash -/

/-- C3 fails on the code: for the name `é` (the UTF-8 bytes `C3 A9`)
`hash_filename` sign-extends both characters and returns
`0x080D7307B4CC3001`, where the reference FNV-1a gives `0x0AC21707B7181E01`. -/
theorem hash_filename_high_bytes :
    hash_filename [0xC3, 0xA9] = 0x080D7307B4CC3001
      ∧ fnv1a_64_reference [0xC3, 0xA9] = 0x0AC21707B7181E01
      ∧ hash_filename [0xC3, 0xA9] ≠ fnv1a_64_reference [0xC3, 0xA9] := by
  decide

/-! ## C4: offsets of the records -/

theorem entry_bytes_chunk (rs : List PackageEntry) (i : Nat) (r : PackageEntry)
    (hr : rs[i]? = some r) (rest : List Nat) :
    ((rs.flatMap PackageEntry.to_bytes ++ rest).drop (24 * i)).take 24 = r.to_bytes := by
  induction rs generalizing i with
  | nil => simp at hr
  | cons a as ih =>
    cases i with
    | zero =>
      simp only [List.getElem?_cons_zero, Option.some.injEq] at hr
      subst hr
      simp only [List.flatMap_cons, Nat.mul_zero, List.drop_zero, List.append_assoc]
      exact take_append_len _ _ 24 (length_entry_to_bytes a)
    | succ i =>
      simp only [List.getElem?_cons_succ] at hr
      have h24 : 24 * (i + 1) = 24 + 24 * i := by omega
      rw [List.flatMap_cons, List.append_assoc, h24, ← List.drop_drop,
        drop_append_len _ _ 24 (length_entry_to_bytes a)]
      exact ih i hr

/-- C4. For every builder (fewer than `2 ^ 64` entries and bytes in all, hashes
that are `uint64_t` values) and every index `i`: the `i`-th record in the stream
of `save_package`, which is also the `i`-th record `load_package` reads back,
has `data_offset_in_bytes` equal to the sum of `size_in_bytes` of the builder
entries before `i`, and has the size and the hash of builder entry `i`; the
record of entry 0 has offset 0. -/
theorem entry_record_offsets (info : PackageInfo) (package : Package)
    (hcount : info.entries.length < 2 ^ 64)
    (hhash : ∀ e ∈ info.entries, e.filename_hash < 2 ^ 64)
    (htotal : total_size info.entries < 2 ^ 64) :
    (load_package package (save_package info).content).status = LoadStatus.loaded
      ∧ (load_package package (save_package info).content).value.entries.length
        = info.entries.length
      ∧ (∀ (i : Nat) (e : EntryInfo), info.entries[i]? = some e →
          ((save_package info).content.drop (sizeof_PackageHeader + sizeof_PackageEntry * i)).take
              sizeof_PackageEntry
            = PackageEntry.to_bytes
                { data_offset_in_bytes := total_size (info.entries.take i)
                  data_size_in_bytes := e.size_in_bytes
                  filename_hash := e.filename_hash }
          ∧ (load_package package (save_package info).content).value.entries[i]?
            = some { data_offset_in_bytes := total_size (info.entries.take i)
                     data_size_in_bytes := e.size_in_bytes
                     filename_hash := e.filename_hash })
      ∧ (∀ e : EntryInfo, info.entries[0]? = some e →
          (load_package package (save_package info).content).value.entries[0]?
            = some { data_offset_in_bytes := 0
                     data_size_in_bytes := e.size_in_bytes
                     filename_hash := e.filename_hash }) := by
  have hl := load_save_package info package hcount hhash htotal
  have hfr := load_package_index_frame (entry_records info.entries 0)
    { package with
      header := PackageHeader.of_bytes (save_package_header info).to_bytes
      entries := entry_records info.entries 0
      data := (info.entries.flatMap (entry_data info)).take
        (info.data_size_in_bytes % 2 ^ 64) }
  have hents : (load_package package (save_package info).content).value.entries
      = entry_records info.entries 0 := by
    rw [hl.2, hfr.2.1]
  have hrec : ∀ (i : Nat) (e : EntryInfo), info.entries[i]? = some e →
      (entry_records info.entries 0)[i]?
        = some { data_offset_in_bytes := total_size (info.entries.take i)
                 data_size_in_bytes := e.size_in_bytes
                 filename_hash := e.filename_hash } := by
    intro i e hi
    rw [entry_records_getElem? info.entries 0 i (by norm_num) e hi, Nat.zero_add]
    have hle : total_size (info.entries.take i) ≤ total_size info.entries := by
      have := total_size_append (info.entries.take i) (info.entries.drop i)
      rw [List.take_append_drop] at this
      omega
    rw [Nat.mod_eq_of_lt (by omega)]
  refine ⟨hl.1, ?_, ?_, ?_⟩
  · rw [hents, length_entry_records]
  · intro i e hi
    refine ⟨?_, ?_⟩
    · rw [save_package_content, List.append_assoc, sizeof_PackageHeader, sizeof_PackageEntry,
        ← List.drop_drop, drop_append_len _ _ 64 (length_header_to_bytes _)]
      exact entry_bytes_chunk _ i _ (hrec i e hi) _
    · rw [hents]; exact hrec i e hi
  · intro e he
    rw [hents]
    have := hrec 0 e he
    simpa [total_size] using this

/-- Witness of C4: the record of `banana` in the example program. -/
theorem entry_record_offsets_witness :
    example_info.entries.length < 2 ^ 64
      ∧ (∀ e ∈ example_info.entries, e.filename_hash < 2 ^ 64)
      ∧ total_size example_info.entries < 2 ^ 64
      ∧ (load_package Package.declared (save_package example_info).content).value.entries[1]?
        = some { data_offset_in_bytes := 8, data_size_in_bytes := 16,
                 filename_hash := hash_filename [98, 97, 110, 97, 110, 97] } :=
  ⟨by decide, by decide, by decide,
    ((entry_record_offsets example_info Package.declared (by decide) (by decide)
      (by decide)).2.2.1 1 _ rfl).2⟩

/-! ## C7: layout of a package -/

/-- C7, as amended. For every builder with `n` entries whose data pointers are
readable for their sizes, the stream of `save_package` is exactly the 64-byte
header, followed by `n` 24-byte records in insertion order (record `i` carries
the size and hash of entry `i`), followed by the data bytes of every entry in
the same order with no padding; its length is `64 + 24 * n +` the sum of the
entry sizes. -/
theorem save_package_layout (info : PackageInfo)
    (hread : ∀ e ∈ info.entries, (entry_data info e).length = e.size_in_bytes) :
    (save_package info).content
        = (save_package_header info).to_bytes
          ++ (entry_records info.entries 0).flatMap PackageEntry.to_bytes
          ++ info.entries.flatMap (entry_data info)
      ∧ (save_package_header info).to_bytes.length = 64
      ∧ (entry_records info.entries 0).length = info.entries.length
      ∧ (∀ r : PackageEntry, r.to_bytes.length = 24)
      ∧ (∀ (i : Nat) (e : EntryInfo), info.entries[i]? = some e →
          ((entry_records info.entries 0)[i]?).map
              (fun r => (r.data_size_in_bytes, r.filename_hash))
            = some (e.size_in_bytes, e.filename_hash))
      ∧ (save_package info).content.length
        = 64 + 24 * info.entries.length + total_size info.entries := by
  refine ⟨save_package_content info, length_header_to_bytes _, length_entry_records _ _,
    length_entry_to_bytes, ?_, ?_⟩
  · intro i e hi
    rw [entry_records_getElem? info.entries 0 i (by norm_num) e hi]
    rfl
  · rw [save_package_content, List.length_append, List.length_append, length_header_to_bytes,
      length_flatMap_entry_to_bytes, length_entry_records,
      length_flatMap_entry_data info info.entries hread]

/-- Witness of C7: the example program. -/
theorem save_package_layout_witness :
    (∀ e ∈ example_info.entries, (entry_data example_info e).length = e.size_in_bytes)
      ∧ (save_package example_info).content.length = 64 + 24 * 2 + 24 :=
  ⟨by decide, (save_package_layout example_info (by decide)).2.2.2.2.2⟩

set_option maxRecDepth 100000 in
/-- C7 as stated fails: the stream of a builder without entries is 64 bytes
long, not 40. -/
theorem save_package_layout_counterexample :
    (save_package (create_package_info example_flags 0)).content.length = 64
      ∧ (save_package (create_package_info example_flags 0)).content.length
        ≠ 40 + 24 * (create_package_info example_flags 0).entries.length
          + total_size (create_package_info example_flags 0).entries := by
  decide

/-! ## C8: two records with one hash -/

theorem load_package_version_1_value (package : Package) (f : FILE) :
    ∃ p1 : Package,
      p1.filename_hash_to_data = package.filename_hash_to_data
        ∧ p1.filename_hash_to_data_size = package.filename_hash_to_data_size
        ∧ (load_package_version_1 package f).value = load_package_index p1.entries p1 := by
  refine ⟨{ package with
      entries := entries_of_bytes package.header.entries_count
        (fread (package.header.entries_count * sizeof_PackageEntry) f).1
      data := (fread package.header.uncompressed_data_size_in_bytes
        (fread (package.header.entries_count * sizeof_PackageEntry) f).2).1 }, rfl, rfl, ?_⟩
  unfold load_package_version_1
  dsimp only
  split <;> rfl

/-- A load that returns `true` leaves the index as the loop builds it from the
maps at the call and the records it read. -/
theorem load_package_loaded_value (package : Package) (content : List Nat)
    (h : (load_package package content).status = LoadStatus.loaded) :
    ∃ p1 : Package,
      p1.filename_hash_to_data = package.filename_hash_to_data
        ∧ p1.filename_hash_to_data_size = package.filename_hash_to_data_size
        ∧ (load_package package content).value = load_package_index p1.entries p1 := by
  unfold load_package at h ⊢
  dsimp only at h ⊢
  split at h
  · simp at h
  · split at h
    · simp at h
    · split at h
      · simp at h
      · split at h
        · rename_i h1 h2 h3 h4
          rw [if_neg h1, if_neg h2, if_neg h3, if_pos h4]
          exact load_package_version_1_value
            { package with
              header := PackageHeader.of_bytes (fread sizeof_PackageHeader (fopen_rb content)).1 }
            (fread sizeof_PackageHeader (fopen_rb content)).2
        · simp at h

/-- C8, as amended. When `load_package` decodes a package in which two records
`i < j` carry the same `filename_hash`, no record before `i` carries it and
the maps did not hold it at the call, the index maps that hash to the data
pointer and the size of the earlier record `i`: `insert` does not overwrite. -/
theorem load_package_index_first_wins (package : Package) (content : List Nat)
    (hloaded : (load_package package content).status = LoadStatus.loaded)
    (i j : Nat) (ri rj : PackageEntry) (_hij : i < j)
    (hi : (load_package package content).value.entries[i]? = some ri)
    (_hj : (load_package package content).value.entries[j]? = some rj)
    (hsame : ri.filename_hash = rj.filename_hash)
    (hfirst : ∀ k x, k < i → (load_package package content).value.entries[k]? = some x →
      x.filename_hash ≠ ri.filename_hash)
    (hfresh : map_at package.filename_hash_to_data rj.filename_hash = none
      ∧ map_at package.filename_hash_to_data_size rj.filename_hash = none) :
    map_at (load_package package content).value.filename_hash_to_data rj.filename_hash
        = some ri.data_offset_in_bytes
      ∧ map_at (load_package package content).value.filename_hash_to_data_size rj.filename_hash
        = some ri.data_size_in_bytes := by
  obtain ⟨p1, h1, h2, hv⟩ := load_package_loaded_value package content hloaded
  have hfr := load_package_index_frame p1.entries p1
  have hidx := load_package_index_at p1.entries p1 rj.filename_hash
  rw [hv] at hi hfirst ⊢
  rw [hfr.2.1] at hi hfirst
  have hfind : p1.entries.find? (fun r => r.filename_hash == rj.filename_hash) = some ri :=
    find?_of_first _ p1.entries i ri hi (by simp [hsame])
      (fun k x hk hx => by
        have := hfirst k x hk hx
        rw [hsame] at this
        simpa using this)
  rw [hidx.1, hidx.2, h1, h2, hfresh.1, hfresh.2, hfind]
  exact ⟨rfl, rfl⟩

set_option maxRecDepth 100000 in
/-- Witness of C8: the stream of a builder in which `a` was added twice. -/
theorem load_package_index_first_wins_witness :
    (load_package Package.declared (save_package twice_info).content).status = LoadStatus.loaded
      ∧ (load_package Package.declared (save_package twice_info).content).value.entries[0]?
        = some { data_offset_in_bytes := 0, data_size_in_bytes := 1,
                 filename_hash := hash_filename [97] }
      ∧ (load_package Package.declared (save_package twice_info).content).value.entries[1]?
        = some { data_offset_in_bytes := 1, data_size_in_bytes := 2,
                 filename_hash := hash_filename [97] }
      ∧ map_at (load_package Package.declared
          (save_package twice_info).content).value.filename_hash_to_data (hash_filename [97])
        = some 0
      ∧ map_at (load_package Package.declared
          (save_package twice_info).content).value.filename_hash_to_data_size (hash_filename [97])
        = some 1 :=
  ⟨by decide, by decide, by decide,
    load_package_index_first_wins Package.declared (save_package twice_info).content (by decide)
      0 1 { data_offset_in_bytes := 0, data_size_in_bytes := 1,
            filename_hash := hash_filename [97] }
      { data_offset_in_bytes := 1, data_size_in_bytes := 2,
        filename_hash := hash_filename [97] }
      (by decide) (by decide) (by decide) rfl (fun k x hk => absurd hk (Nat.not_lt_zero k))
      ⟨rfl, rfl⟩⟩

set_option maxRecDepth 100000 in
/-- C8 as stated fails: records 0 and 1 carry the hash of `a`, no later record
carries it, and the index holds the pointer and the size of record 0, not of
record 1. -/
theorem load_package_index_counterexample :
    (load_package Package.declared (save_package twice_info).content).status = LoadStatus.loaded
      ∧ (load_package Package.declared (save_package twice_info).content).value.entries
        = [{ data_offset_in_bytes := 0, data_size_in_bytes := 1,
             filename_hash := hash_filename [97] },
           { data_offset_in_bytes := 1, data_size_in_bytes := 2,
             filename_hash := hash_filename [97] }]
      ∧ map_at (load_package Package.declared
          (save_package twice_info).content).value.filename_hash_to_data (hash_filename [97])
        ≠ some 1
      ∧ map_at (load_package Package.declared
          (save_package twice_info).content).value.filename_hash_to_data_size (hash_filename [97])
        ≠ some 2 := by
  decide

/-! ## Builders reached by add calls -/

theorem entry_data_length (info : PackageInfo) (e : EntryInfo) :
    (entry_data info e).length
      = match e.data with
        | DataPtr.caller memory => min e.size_in_bytes memory.length
        | DataPtr.memory_block offset => min e.size_in_bytes (info.memory_block.length - offset) := by
  unfold entry_data
  cases e.data with
  | caller memory => simp
  | memory_block offset => simp

theorem entry_data_length_congr (info1 info2 : PackageInfo) (e : EntryInfo)
    (h : info1.memory_block.length = info2.memory_block.length) :
    (entry_data info1 e).length = (entry_data info2 e).length := by
  rw [entry_data_length, entry_data_length, h]

theorem length_memory_block_store (mb : List Nat) (offset : Nat) (bytes : List Nat)
    (h : offset + bytes.length ≤ mb.length) :
    (memory_block_store mb offset bytes).length = mb.length := by
  simp only [memory_block_store, List.length_append, List.length_take, List.length_drop]
  omega

theorem run_from_disk_none (info : PackageInfo) (filename : List Nat) :
    AddCall.run info (AddCall.from_disk filename none) = info := rfl

theorem run_from_disk_some (info : PackageInfo) (filename content : List Nat) :
    AddCall.run info (AddCall.from_disk filename (some content))
      = if (info.data_size_in_bytes + content.length) % 2 ^ 64 > info.memory_block_capacity then
          info
        else
          add_package_entry_from_memory
            { info with
              memory_block :=
                memory_block_store info.memory_block info.data_size_in_bytes content }
            filename content.length (DataPtr.memory_block info.data_size_in_bytes) := by
  simp only [AddCall.run, add_package_entry_from_disk]
  split <;> rfl

theorem run_calls_append (info : PackageInfo) (calls : List AddCall) (c : AddCall) :
    run_calls info (calls ++ [c]) = AddCall.run (run_calls info calls) c := by
  simp [run_calls, List.foldl_append]

/-- What holds of every builder reached from `create_package_info` by add
calls. -/
theorem run_calls_invariant (flags : PackageFlags) (capacity : Nat) (calls : List AddCall) :
    (run_calls (create_package_info flags capacity) calls).data_size_in_bytes
        = total_size (run_calls (create_package_info flags capacity) calls).entries % 2 ^ 64
      ∧ (∀ e ∈ (run_calls (create_package_info flags capacity) calls).entries,
          e.filename_hash < 2 ^ 64)
      ∧ (total_size (run_calls (create_package_info flags capacity) calls).entries < 2 ^ 64 →
          (∀ c ∈ calls, c.buffer_ok) →
          (run_calls (create_package_info flags capacity) calls).memory_block.length
              = (run_calls (create_package_info flags capacity) calls).memory_block_capacity
            ∧ ∀ e ∈ (run_calls (create_package_info flags capacity) calls).entries,
                (entry_data (run_calls (create_package_info flags capacity) calls) e).length
                  = e.size_in_bytes) := by
  induction calls using List.reverseRecOn with
  | nil =>
    simp [run_calls, create_package_info, total_size]
  | append_singleton calls c ih =>
    rw [run_calls_append]
    generalize run_calls (create_package_info flags capacity) calls = info at ih ⊢
    obtain ⟨ih1, ih2, ih3⟩ := ih
    have hbufs : (∀ d ∈ calls ++ [c], d.buffer_ok) →
        (∀ d ∈ calls, d.buffer_ok) ∧ c.buffer_ok := fun hb =>
      ⟨fun d hd => hb d (List.mem_append_left _ hd),
        hb c (List.mem_append_right _ (List.mem_singleton_self c))⟩
    cases c with
    | from_memory filename size memory =>
      simp only [AddCall.run, add_package_entry_from_memory, total_size_append, total_size_cons]
      have ht : total_size ([] : List EntryInfo) = 0 := rfl
      rw [ht, Nat.add_zero]
      refine ⟨by rw [ih1]; omega, ?_, ?_⟩
      · intro e he
        rcases List.mem_append.mp he with h | h
        · exact ih2 e h
        · rw [List.mem_singleton.mp h]; exact hash_filename_lt _
      · intro htot hb
        obtain ⟨hb1, hb2⟩ := hbufs hb
        obtain ⟨hlen, hread⟩ := ih3 (by omega) hb1
        refine ⟨hlen, ?_⟩
        intro e he
        rcases List.mem_append.mp he with h | h
        · rw [← hread e h]; exact entry_data_length_congr _ _ e rfl
        · rw [List.mem_singleton.mp h]
          simp only [AddCall.buffer_ok] at hb2
          simp only [entry_data, List.length_take]
          omega
    | from_disk filename file =>
      cases file with
      | none =>
        rw [run_from_disk_none]
        exact ⟨ih1, ih2, fun htot hb => ih3 htot (hbufs hb).1⟩
      | some content =>
        rw [run_from_disk_some]
        split
        · exact ⟨ih1, ih2, fun htot hb => ih3 htot (hbufs hb).1⟩
        · rename_i hcap
          simp only [add_package_entry_from_memory, total_size_append, total_size_cons]
          have ht : total_size ([] : List EntryInfo) = 0 := rfl
          rw [ht, Nat.add_zero]
          refine ⟨by rw [ih1]; omega, ?_, ?_⟩
          · intro e he
            rcases List.mem_append.mp he with h | h
            · exact ih2 e h
            · rw [List.mem_singleton.mp h]; exact hash_filename_lt _
          · intro htot hb
            obtain ⟨hlen, hread⟩ := ih3 (by omega) (hbufs hb).1
            have hds : info.data_size_in_bytes = total_size info.entries := by
              rw [ih1]; exact Nat.mod_eq_of_lt (by omega)
            have hfit : info.data_size_in_bytes + content.length ≤ info.memory_block.length := by
              rw [hlen]
              have : (info.data_size_in_bytes + content.length) % 2 ^ 64
                  = info.data_size_in_bytes + content.length :=
                Nat.mod_eq_of_lt (by omega)
              omega
            have hl := length_memory_block_store info.memory_block info.data_size_in_bytes
              content hfit
            refine ⟨by rw [hl]; exact hlen, ?_⟩
            intro e he
            rcases List.mem_append.mp he with h | h
            · rw [← hread e h]; exact entry_data_length_congr _ _ e hl
            · rw [List.mem_singleton.mp h]
              simp only [entry_data, List.length_take, List.length_drop, hl]
              omega

/-! ## C5: package size accounting -/

theorem sum_entry_records_sizes (es : List EntryInfo) (off : Nat) :
    ((entry_records es off).map (fun r => r.data_size_in_bytes)).sum = total_size es := by
  induction es generalizing off with
  | nil => rfl
  | cons e rest ih =>
    simp only [entry_records, List.map_cons, List.sum_cons, total_size_cons, ih]

/-- C5. For every builder reached from `create_package_info` by add calls
(from memory with readable buffers, or from disk; fewer than `2 ^ 64` entries
and bytes in all), the header `save_package` writes has
`uncompressed_data_size_in_bytes` equal to the sum of `data_size_in_bytes` of
the records it writes, and equal to the length of the data section that
follows the records in the stream; `load_package` reads the same values back. -/
theorem package_size_accounting (flags : PackageFlags) (capacity : Nat) (calls : List AddCall)
    (info : PackageInfo) (hinfo : info = run_calls (create_package_info flags capacity) calls)
    (hbuf : ∀ c ∈ calls, c.buffer_ok)
    (hcount : info.entries.length < 2 ^ 64)
    (htotal : total_size info.entries < 2 ^ 64) :
    (save_package_header info).uncompressed_data_size_in_bytes
        = ((entry_records info.entries 0).map (fun r => r.data_size_in_bytes)).sum
      ∧ (save_package info).content
        = (save_package_header info).to_bytes
          ++ (entry_records info.entries 0).flatMap PackageEntry.to_bytes
          ++ (save_package info).content.drop
              (sizeof_PackageHeader + sizeof_PackageEntry * info.entries.length)
      ∧ (save_package_header info).uncompressed_data_size_in_bytes
        = ((save_package info).content.drop
            (sizeof_PackageHeader + sizeof_PackageEntry * info.entries.length)).length
      ∧ (load_package Package.declared (save_package info).content).status = LoadStatus.loaded
      ∧ (load_package Package.declared
          (save_package info).content).value.header.uncompressed_data_size_in_bytes
        = ((load_package Package.declared (save_package info).content).value.entries.map
            (fun r => r.data_size_in_bytes)).sum
      ∧ (load_package Package.declared
          (save_package info).content).value.header.uncompressed_data_size_in_bytes
        = (load_package Package.declared (save_package info).content).value.data.length := by
  obtain ⟨h1, h2, h3⟩ := run_calls_invariant flags capacity calls
  rw [← hinfo] at h1 h2 h3
  obtain ⟨_, hread⟩ := h3 htotal hbuf
  have hds : info.data_size_in_bytes = total_size info.entries := by
    rw [h1]; exact Nat.mod_eq_of_lt htotal
  have hlen := length_flatMap_entry_data info info.entries hread
  have hdrop : (save_package info).content.drop
      (sizeof_PackageHeader + sizeof_PackageEntry * info.entries.length)
      = info.entries.flatMap (entry_data info) := by
    rw [save_package_content]
    exact drop_append_len _ _ _ (by
      rw [List.length_append, length_header_to_bytes, length_flatMap_entry_to_bytes,
        length_entry_records, sizeof_PackageHeader, sizeof_PackageEntry])
  have hl := load_save_package info Package.declared hcount h2 htotal
  have hfr := load_package_index_frame (entry_records info.entries 0)
    { Package.declared with
      header := PackageHeader.of_bytes (save_package_header info).to_bytes
      entries := entry_records info.entries 0
      data := (info.entries.flatMap (entry_data info)).take
        (info.data_size_in_bytes % 2 ^ 64) }
  have hhdr : (load_package Package.declared
      (save_package info).content).value.header.uncompressed_data_size_in_bytes
      = total_size info.entries := by
    rw [hl.2, hfr.1]
    simp only
    rw [(header_of_bytes_to_bytes _).2.2.2]
    simp only [save_package_header]
    rw [hds, Nat.mod_eq_of_lt htotal]
  refine ⟨?_, ?_, ?_, hl.1, ?_, ?_⟩
  · rw [sum_entry_records_sizes]; exact hds
  · rw [hdrop]; exact save_package_content info
  · rw [hdrop, hlen]; exact hds
  · rw [hhdr, hl.2, hfr.2.1]
    simp only
    rw [sum_entry_records_sizes]
  · rw [hhdr, hl.2, hfr.2.2]
    simp only
    rw [hds, Nat.mod_eq_of_lt htotal, List.length_take, hlen, Nat.min_self]

set_option maxRecDepth 100000 in
/-- Witness of C5: the three adds of the example program, with a block of 64
bytes. -/
theorem package_size_accounting_witness :
    (∀ c ∈ example_calls, c.buffer_ok)
      ∧ (run_calls (create_package_info example_flags 64) example_calls).entries.length < 2 ^ 64
      ∧ total_size (run_calls (create_package_info example_flags 64) example_calls).entries
        < 2 ^ 64
      ∧ (save_package_header
          (run_calls (create_package_info example_flags 64)
            example_calls)).uncompressed_data_size_in_bytes
        = ((save_package (run_calls (create_package_info example_flags 64)
            example_calls)).content.drop
            (sizeof_PackageHeader + sizeof_PackageEntry
              * (run_calls (create_package_info example_flags 64)
                  example_calls).entries.length)).length :=
  ⟨by decide, by decide, by decide,
    (package_size_accounting example_flags 64 example_calls _ rfl (by decide) (by decide)
      (by decide)).2.2.1⟩

/-! ## The stream of `save_package_manifest` -/

theorem names_size_cons (name : List Nat) (rest : List (List Nat)) :
    names_size (name :: rest) = name.length + 1 + names_size rest := by
  simp [names_size]

theorem length_flatMap_names (names : List (List Nat)) :
    (names.flatMap (fun name => name ++ [0])).length = names_size names := by
  induction names with
  | nil => rfl
  | cons name rest ih =>
    rw [List.flatMap_cons, List.length_append, ih, names_size_cons]
    simp

theorem save_package_manifest_filenames_at_end (names : List (List Nat)) (n : Nat) (f : FILE)
    (h : f.pos = f.content.length) :
    (save_package_manifest_filenames names n f).1 = (n + names_size names) % 2 ^ 64 ∨ names = []
      ∧ (save_package_manifest_filenames names n f).1 = n := by
  induction names generalizing n f with
  | nil => right; exact ⟨rfl, rfl⟩
  | cons name rest ih =>
    left
    simp only [save_package_manifest_filenames]
    have hp := fwrite_pos_at_end [0] (fwrite name f) (fwrite_pos_at_end name f h)
    rcases ih (((n + name.length) % 2 ^ 64 + 1) % 2 ^ 64) _ hp with h1 | ⟨h1, h2⟩
    · rw [h1, names_size_cons]; omega
    · rw [h2, h1, names_size_cons]; simp only [names_size, List.map_nil, List.sum_nil]; omega

theorem save_package_manifest_filenames_size (names : List (List Nat)) (f : FILE)
    (h : f.pos = f.content.length) :
    (save_package_manifest_filenames names 0 f).1 = names_size names % 2 ^ 64 := by
  rcases save_package_manifest_filenames_at_end names 0 f h with h1 | ⟨h1, h2⟩
  · rw [h1, Nat.zero_add]
  · rw [h2, h1]; rfl

theorem save_package_manifest_filenames_content (names : List (List Nat)) (n : Nat) (f : FILE)
    (h : f.pos = f.content.length) :
    (save_package_manifest_filenames names n f).2.content
        = f.content ++ names.flatMap (fun name => name ++ [0])
      ∧ (save_package_manifest_filenames names n f).2.pos
        = (save_package_manifest_filenames names n f).2.content.length := by
  induction names generalizing n f with
  | nil => simp [save_package_manifest_filenames, h]
  | cons name rest ih =>
    simp only [save_package_manifest_filenames, List.flatMap_cons]
    have hp1 := fwrite_pos_at_end name f h
    have hp := fwrite_pos_at_end [0] (fwrite name f) hp1
    have h1 := ih (((n + name.length) % 2 ^ 64 + 1) % 2 ^ 64) _ hp
    refine ⟨?_, h1.2⟩
    rw [h1.1, fwrite_content_at_end _ _ hp1, fwrite_content_at_end _ _ h]
    simp only [List.append_assoc]

/-- The stream of `save_package_manifest` just before the `fseek`: a header
with a zero size field, then the names, each with its NUL. -/
theorem save_package_manifest_body_content (info : PackageInfo) :
    (save_package_manifest_body info).2.content
        = PackageManifestHeader.to_bytes
            { magic := MANIFEST_MAGIC, version := MANIFEST_VERSION, filenames_size_in_bytes := 0 }
          ++ info.filenames.flatMap (fun name => name ++ [0])
      ∧ (save_package_manifest_body info).1 = names_size info.filenames % 2 ^ 64 := by
  have hw : (fopen_wb).pos = (fopen_wb).content.length := by simp [fopen_wb]
  have h0 := fwrite_pos_at_end (PackageManifestHeader.to_bytes
    { magic := MANIFEST_MAGIC, version := MANIFEST_VERSION, filenames_size_in_bytes := 0 })
    fopen_wb hw
  have h1 := save_package_manifest_filenames_content info.filenames 0 _ h0
  have h2 := save_package_manifest_filenames_size info.filenames _ h0
  have h3 := fwrite_content_at_end (PackageManifestHeader.to_bytes
    { magic := MANIFEST_MAGIC, version := MANIFEST_VERSION, filenames_size_in_bytes := 0 })
    fopen_wb hw
  have h4 : (fopen_wb).content = [] := by simp [fopen_wb]
  unfold save_package_manifest_body
  refine ⟨?_, h2⟩
  rw [h1.1, h3, h4, List.nil_append]

/-- The stream of `save_package_manifest`: the header with the size field
rewritten, then the names, each with its NUL. -/
theorem save_package_manifest_content (info : PackageInfo) :
    (save_package_manifest info).content
      = PackageManifestHeader.to_bytes
          { magic := MANIFEST_MAGIC, version := MANIFEST_VERSION,
            filenames_size_in_bytes := names_size info.filenames % 2 ^ 64 }
        ++ info.filenames.flatMap (fun name => name ++ [0]) := by
  have hb := save_package_manifest_body_content info
  unfold save_package_manifest
  simp only [fwrite, fseek_set, length_to_le, hb.1, hb.2]
  simp only [PackageManifestHeader.to_bytes, List.append_assoc]
  rw [← List.append_assoc (to_le 4 MANIFEST_MAGIC),
    take_append_len _ _ 8 (by simp [length_to_le]),
    ← List.append_assoc (to_le 4 MANIFEST_MAGIC ++ to_le 4 MANIFEST_VERSION),
    ← List.append_assoc (to_le 4 MANIFEST_MAGIC ++ to_le 4 MANIFEST_VERSION),
    drop_append_len _ _ 16 (by simp [length_to_le])]
  simp only [List.append_assoc]

/-! ## C6: manifest size accounting -/

/-- C6. For every builder (whose names with their NULs take fewer than `2 ^ 64`
bytes), the `filenames_size_in_bytes` field in the header of the stream of
`save_package_manifest` equals the sum over the recorded names of the length of
the name plus one, which is the number of bytes after the 16-byte header; and
the final rewrite changes nothing but the bytes 8 to 15 of the stream. -/
theorem manifest_size_accounting (info : PackageInfo)
    (hsize : names_size info.filenames < 2 ^ 64) :
    (PackageManifestHeader.of_bytes
        ((save_package_manifest info).content.take
          sizeof_PackageManifestHeader)).filenames_size_in_bytes
        = names_size info.filenames
      ∧ ((save_package_manifest info).content.drop sizeof_PackageManifestHeader).length
        = names_size info.filenames
      ∧ (save_package_manifest info).content.take 8
        = (save_package_manifest_body info).2.content.take 8
      ∧ (save_package_manifest info).content.drop 16
        = (save_package_manifest_body info).2.content.drop 16
      ∧ (save_package_manifest info).content.length
        = (save_package_manifest_body info).2.content.length := by
  have hc := save_package_manifest_content info
  have hb := (save_package_manifest_body_content info).1
  have hl := length_manifest_header_to_bytes
  rw [hc, hb, sizeof_PackageManifestHeader, take_append_len _ _ 16 (hl _),
    drop_append_len _ _ 16 (hl _), drop_append_len _ _ 16 (hl _)]
  refine ⟨?_, length_flatMap_names _, ?_, rfl, ?_⟩
  · rw [(manifest_header_of_bytes_to_bytes _).2.2]
    simp only
    rw [Nat.mod_mod, Nat.mod_eq_of_lt hsize]
  · simp only [PackageManifestHeader.to_bytes, List.append_assoc]
    rw [← List.append_assoc, ← List.append_assoc (to_le 4 MANIFEST_MAGIC),
      take_append_len _ _ 8 (by simp [length_to_le]),
      take_append_len _ _ 8 (by simp [length_to_le])]
  · rw [List.length_append, List.length_append, hl, hl]

/-- Witness of C6: the names `apple` and `banana` of the example program. -/
theorem manifest_size_accounting_witness :
    names_size example_info.filenames < 2 ^ 64
      ∧ ((save_package_manifest example_info).content.drop sizeof_PackageManifestHeader).length
        = 13 :=
  ⟨by decide, (manifest_size_accounting example_info (by decide)).2.1⟩

/-! ## Loading a manifest -/

theorem std_string_append_nul (name rest : List Nat) (h : ∀ c ∈ name, c ≠ 0) :
    std_string (name ++ 0 :: rest) = name := by
  induction name with
  | nil => simp [std_string]
  | cons c cs ih =>
    have hc := h c (List.mem_cons_self _ _)
    have := ih (fun d hd => h d (List.mem_cons_of_mem _ hd))
    simp only [std_string] at this ⊢
    rw [List.cons_append, List.takeWhile_cons_of_pos (by simpa using hc), this]

theorem hash_filename_append_nul (name rest : List Nat) (h : ∀ c ∈ name, c ≠ 0) :
    hash_filename (name ++ 0 :: rest) = hash_filename name := by
  rw [← hash_filename_std_string, std_string_append_nul name rest h]

theorem names_size_pos_length (names : List (List Nat)) : names.length ≤ names_size names := by
  induction names with
  | nil => simp
  | cons name rest ih => rw [names_size_cons, List.length_cons]; omega

/-- On a buffer that holds NUL-terminated names from `p` on and ends with them,
the loop of the loader ends without an invalid read and builds `names_index`. -/
theorem load_package_manifest_scan_names (names : List (List Nat)) (pre : List Nat)
    (fuel : Nat) (m : List (Nat × Nat)) (hfuel : names.length ≤ fuel)
    (hnul : ∀ name ∈ names, ∀ c ∈ name, c ≠ 0) :
    load_package_manifest_scan (pre ++ names.flatMap (fun name => name ++ [0]))
        (pre ++ names.flatMap (fun name => name ++ [0])).length fuel pre.length m
      = some (LoadStatus.loaded, names_index names pre.length m) := by
  induction names generalizing pre fuel m with
  | nil =>
    cases fuel with
    | zero => simp [load_package_manifest_scan, names_index]
    | succ fuel => simp [load_package_manifest_scan, names_index]
  | cons name rest ih =>
    cases fuel with
    | zero => simp at hfuel
    | succ fuel =>
      have hn := hnul name (List.mem_cons_self _ _)
      have hdrop : (pre ++ (name :: rest).flatMap (fun name => name ++ [0])).drop pre.length
          = name ++ 0 :: rest.flatMap (fun name => name ++ [0]) := by
        rw [drop_append_len _ _ _ rfl, List.flatMap_cons, List.append_assoc]
        rfl
      have hcs : c_string_at (pre ++ (name :: rest).flatMap (fun name => name ++ [0])) pre.length
          = name := by
        rw [c_string_at, hdrop, std_string_append_nul name _ hn]
      have hbuf : pre ++ (name :: rest).flatMap (fun name => name ++ [0])
          = (pre ++ name ++ [0]) ++ rest.flatMap (fun name => name ++ [0]) := by
        simp [List.flatMap_cons]
      have hp : pre.length + name.length + 1 = (pre ++ name ++ [0]).length := by
        simp only [List.length_append, List.length_singleton]
      simp only [load_package_manifest_scan, hcs, hdrop, hash_filename_append_nul name _ hn,
        names_index]
      rw [if_pos (by rw [hbuf]; simp only [List.length_append, List.length_singleton]; omega),
        if_pos (by rw [hbuf]; simp only [List.length_append, List.length_singleton]; omega),
        hbuf, hp]
      exact ih (pre ++ name ++ [0]) fuel _ (by simpa using hfuel)
        (fun x hx => hnul x (List.mem_cons_of_mem _ hx))

theorem names_index_keeps (names : List (List Nat)) (p : Nat) (m : List (Nat × Nat))
    (h x : Nat) (hm : map_at m h = some x) :
    map_at (names_index names p m) h = some x := by
  induction names generalizing p m with
  | nil => exact hm
  | cons name rest ih =>
    simp only [names_index]
    apply ih
    rw [map_at_insert, hm]

/-- A lookup in the index of the loader leads to the first name with that hash. -/
theorem names_index_first (names : List (List Nat)) (pre : List Nat) (m : List (Nat × Nat))
    (h : Nat) (hm : map_at m h = none) (hnul : ∀ name ∈ names, ∀ c ∈ name, c ≠ 0) :
    (map_at (names_index names pre.length m) h).map
        (c_string_at (pre ++ names.flatMap (fun name => name ++ [0])))
      = names.find? (fun name => hash_filename name == h) := by
  induction names generalizing pre m with
  | nil => simp [names_index, hm]
  | cons name rest ih =>
    have hn := hnul name (List.mem_cons_self _ _)
    have hbuf : pre ++ (name :: rest).flatMap (fun name => name ++ [0])
        = (pre ++ name ++ [0]) ++ rest.flatMap (fun name => name ++ [0]) := by
      simp [List.flatMap_cons]
    have hp : pre.length + name.length + 1 = (pre ++ name ++ [0]).length := by
      simp only [List.length_append, List.length_singleton]
    simp only [names_index, List.find?_cons]
    by_cases e : hash_filename name = h
    · have hi : map_at (map_insert m (hash_filename name) pre.length) h = some pre.length := by
        rw [map_at_insert, hm]; simp [e]
      rw [names_index_keeps rest _ _ h _ hi]
      simp only [e, beq_self_eq_true, Option.map_some', Option.some.injEq]
      rw [c_string_at, drop_append_len _ _ _ rfl, List.flatMap_cons, List.append_assoc]
      exact std_string_append_nul name _ hn
    · have e2 : (hash_filename name == h) = false := by
        simp only [beq_eq_false_iff_ne, ne_eq]; exact e
      have hi : map_at (map_insert m (hash_filename name) pre.length) h = none := by
        rw [map_at_insert, hm]; simp [e]
      simp only [e2]
      rw [hbuf, hp]
      exact ih (pre ++ name ++ [0]) _ hi (fun x hx => hnul x (List.mem_cons_of_mem _ hx))

theorem find?_of_first_equal {α : Type} (q : α → Bool) (l : List α) (i : Nat) (a : α)
    (ha : l[i]? = some a) (hq : q a = true)
    (hfirst : ∀ j x, j < i → l[j]? = some x → q x = true → x = a) :
    l.find? q = some a := by
  induction l generalizing i with
  | nil => simp at ha
  | cons b rest ih =>
    cases i with
    | zero =>
      simp only [List.getElem?_cons_zero, Option.some.injEq] at ha
      subst ha
      simp [List.find?_cons, hq]
    | succ i =>
      simp only [List.getElem?_cons_succ] at ha
      cases hb : q b with
      | true =>
        have := hfirst 0 b (Nat.succ_pos _) (by simp) hb
        subst this
        simp [List.find?_cons, hb]
      | false =>
        simp only [List.find?_cons, hb]
        exact ih i ha (fun j x hj hx => hfirst (j + 1) x (by omega) (by simpa using hx))

theorem load_package_manifest_layout (manifest : PackageManifest) (h : PackageManifestHeader)
    (body : List Nat) (hmagic : h.magic = MANIFEST_MAGIC) (hversion : h.version = 1) :
    load_package_manifest manifest (h.to_bytes ++ body)
      = load_package_manifest_version_1
          { manifest with filenames_size_in_bytes := h.filenames_size_in_bytes % 2 ^ 64 }
          { content := h.to_bytes ++ body, pos := 16 } := by
  have hl := length_manifest_header_to_bytes h
  have hd := manifest_header_of_bytes_to_bytes h
  have hsize : ¬ (h.to_bytes ++ body).length < 16 := by
    rw [List.length_append, hl]; omega
  have htake : (h.to_bytes ++ body).take 16 = h.to_bytes := take_append_len _ _ 16 hl
  have hm : (PackageManifestHeader.of_bytes h.to_bytes).magic = MANIFEST_MAGIC := by
    rw [hd.1, hmagic]; decide
  have hv : (PackageManifestHeader.of_bytes h.to_bytes).version = 1 := by
    rw [hd.2.1, hversion]; norm_num
  unfold load_package_manifest
  simp only [file_size, fopen_rb, sizeof_PackageManifestHeader, hsize, if_false, fread,
    List.drop_zero, htake, hl, Nat.zero_add, hm, ne_eq, not_true_eq_false, hv, MANIFEST_VERSION,
    gt_iff_lt, lt_irrefl, if_true, hd.2.2]

theorem load_package_manifest_version_1_names (manifest : PackageManifest) (hb : List Nat)
    (names : List (List Nat)) (hlen : hb.length = 16)
    (hsize : manifest.filenames_size_in_bytes = names_size names)
    (hnul : ∀ name ∈ names, ∀ c ∈ name, c ≠ 0) :
    (load_package_manifest_version_1 manifest
        { content := hb ++ names.flatMap (fun name => name ++ [0]), pos := 16 }).status
        = LoadStatus.loaded
      ∧ (load_package_manifest_version_1 manifest
        { content := hb ++ names.flatMap (fun name => name ++ [0]), pos := 16 }).value
        = { filenames_size_in_bytes := names_size names
            filenames := names.flatMap (fun name => name ++ [0])
            filename_hash_to_filename :=
              names_index names 0 manifest.filename_hash_to_filename } := by
  have hscan := load_package_manifest_scan_names names [] (names_size names)
    manifest.filename_hash_to_filename (names_size_pos_length _) hnul
  rw [List.nil_append, List.length_nil, length_flatMap_names] at hscan
  have hread : ((hb ++ names.flatMap (fun name => name ++ [0])).drop 16).take (names_size names)
      = names.flatMap (fun name => name ++ [0]) := by
    rw [drop_append_len _ _ 16 hlen]
    exact List.take_of_length_le (by rw [length_flatMap_names])
  unfold load_package_manifest_version_1
  simp only [fread, hsize, hread, hscan]
  exact ⟨trivial, trivial⟩

/-- Loading what `save_package_manifest` wrote. -/
theorem load_save_package_manifest (info : PackageInfo)
    (hnul : ∀ name ∈ info.filenames, ∀ c ∈ name, c ≠ 0)
    (hsize : names_size info.filenames < 2 ^ 64) :
    (load_package_manifest PackageManifest.declared (save_package_manifest info).content).status
        = LoadStatus.loaded
      ∧ (load_package_manifest PackageManifest.declared
          (save_package_manifest info).content).value
        = { filenames_size_in_bytes := names_size info.filenames
            filenames := info.filenames.flatMap (fun name => name ++ [0])
            filename_hash_to_filename := names_index info.filenames 0 [] } := by
  rw [save_package_manifest_content, load_package_manifest_layout _ _ _ rfl rfl]
  exact load_package_manifest_version_1_names _ _ info.filenames
    (length_manifest_header_to_bytes _)
    (by
      show names_size info.filenames % 2 ^ 64 % 2 ^ 64 = names_size info.filenames
      rw [Nat.mod_mod, Nat.mod_eq_of_lt hsize])
    hnul

/-! ## C2: manifest pairing -/

/-- C2, as amended. For every builder whose recorded names are NUL-free (and
take fewer than `2 ^ 64` bytes with their NULs), `load_package_manifest`
succeeds on the stream of `save_package_manifest`, and the lookup of
`hash_filename name` in `filename_hash_to_filename` yields the first recorded
name with that hash: so the exact name, for every recorded name that no
different name recorded before it shares its hash with. -/
theorem manifest_pairing_first_recorded (info : PackageInfo)
    (hnul : ∀ name ∈ info.filenames, ∀ c ∈ name, c ≠ 0)
    (hsize : names_size info.filenames < 2 ^ 64) :
    (load_package_manifest PackageManifest.declared (save_package_manifest info).content).status
        = LoadStatus.loaded
      ∧ (∀ name : List Nat,
          manifest_filename (load_package_manifest PackageManifest.declared
            (save_package_manifest info).content).value (hash_filename name)
          = info.filenames.find? (fun x => hash_filename x == hash_filename name))
      ∧ (∀ (i : Nat) (name : List Nat), info.filenames[i]? = some name →
          (∀ j x, j < i → info.filenames[j]? = some x →
            hash_filename x = hash_filename name → x = name) →
          manifest_filename (load_package_manifest PackageManifest.declared
            (save_package_manifest info).content).value (hash_filename name) = some name) := by
  have hl := load_save_package_manifest info hnul hsize
  have hlookup : ∀ name : List Nat,
      manifest_filename (load_package_manifest PackageManifest.declared
        (save_package_manifest info).content).value (hash_filename name)
      = info.filenames.find? (fun x => hash_filename x == hash_filename name) := by
    intro name
    have hf := names_index_first info.filenames [] [] (hash_filename name) rfl hnul
    rw [List.nil_append, List.length_nil] at hf
    rw [← hf, hl.2]
    unfold manifest_filename
    simp only
    cases map_at (names_index info.filenames 0 []) (hash_filename name) with
    | none => rfl
    | some p => rfl
  refine ⟨hl.1, hlookup, ?_⟩
  intro i name hi hfirst
  rw [hlookup name]
  exact find?_of_first_equal _ info.filenames i name hi (by simp)
    (fun j x hj hx hq => hfirst j x hj hx (by simpa using hq))

set_option maxRecDepth 100000 in
/-- Witness of C2: the names `apple` and `banana` of the example program. -/
theorem manifest_pairing_first_recorded_witness :
    (∀ name ∈ example_info.filenames, ∀ c ∈ name, c ≠ 0)
      ∧ names_size example_info.filenames < 2 ^ 64
      ∧ manifest_filename (load_package_manifest PackageManifest.declared
          (save_package_manifest example_info).content).value
          (hash_filename [98, 97, 110, 97, 110, 97])
        = some [98, 97, 110, 97, 110, 97] :=
  ⟨by decide, by decide,
    (manifest_pairing_first_recorded example_info (by decide) (by decide)).2.2 1 _
      (by decide) (by
        intro j x hj hx
        have hj0 : j = 0 := by omega
        subst hj0
        have hx0 : x = [97, 112, 112, 108, 101] := by
          have h0 : example_info.filenames[0]? = some [97, 112, 112, 108, 101] := by decide
          rw [h0] at hx
          exact (Option.some.inj hx).symm
        subst hx0
        decide)⟩

set_option maxRecDepth 100000 in
/-- C2 as stated fails: the builder recorded `Cj;eC08=jd4` and `<;[n;9k866<`,
and the lookup of the hash of the second name yields the first name. -/
theorem manifest_pairing_counterexample :
    colliding_name_2 ∈ colliding_info.filenames
      ∧ (load_package_manifest PackageManifest.declared
          (save_package_manifest colliding_info).content).status = LoadStatus.loaded
      ∧ manifest_filename (load_package_manifest PackageManifest.declared
          (save_package_manifest colliding_info).content).value (hash_filename colliding_name_2)
        = some colliding_name_1
      ∧ colliding_name_1 ≠ colliding_name_2 := by
  decide

/-! ## C9 and C10: the checks on the header -/

theorem take_take_le {α : Type} (l : List α) (a n : Nat) (h : a ≤ n) :
    (l.take n).take a = l.take a := by
  rw [List.take_take, Nat.min_eq_left h]

theorem take_drop_take {α : Type} (l : List α) (a b n : Nat) (h : a + b ≤ n) :
    ((l.take n).drop a).take b = (l.drop a).take b := by
  rw [List.drop_take, List.take_take, Nat.min_eq_left (by omega)]

theorem header_fields_of_stream (content : List Nat) :
    (PackageHeader.of_bytes (content.take 64)).magic = of_le (content.take 4)
      ∧ (PackageHeader.of_bytes (content.take 64)).version = of_le ((content.drop 4).take 4) := by
  simp only [PackageHeader.of_bytes]
  rw [take_take_le _ 4 64 (by omega), take_drop_take _ 4 4 64 (by omega)]
  exact ⟨rfl, rfl⟩

theorem manifest_header_fields_of_stream (content : List Nat) :
    (PackageManifestHeader.of_bytes (content.take 16)).magic = of_le (content.take 4)
      ∧ (PackageManifestHeader.of_bytes (content.take 16)).version
        = of_le ((content.drop 4).take 4) := by
  simp only [PackageManifestHeader.of_bytes]
  rw [take_take_le _ 4 16 (by omega), take_drop_take _ 4 4 16 (by omega)]
  exact ⟨rfl, rfl⟩

/-- C9. For every stream at least as long as the header whose first four bytes
are the signature and whose version field is greater than 1, `load_package`
fails with the version failure, its stream stands right after the header, and
the entries, the data and the two maps of the caller are what they were; the
outcome is the same whatever follows the header. `load_package_manifest`
likewise, and it leaves the whole struct of the caller as it was. -/
theorem version_rejection (package : Package) (manifest : PackageManifest)
    (pc mc : List Nat)
    (hp_len : sizeof_PackageHeader ≤ pc.length)
    (hp_magic : pc.take 4 = [0x71, 0x70, 0x63, 0x6B])
    (hp_version : 1 < of_le ((pc.drop 4).take 4))
    (hm_len : sizeof_PackageManifestHeader ≤ mc.length)
    (hm_magic : mc.take 4 = [0x71, 0x6D, 0x6E, 0x66])
    (hm_version : 1 < of_le ((mc.drop 4).take 4)) :
    ((load_package package pc).status = LoadStatus.version_too_high
        ∧ (load_package package pc).file.pos = sizeof_PackageHeader
        ∧ (load_package package pc).value.entries = package.entries
        ∧ (load_package package pc).value.data = package.data
        ∧ (load_package package pc).value.filename_hash_to_data = package.filename_hash_to_data
        ∧ (load_package package pc).value.filename_hash_to_data_size
          = package.filename_hash_to_data_size
        ∧ ∀ rest : List Nat,
          (load_package package (pc.take sizeof_PackageHeader ++ rest)).status
              = LoadStatus.version_too_high
            ∧ (load_package package (pc.take sizeof_PackageHeader ++ rest)).value
              = (load_package package pc).value)
      ∧ ((load_package_manifest manifest mc).status = LoadStatus.version_too_high
        ∧ (load_package_manifest manifest mc).file.pos = sizeof_PackageManifestHeader
        ∧ (load_package_manifest manifest mc).value = manifest
        ∧ ∀ rest : List Nat,
          (load_package_manifest manifest
              (mc.take sizeof_PackageManifestHeader ++ rest)).status
              = LoadStatus.version_too_high
            ∧ (load_package_manifest manifest
              (mc.take sizeof_PackageManifestHeader ++ rest)).value = manifest) := by
  have hpm : of_le ([0x71, 0x70, 0x63, 0x6B] : List Nat) = PACKAGE_MAGIC := rfl
  have hmm : of_le ([0x71, 0x6D, 0x6E, 0x66] : List Nat) = MANIFEST_MAGIC := rfl
  have key : ∀ c : List Nat, sizeof_PackageHeader ≤ c.length →
      c.take 4 = [0x71, 0x70, 0x63, 0x6B] → 1 < of_le ((c.drop 4).take 4) →
      load_package package c
        = { status := LoadStatus.version_too_high
            value := { package with header := PackageHeader.of_bytes (c.take 64) }
            file := { content := c, pos := 64 } } := by
    intro c hlen hmagic hversion
    have hf := header_fields_of_stream c
    rw [hmagic, hpm] at hf
    have hl : (c.take 64).length = 64 := by
      rw [List.length_take]; rw [sizeof_PackageHeader] at hlen; omega
    unfold load_package
    simp only [file_size, fopen_rb, sizeof_PackageHeader, fread, List.drop_zero, hf.1, hf.2,
      Nat.zero_add, hl, ne_eq, not_true_eq_false, if_false, PACKAGE_VERSION, gt_iff_lt,
      hversion, if_true]
    rw [if_neg (by rw [sizeof_PackageHeader] at hlen; omega)]
  have keym : ∀ c : List Nat, sizeof_PackageManifestHeader ≤ c.length →
      c.take 4 = [0x71, 0x6D, 0x6E, 0x66] → 1 < of_le ((c.drop 4).take 4) →
      load_package_manifest manifest c
        = { status := LoadStatus.version_too_high
            value := manifest
            file := { content := c, pos := 16 } } := by
    intro c hlen hmagic hversion
    have hf := manifest_header_fields_of_stream c
    rw [hmagic, hmm] at hf
    have hl : (c.take 16).length = 16 := by
      rw [List.length_take]; rw [sizeof_PackageManifestHeader] at hlen; omega
    unfold load_package_manifest
    simp only [file_size, fopen_rb, sizeof_PackageManifestHeader, fread, List.drop_zero, hf.1,
      hf.2, Nat.zero_add, hl, ne_eq, not_true_eq_false, if_false, MANIFEST_VERSION, gt_iff_lt,
      hversion, if_true]
    rw [if_neg (by rw [sizeof_PackageManifestHeader] at hlen; omega)]
  have hlp : (pc.take sizeof_PackageHeader).length = 64 := by
    rw [List.length_take]; rw [sizeof_PackageHeader] at hp_len ⊢; omega
  have hlm : (mc.take sizeof_PackageManifestHeader).length = 16 := by
    rw [List.length_take]; rw [sizeof_PackageManifestHeader] at hm_len ⊢; omega
  refine ⟨?_, ?_⟩
  · rw [key pc hp_len hp_magic hp_version]
    refine ⟨rfl, rfl, rfl, rfl, rfl, rfl, ?_⟩
    intro rest
    have h4 : (pc.take sizeof_PackageHeader ++ rest).take 4 = pc.take 4 := by
      rw [List.take_append_of_le_length (by omega), sizeof_PackageHeader,
        take_take_le _ 4 64 (by omega)]
    have hd : ((pc.take sizeof_PackageHeader ++ rest).drop 4).take 4 = (pc.drop 4).take 4 := by
      rw [List.drop_append_of_le_length (by omega), List.take_append_of_le_length (by
        rw [List.length_drop]; omega), sizeof_PackageHeader, take_drop_take _ 4 4 64 (by omega)]
    rw [key (pc.take sizeof_PackageHeader ++ rest)
      (by rw [List.length_append, hlp, sizeof_PackageHeader]; omega)
      (by rw [h4]; exact hp_magic) (by rw [hd]; exact hp_version)]
    refine ⟨rfl, ?_⟩
    simp only
    rw [take_append_len _ _ 64 hlp]
    rfl
  · rw [keym mc hm_len hm_magic hm_version]
    refine ⟨rfl, rfl, rfl, ?_⟩
    intro rest
    have h4 : (mc.take sizeof_PackageManifestHeader ++ rest).take 4 = mc.take 4 := by
      rw [List.take_append_of_le_length (by omega), sizeof_PackageManifestHeader,
        take_take_le _ 4 16 (by omega)]
    have hd : ((mc.take sizeof_PackageManifestHeader ++ rest).drop 4).take 4
        = (mc.drop 4).take 4 := by
      rw [List.drop_append_of_le_length (by omega), List.take_append_of_le_length (by
        rw [List.length_drop]; omega), sizeof_PackageManifestHeader,
        take_drop_take _ 4 4 16 (by omega)]
    rw [keym (mc.take sizeof_PackageManifestHeader ++ rest)
      (by rw [List.length_append, hlm, sizeof_PackageManifestHeader]; omega)
      (by rw [h4]; exact hm_magic) (by rw [hd]; exact hm_version)]
    exact ⟨rfl, rfl⟩

/-- Witness of C9: headers with version 2. -/
theorem version_rejection_witness :
    (sizeof_PackageHeader ≤ version_2_package.length
        ∧ version_2_package.take 4 = [0x71, 0x70, 0x63, 0x6B]
        ∧ 1 < of_le ((version_2_package.drop 4).take 4))
      ∧ (sizeof_PackageManifestHeader ≤ version_2_manifest.length
        ∧ version_2_manifest.take 4 = [0x71, 0x6D, 0x6E, 0x66]
        ∧ 1 < of_le ((version_2_manifest.drop 4).take 4))
      ∧ (load_package Package.declared version_2_package).status = LoadStatus.version_too_high
      ∧ (load_package_manifest PackageManifest.declared version_2_manifest).status
        = LoadStatus.version_too_high :=
  ⟨⟨by decide, by decide, by decide⟩, ⟨by decide, by decide, by decide⟩,
    (version_rejection Package.declared PackageManifest.declared version_2_package
      version_2_manifest (by decide) (by decide) (by decide) (by decide) (by decide)
      (by decide)).1.1,
    (version_rejection Package.declared PackageManifest.declared version_2_package
      version_2_manifest (by decide) (by decide) (by decide) (by decide) (by decide)
      (by decide)).2.1⟩

theorem of_le_four_bytes_inj (bs magic : List Nat) (hlen : bs.length = 4)
    (hbytes : ∀ b ∈ bs, b < 256) (hmagic : to_le 4 (of_le magic) = magic)
    (h : of_le bs = of_le magic) : bs = magic := by
  have := to_le_of_le bs hbytes
  rw [hlen, h, hmagic] at this
  exact this.symm

/-- C10. For every stream of bytes at least as long as the header whose first
four bytes differ from the signature (`qpck` for a package, `qmnf` for a
manifest), the loader fails with the bad-magic failure, whatever the version
field and the rest of the stream hold. -/
theorem magic_rejection (package : Package) (manifest : PackageManifest) (pc mc : List Nat)
    (hp_len : sizeof_PackageHeader ≤ pc.length)
    (hp_bytes : ∀ b ∈ pc.take 4, b < 256)
    (hp_magic : pc.take 4 ≠ [0x71, 0x70, 0x63, 0x6B])
    (hm_len : sizeof_PackageManifestHeader ≤ mc.length)
    (hm_bytes : ∀ b ∈ mc.take 4, b < 256)
    (hm_magic : mc.take 4 ≠ [0x71, 0x6D, 0x6E, 0x66]) :
    (load_package package pc).status = LoadStatus.bad_magic
      ∧ (load_package_manifest manifest mc).status = LoadStatus.bad_magic := by
  rw [sizeof_PackageHeader] at hp_len
  rw [sizeof_PackageManifestHeader] at hm_len
  have hp : of_le (pc.take 4) ≠ PACKAGE_MAGIC := by
    intro h
    exact hp_magic (of_le_four_bytes_inj (pc.take 4) [0x71, 0x70, 0x63, 0x6B]
      (by rw [List.length_take]; omega) hp_bytes (by decide) h)
  have hm : of_le (mc.take 4) ≠ MANIFEST_MAGIC := by
    intro h
    exact hm_magic (of_le_four_bytes_inj (mc.take 4) [0x71, 0x6D, 0x6E, 0x66]
      (by rw [List.length_take]; omega) hm_bytes (by decide) h)
  have hfp := (header_fields_of_stream pc).1
  have hfm := (manifest_header_fields_of_stream mc).1
  refine ⟨?_, ?_⟩
  · unfold load_package
    simp only [file_size, fopen_rb, sizeof_PackageHeader, fread, List.drop_zero, hfp]
    rw [if_neg (by omega), if_pos hp]
  · unfold load_package_manifest
    simp only [file_size, fopen_rb, sizeof_PackageManifestHeader, fread, List.drop_zero, hfm]
    rw [if_neg (by omega), if_pos hm]

/-- Witness of C10: a package stream with the signature of a manifest, and a
manifest stream with the signature of a package. -/
theorem magic_rejection_witness :
    (sizeof_PackageHeader ≤ misnamed_package.length
        ∧ (∀ b ∈ misnamed_package.take 4, b < 256)
        ∧ misnamed_package.take 4 ≠ [0x71, 0x70, 0x63, 0x6B])
      ∧ (sizeof_PackageManifestHeader ≤ misnamed_manifest.length
        ∧ (∀ b ∈ misnamed_manifest.take 4, b < 256)
        ∧ misnamed_manifest.take 4 ≠ [0x71, 0x6D, 0x6E, 0x66])
      ∧ (load_package Package.declared misnamed_package).status = LoadStatus.bad_magic
      ∧ (load_package_manifest PackageManifest.declared misnamed_manifest).status
        = LoadStatus.bad_magic :=
  ⟨⟨by decide, by decide, by decide⟩, ⟨by decide, by decide, by decide⟩,
    magic_rejection Package.declared PackageManifest.declared misnamed_package misnamed_manifest
      (by decide) (by decide) (by decide) (by decide) (by decide) (by decide)⟩

/-! ## General facts for the loaders and the builder -/

/-- The loop of the manifest loader never uses up its rounds: each round moves
the offset forward, so `size` rounds are enough from offset 0. -/
theorem load_package_manifest_scan_fuel (buf : List Nat) (size fuel p : Nat)
    (m : List (Nat × Nat)) (h : size ≤ p + fuel) :
    load_package_manifest_scan buf size fuel p m ≠ none := by
  induction fuel generalizing p m with
  | zero =>
    simp only [load_package_manifest_scan]
    rw [if_neg (by omega)]
    exact Option.some_ne_none _
  | succ fuel ih =>
    simp only [load_package_manifest_scan]
    split
    · split
      · exact ih _ _ (by omega)
      · exact Option.some_ne_none _
    · exact Option.some_ne_none _

theorem std_string_nul_free (s : List Nat) : ∀ c ∈ std_string s, c ≠ 0 := by
  intro c hc
  have := List.mem_takeWhile_imp hc
  simpa using this

/-- Every name a builder records through the add calls is NUL-free. -/
theorem run_calls_filenames_nul_free (flags : PackageFlags) (capacity : Nat)
    (calls : List AddCall) :
    ∀ name ∈ (run_calls (create_package_info flags capacity) calls).filenames,
      ∀ c ∈ name, c ≠ 0 := by
  induction calls using List.reverseRecOn with
  | nil => intro name hname; simp [run_calls, create_package_info] at hname
  | append_singleton calls c ih =>
    rw [run_calls_append]
    generalize run_calls (create_package_info flags capacity) calls = info at ih ⊢
    cases c with
    | from_memory filename size memory =>
      intro name hname
      simp only [AddCall.run, add_package_entry_from_memory] at hname
      rcases List.mem_append.mp hname with h | h
      · exact ih name h
      · rw [List.mem_singleton.mp h]; exact std_string_nul_free _
    | from_disk filename file =>
      cases file with
      | none => exact ih
      | some content =>
        rw [run_from_disk_some]
        split
        · exact ih
        · intro name hname
          simp only [add_package_entry_from_memory] at hname
          rcases List.mem_append.mp hname with h | h
          · exact ih name h
          · rw [List.mem_singleton.mp h]; exact std_string_nul_free _

/-! ## What the version-1 parsers return -/

theorem load_package_version_1_status (package : Package) (f : FILE) :
    (load_package_version_1 package f).status = LoadStatus.loaded
      ∨ (load_package_version_1 package f).status = LoadStatus.invalid_read := by
  unfold load_package_version_1
  dsimp only
  split
  · right; rfl
  · left; rfl

theorem load_package_manifest_scan_status (buf : List Nat) (size fuel p : Nat)
    (m m1 : List (Nat × Nat)) (st : LoadStatus)
    (h : load_package_manifest_scan buf size fuel p m = some (st, m1)) :
    st = LoadStatus.loaded ∨ st = LoadStatus.invalid_read := by
  induction fuel generalizing p m with
  | zero =>
    simp only [load_package_manifest_scan] at h
    split at h
    · exact Option.noConfusion h
    · simp only [Option.some.injEq, Prod.mk.injEq] at h
      exact Or.inl h.1.symm
  | succ fuel ih =>
    simp only [load_package_manifest_scan] at h
    split at h
    · split at h
      · exact ih _ _ h
      · simp only [Option.some.injEq, Prod.mk.injEq] at h
        exact Or.inr h.1.symm
    · simp only [Option.some.injEq, Prod.mk.injEq] at h
      exact Or.inl h.1.symm

theorem load_package_manifest_version_1_status (manifest : PackageManifest) (f : FILE) :
    (load_package_manifest_version_1 manifest f).status = LoadStatus.loaded
      ∨ (load_package_manifest_version_1 manifest f).status = LoadStatus.invalid_read := by
  unfold load_package_manifest_version_1
  dsimp only
  split
  · rename_i st m heq
    exact load_package_manifest_scan_status _ _ _ _ _ _ _ heq
  · right; rfl

/-! ## C11: truncated files -/

/-- C11, as amended. For every stream shorter than the fixed header (64 bytes
for a package, 16 bytes for a manifest) the loader fails with the too-small
failure, with the stream still at offset 0 (no header, record or data byte is
read) and the struct of the caller as it was; a stream of the size of the
header or longer is not rejected by this check. -/
theorem truncated_file (package : Package) (manifest : PackageManifest) (pc mc : List Nat)
    (hp : pc.length < sizeof_PackageHeader) (hm : mc.length < sizeof_PackageManifestHeader) :
    ((load_package package pc).status = LoadStatus.too_small
        ∧ (load_package package pc).file.pos = 0
        ∧ (load_package package pc).value = package)
      ∧ ((load_package_manifest manifest mc).status = LoadStatus.too_small
        ∧ (load_package_manifest manifest mc).file.pos = 0
        ∧ (load_package_manifest manifest mc).value = manifest)
      ∧ (∀ c : List Nat, sizeof_PackageHeader ≤ c.length →
          (load_package package c).status ≠ LoadStatus.too_small)
      ∧ (∀ c : List Nat, sizeof_PackageManifestHeader ≤ c.length →
          (load_package_manifest manifest c).status ≠ LoadStatus.too_small)
      ∧ sizeof_PackageHeader = 64 ∧ sizeof_PackageManifestHeader = 16 := by
  have keyp : ∀ r : LoadResult Package,
      (r.status = LoadStatus.loaded ∨ r.status = LoadStatus.invalid_read) →
      r.status ≠ LoadStatus.too_small := by
    intro r h; rcases h with h | h <;> rw [h] <;> simp
  have keym : ∀ r : LoadResult PackageManifest,
      (r.status = LoadStatus.loaded ∨ r.status = LoadStatus.invalid_read) →
      r.status ≠ LoadStatus.too_small := by
    intro r h; rcases h with h | h <;> rw [h] <;> simp
  refine ⟨?_, ?_, ?_, ?_, rfl, rfl⟩
  · unfold load_package
    simp only [file_size, fopen_rb, hp, if_true]
    exact ⟨trivial, trivial, trivial⟩
  · unfold load_package_manifest
    simp only [file_size, fopen_rb, hm, if_true]
    exact ⟨trivial, trivial, trivial⟩
  · intro c hc
    unfold load_package
    simp only [file_size, fopen_rb]
    rw [if_neg (by omega)]
    split
    · simp
    · split
      · simp
      · split
        · exact keyp _ (load_package_version_1_status _ _)
        · simp
  · intro c hc
    unfold load_package_manifest
    simp only [file_size, fopen_rb]
    rw [if_neg (by omega)]
    split
    · simp
    · split
      · simp
      · split
        · exact keym _ (load_package_manifest_version_1_status _ _)
        · simp

/-- Witness of C11: a package stream of 40 bytes and an empty manifest stream. -/
theorem truncated_file_witness :
    package_of_40_bytes.length < sizeof_PackageHeader
      ∧ ([] : List Nat).length < sizeof_PackageManifestHeader
      ∧ (load_package Package.declared package_of_40_bytes).status = LoadStatus.too_small
      ∧ (load_package_manifest PackageManifest.declared []).status = LoadStatus.too_small :=
  ⟨by decide, by decide,
    (truncated_file Package.declared PackageManifest.declared package_of_40_bytes []
      (by decide) (by decide)).1.1,
    (truncated_file Package.declared PackageManifest.declared package_of_40_bytes []
      (by decide) (by decide)).2.1.1⟩

/-- C11 as stated fails: a package stream of exactly 40 bytes, with the right
signature and version 1, is rejected by the size check. -/
theorem truncated_file_counterexample :
    package_of_40_bytes.length = 40
      ∧ (load_package Package.declared package_of_40_bytes).status = LoadStatus.too_small := by
  decide

/-! ## The dispatch on the version field -/

theorem manifest_size_field_of_stream (content : List Nat) :
    (PackageManifestHeader.of_bytes (content.take 16)).filenames_size_in_bytes
      = of_le ((content.drop 8).take 8) := by
  simp only [PackageManifestHeader.of_bytes]
  rw [take_drop_take _ 8 8 16 (by omega)]

/-- A package stream that passes the size and the magic check: what
`load_package` does with it, by the version field. -/
theorem load_package_dispatch (package : Package) (c : List Nat)
    (hlen : sizeof_PackageHeader ≤ c.length) (hmagic : c.take 4 = [0x71, 0x70, 0x63, 0x6B]) :
    (1 < of_le ((c.drop 4).take 4) →
        (load_package package c).status = LoadStatus.version_too_high)
      ∧ (of_le ((c.drop 4).take 4) = 1 →
        load_package package c
          = load_package_version_1
              { package with header := PackageHeader.of_bytes (c.take 64) }
              { content := c, pos := 64 })
      ∧ (of_le ((c.drop 4).take 4) = 0 →
        (load_package package c).status = LoadStatus.no_loader
          ∧ (load_package package c).value
            = { package with header := PackageHeader.of_bytes (c.take 64) }
          ∧ (load_package package c).file = { content := c, pos := 64 }) := by
  have hpm : of_le ([0x71, 0x70, 0x63, 0x6B] : List Nat) = PACKAGE_MAGIC := rfl
  have hf := header_fields_of_stream c
  rw [hmagic, hpm] at hf
  rw [sizeof_PackageHeader] at hlen
  have hl : (c.take 64).length = 64 := by rw [List.length_take]; omega
  have hsz : ¬ c.length < 64 := by omega
  refine ⟨?_, ?_, ?_⟩
  · intro hv
    unfold load_package
    simp only [file_size, fopen_rb, sizeof_PackageHeader, fread, List.drop_zero, hf.1, hf.2,
      hsz, ne_eq, not_true_eq_false, if_false, PACKAGE_VERSION, gt_iff_lt, hv, if_true]
  · intro hv
    unfold load_package
    simp only [file_size, fopen_rb, sizeof_PackageHeader, fread, List.drop_zero, hf.1, hf.2,
      hsz, ne_eq, not_true_eq_false, if_false, PACKAGE_VERSION, gt_iff_lt, hv, lt_irrefl,
      if_true, hl, Nat.zero_add]
  · intro hv
    unfold load_package
    simp only [file_size, fopen_rb, sizeof_PackageHeader, fread, List.drop_zero, hf.1, hf.2,
      hsz, ne_eq, not_true_eq_false, if_false, PACKAGE_VERSION, gt_iff_lt, hv, hl, Nat.zero_add]
    rw [if_neg (by omega), if_neg (by omega)]
    exact ⟨rfl, rfl, rfl⟩

/-- A manifest stream that passes the size and the magic check: what
`load_package_manifest` does with it, by the version field. -/
theorem load_package_manifest_dispatch (manifest : PackageManifest) (c : List Nat)
    (hlen : sizeof_PackageManifestHeader ≤ c.length)
    (hmagic : c.take 4 = [0x71, 0x6D, 0x6E, 0x66]) :
    (1 < of_le ((c.drop 4).take 4) →
        (load_package_manifest manifest c).status = LoadStatus.version_too_high)
      ∧ (of_le ((c.drop 4).take 4) = 1 →
        load_package_manifest manifest c
          = load_package_manifest_version_1
              { manifest with filenames_size_in_bytes := of_le ((c.drop 8).take 8) }
              { content := c, pos := 16 })
      ∧ (of_le ((c.drop 4).take 4) = 0 →
        (load_package_manifest manifest c).status = LoadStatus.no_loader
          ∧ (load_package_manifest manifest c).value
            = { manifest with filenames_size_in_bytes := of_le ((c.drop 8).take 8) }
          ∧ (load_package_manifest manifest c).file = { content := c, pos := 16 }) := by
  have hmm : of_le ([0x71, 0x6D, 0x6E, 0x66] : List Nat) = MANIFEST_MAGIC := rfl
  have hf := manifest_header_fields_of_stream c
  have hs := manifest_size_field_of_stream c
  rw [hmagic, hmm] at hf
  rw [sizeof_PackageManifestHeader] at hlen
  have hl : (c.take 16).length = 16 := by rw [List.length_take]; omega
  have hsz : ¬ c.length < 16 := by omega
  refine ⟨?_, ?_, ?_⟩
  · intro hv
    unfold load_package_manifest
    simp only [file_size, fopen_rb, sizeof_PackageManifestHeader, fread, List.drop_zero, hf.1,
      hf.2, hsz, ne_eq, not_true_eq_false, if_false, MANIFEST_VERSION, gt_iff_lt, hv, if_true]
  · intro hv
    unfold load_package_manifest
    simp only [file_size, fopen_rb, sizeof_PackageManifestHeader, fread, List.drop_zero, hf.1,
      hf.2, hs, hsz, ne_eq, not_true_eq_false, if_false, MANIFEST_VERSION, gt_iff_lt, hv,
      lt_irrefl, if_true, hl, Nat.zero_add]
  · intro hv
    unfold load_package_manifest
    simp only [file_size, fopen_rb, sizeof_PackageManifestHeader, fread, List.drop_zero, hf.1,
      hf.2, hs, hsz, ne_eq, not_true_eq_false, if_false, MANIFEST_VERSION, gt_iff_lt, hv, hl,
      Nat.zero_add]
    rw [if_neg (by omega), if_neg (by omega)]
    exact ⟨rfl, rfl, rfl⟩

/-! ## C14: the no-loader branch -/

/-- C14, as amended. For every header (package or manifest) that passes the
size, magic and version-ceiling checks, the dispatcher runs the version-1
parser when the version field is 1, and ends in the no-loader failure branch
exactly when the version field is 0: the branch is reached by version 0 and by
nothing else. -/
theorem version_dispatch (package : Package) (manifest : PackageManifest) (pc mc : List Nat)
    (hp_len : sizeof_PackageHeader ≤ pc.length)
    (hp_magic : pc.take 4 = [0x71, 0x70, 0x63, 0x6B])
    (hp_ceiling : ¬ of_le ((pc.drop 4).take 4) > PACKAGE_VERSION)
    (hm_len : sizeof_PackageManifestHeader ≤ mc.length)
    (hm_magic : mc.take 4 = [0x71, 0x6D, 0x6E, 0x66])
    (hm_ceiling : ¬ of_le ((mc.drop 4).take 4) > MANIFEST_VERSION) :
    ((of_le ((pc.drop 4).take 4) = 1 →
          load_package package pc
            = load_package_version_1
                { package with header := PackageHeader.of_bytes (pc.take 64) }
                { content := pc, pos := 64 })
        ∧ ((load_package package pc).status = LoadStatus.no_loader
          ↔ of_le ((pc.drop 4).take 4) = 0))
      ∧ ((of_le ((mc.drop 4).take 4) = 1 →
          load_package_manifest manifest mc
            = load_package_manifest_version_1
                { manifest with filenames_size_in_bytes := of_le ((mc.drop 8).take 8) }
                { content := mc, pos := 16 })
        ∧ ((load_package_manifest manifest mc).status = LoadStatus.no_loader
          ↔ of_le ((mc.drop 4).take 4) = 0)) := by
  have hp := load_package_dispatch package pc hp_len hp_magic
  have hm := load_package_manifest_dispatch manifest mc hm_len hm_magic
  rw [PACKAGE_VERSION] at hp_ceiling
  rw [MANIFEST_VERSION] at hm_ceiling
  refine ⟨⟨hp.2.1, ?_⟩, ⟨hm.2.1, ?_⟩⟩
  · constructor
    · intro hst
      by_contra h0
      have h1 : of_le ((pc.drop 4).take 4) = 1 := by omega
      rw [hp.2.1 h1] at hst
      rcases load_package_version_1_status
        { package with header := PackageHeader.of_bytes (pc.take 64) }
        { content := pc, pos := 64 } with h | h
      · rw [h] at hst; exact LoadStatus.noConfusion hst
      · rw [h] at hst; exact LoadStatus.noConfusion hst
    · intro h0
      exact (hp.2.2 h0).1
  · constructor
    · intro hst
      by_contra h0
      have h1 : of_le ((mc.drop 4).take 4) = 1 := by omega
      rw [hm.2.1 h1] at hst
      rcases load_package_manifest_version_1_status
        { manifest with filenames_size_in_bytes := of_le ((mc.drop 8).take 8) }
        { content := mc, pos := 16 } with h | h
      · rw [h] at hst; exact LoadStatus.noConfusion hst
      · rw [h] at hst; exact LoadStatus.noConfusion hst
    · intro h0
      exact (hm.2.2 h0).1

/-- Witness of C14: headers with version 0. -/
theorem version_dispatch_witness :
    (sizeof_PackageHeader ≤ version_0_package.length
        ∧ version_0_package.take 4 = [0x71, 0x70, 0x63, 0x6B]
        ∧ ¬ of_le ((version_0_package.drop 4).take 4) > PACKAGE_VERSION)
      ∧ (sizeof_PackageManifestHeader ≤ version_0_manifest.length
        ∧ version_0_manifest.take 4 = [0x71, 0x6D, 0x6E, 0x66]
        ∧ ¬ of_le ((version_0_manifest.drop 4).take 4) > MANIFEST_VERSION)
      ∧ ((load_package Package.declared version_0_package).status = LoadStatus.no_loader
        ↔ of_le ((version_0_package.drop 4).take 4) = 0) :=
  ⟨⟨by decide, by decide, by decide⟩, ⟨by decide, by decide, by decide⟩,
    (version_dispatch Package.declared PackageManifest.declared version_0_package
      version_0_manifest (by decide) (by decide) (by decide) (by decide) (by decide)
      (by decide)).1.2⟩

/-- C14 as stated fails: a header with version 0 passes the size, magic and
version-ceiling checks of either loader and ends in the no-loader branch. -/
theorem version_dispatch_counterexample :
    (sizeof_PackageHeader ≤ version_0_package.length
        ∧ version_0_package.take 4 = [0x71, 0x70, 0x63, 0x6B]
        ∧ ¬ of_le ((version_0_package.drop 4).take 4) > PACKAGE_VERSION
        ∧ (load_package Package.declared version_0_package).status = LoadStatus.no_loader)
      ∧ (sizeof_PackageManifestHeader ≤ version_0_manifest.length
        ∧ version_0_manifest.take 4 = [0x71, 0x6D, 0x6E, 0x66]
        ∧ ¬ of_le ((version_0_manifest.drop 4).take 4) > MANIFEST_VERSION
        ∧ (load_package_manifest PackageManifest.declared version_0_manifest).status
          = LoadStatus.no_loader) := by
  decide

/-! ## C12: a manifest whose last string has no NUL -/

theorem nul_after_std_string (l : List Nat) (h : (std_string l).length < l.length) :
    l[(std_string l).length]? = some 0 := by
  induction l with
  | nil => simp [std_string] at h
  | cons c rest ih =>
    by_cases hc : c = 0
    · subst hc
      simp [std_string]
    · have hs : std_string (c :: rest) = c :: std_string rest := by
        simp only [std_string]
        rw [List.takeWhile_cons_of_pos (by simpa using hc)]
      rw [hs] at h ⊢
      simp only [List.length_cons, List.getElem?_cons_succ]
      exact ih (by simpa using h)

/-- On a buffer that is full to the declared size and ends with a byte other
than NUL, the loop of the loader never ends well: it reads past the buffer. -/
theorem load_package_manifest_scan_unterminated (buf : List Nat) (b : Nat)
    (hlast : buf[buf.length - 1]? = some b) (hb : b ≠ 0) (fuel p : Nat) (m : List (Nat × Nat))
    (hp : p < buf.length) :
    load_package_manifest_scan buf buf.length fuel p m = none
      ∨ ∃ m1, load_package_manifest_scan buf buf.length fuel p m
          = some (LoadStatus.invalid_read, m1) := by
  induction fuel generalizing p m with
  | zero =>
    left
    simp only [load_package_manifest_scan]
    rw [if_pos hp]
  | succ fuel ih =>
    simp only [load_package_manifest_scan]
    rw [if_pos hp]
    split
    · rename_i hnul
      apply ih
      have hlt : (std_string (buf.drop p)).length < (buf.drop p).length := by
        rw [List.length_drop]
        simp only [c_string_at] at hnul
        omega
      have h0 := nul_after_std_string (buf.drop p) hlt
      rw [List.getElem?_drop] at h0
      simp only [c_string_at] at hnul ⊢
      by_contra hge
      have heq : p + (std_string (buf.drop p)).length = buf.length - 1 := by omega
      rw [heq, hlast] at h0
      exact hb (Option.some.inj h0)
    · right
      exact ⟨m, rfl⟩

theorem filenames_buffer_last (content : List Nat) (size b : Nat) (hpos : 0 < size)
    (hlast : content[size + 15]? = some b) :
    ((content.drop 16).take size).length = size
      ∧ ((content.drop 16).take size)[size - 1]? = some b := by
  have hclen : size + 15 < content.length := by
    by_contra hge
    rw [List.getElem?_eq_none (by omega)] at hlast
    exact Option.noConfusion hlast
  refine ⟨by rw [List.length_take, List.length_drop]; omega, ?_⟩
  rw [List.getElem?_take_of_lt (by omega), List.getElem?_drop, ← hlast]
  congr 1
  omega

/-- For every manifest stream with the right signature and version 1 that
declares a non-empty filenames section whose last byte is not NUL, the code
has no failure to return: it reads past the buffer. -/
theorem load_package_manifest_unterminated (manifest : PackageManifest) (content : List Nat)
    (hlen : sizeof_PackageManifestHeader ≤ content.length)
    (hmagic : content.take 4 = [0x71, 0x6D, 0x6E, 0x66])
    (hversion : of_le ((content.drop 4).take 4) = 1)
    (hpos : 0 < of_le ((content.drop 8).take 8))
    (b : Nat) (hlast : content[of_le ((content.drop 8).take 8) + 15]? = some b) (hb : b ≠ 0) :
    (load_package_manifest manifest content).status = LoadStatus.invalid_read := by
  rw [(load_package_manifest_dispatch manifest content hlen hmagic).2.1 hversion]
  generalize of_le ((content.drop 8).take 8) = size at hpos hlast ⊢
  obtain ⟨hbl, hbuf_last⟩ := filenames_buffer_last content size b hpos hlast
  generalize hbuf : (content.drop 16).take size = buf at hbl hbuf_last
  subst hbl
  have hscan := load_package_manifest_scan_unterminated buf b hbuf_last hb
    buf.length 0 manifest.filename_hash_to_filename hpos
  have hfuel := load_package_manifest_scan_fuel buf buf.length buf.length 0
    manifest.filename_hash_to_filename (by omega)
  unfold load_package_manifest_version_1
  simp only [fread, hbuf]
  rcases hscan with h | ⟨m1, h⟩
  · exact absurd h hfuel
  · rw [h]

set_option maxRecDepth 100000 in
/-- C12 fails on the code: the manifest declares one byte of filenames, the
byte is `a`, and the loader ends neither in a failure nor in success; it reads
the byte after its one-byte buffer. -/
theorem unterminated_manifest_reads_past_buffer :
    (load_package_manifest PackageManifest.declared unterminated_manifest).status
      = LoadStatus.invalid_read := by
  decide

/-! ## C19: an add from disk that does not add -/

theorem disk_add_none (info : PackageInfo) (filename : List Nat) :
    add_package_entry_from_disk info filename none
      = { status := AddStatus.fclose_null, info := info } := rfl

theorem disk_add_full (info : PackageInfo) (filename content : List Nat)
    (h : (info.data_size_in_bytes + content.length) % 2 ^ 64 > info.memory_block_capacity) :
    add_package_entry_from_disk info filename (some content)
      = { status := AddStatus.out_of_space, info := info } := by
  simp only [add_package_entry_from_disk]
  rw [if_pos h]

theorem disk_add_fits (info : PackageInfo) (filename content : List Nat)
    (h : ¬ (info.data_size_in_bytes + content.length) % 2 ^ 64 > info.memory_block_capacity) :
    add_package_entry_from_disk info filename (some content)
      = { status := AddStatus.added
          info := add_package_entry_from_memory
            { info with
              memory_block :=
                memory_block_store info.memory_block info.data_size_in_bytes content }
            filename content.length (DataPtr.memory_block info.data_size_in_bytes) } := by
  simp only [add_package_entry_from_disk]
  rw [if_neg h]

/-- Whenever `add_package_entry_from_disk` does not add, the builder is exactly
what it was before the call, in every field; it returns `false` in the capacity
branch, and in no other. -/
theorem failed_disk_add_atomic (info : PackageInfo) (filename : List Nat)
    (file : Option (List Nat))
    (hfail : (add_package_entry_from_disk info filename file).status ≠ AddStatus.added) :
    (add_package_entry_from_disk info filename file).info = info
      ∧ (add_package_entry_from_disk info filename file).info.entries = info.entries
      ∧ (add_package_entry_from_disk info filename file).info.filenames = info.filenames
      ∧ (add_package_entry_from_disk info filename file).info.data_size_in_bytes
        = info.data_size_in_bytes
      ∧ (add_package_entry_from_disk info filename file).info.memory_block_capacity
        = info.memory_block_capacity
      ∧ (add_package_entry_from_disk info filename file).info.flags = info.flags
      ∧ ((file = none
            ∧ (add_package_entry_from_disk info filename file).status = AddStatus.fclose_null)
          ∨ ∃ content, file = some content
            ∧ (info.data_size_in_bytes + content.length) % 2 ^ 64 > info.memory_block_capacity
            ∧ (add_package_entry_from_disk info filename file).status
              = AddStatus.out_of_space) := by
  have h : (add_package_entry_from_disk info filename file).info = info
      ∧ ((file = none
            ∧ (add_package_entry_from_disk info filename file).status = AddStatus.fclose_null)
          ∨ ∃ content, file = some content
            ∧ (info.data_size_in_bytes + content.length) % 2 ^ 64 > info.memory_block_capacity
            ∧ (add_package_entry_from_disk info filename file).status
              = AddStatus.out_of_space) := by
    cases file with
    | none => exact ⟨rfl, Or.inl ⟨rfl, rfl⟩⟩
    | some content =>
      by_cases hcap : (info.data_size_in_bytes + content.length) % 2 ^ 64
          > info.memory_block_capacity
      · rw [disk_add_full info filename content hcap]
        exact ⟨rfl, Or.inr ⟨content, rfl, hcap, rfl⟩⟩
      · rw [disk_add_fits info filename content hcap] at hfail
        exact absurd rfl hfail
  rw [h.1]
  exact ⟨rfl, rfl, rfl, rfl, rfl, rfl, h.2⟩

/-- C19 fails on the code where the file cannot be opened: the call does not
return failure. After the failed `fopen_s` it jumps to `ERR_EXIT` and calls
`fclose` on the null `FILE*`, for every builder and every path; the capacity
branch is the only one that returns `false`. -/
theorem disk_add_failed_open (info : PackageInfo) (filename : List Nat) :
    (add_package_entry_from_disk info filename none).status = AddStatus.fclose_null
      ∧ (add_package_entry_from_disk info filename none).status ≠ AddStatus.out_of_space :=
  ⟨rfl, by rw [disk_add_none]; exact fun h => AddStatus.noConfusion h⟩

/-! ## C17: the builder invariant -/

theorem run_calls_hashes (flags : PackageFlags) (capacity : Nat) (calls : List AddCall) :
    (run_calls (create_package_info flags capacity) calls).entries.map
        (fun e => e.filename_hash)
      = (run_calls (create_package_info flags capacity) calls).filenames.map hash_filename := by
  induction calls using List.reverseRecOn with
  | nil => rfl
  | append_singleton calls c ih =>
    rw [run_calls_append]
    generalize run_calls (create_package_info flags capacity) calls = info at ih ⊢
    cases c with
    | from_memory filename size memory =>
      simp only [AddCall.run, add_package_entry_from_memory, List.map_append, ih, List.map_cons,
        List.map_nil, hash_filename_std_string]
    | from_disk filename file =>
      cases file with
      | none => exact ih
      | some content =>
        rw [run_from_disk_some]
        split
        · exact ih
        · simp only [add_package_entry_from_memory, List.map_append, ih, List.map_cons,
            List.map_nil, hash_filename_std_string]

theorem successful_disk_add (info : PackageInfo) (filename : List Nat)
    (file : Option (List Nat))
    (hok : (add_package_entry_from_disk info filename file).status = AddStatus.added) :
    ∃ content, file = some content
      ∧ (info.data_size_in_bytes + content.length) % 2 ^ 64 ≤ info.memory_block_capacity
      ∧ (add_package_entry_from_disk info filename file).info.entries
        = info.entries ++ [{ size_in_bytes := content.length
                             data := DataPtr.memory_block info.data_size_in_bytes
                             filename_hash := hash_filename filename }]
      ∧ (add_package_entry_from_disk info filename file).info.filenames
        = info.filenames ++ [std_string filename]
      ∧ (add_package_entry_from_disk info filename file).info.data_size_in_bytes
        = (info.data_size_in_bytes + content.length) % 2 ^ 64
      ∧ (add_package_entry_from_disk info filename file).info.memory_block
        = memory_block_store info.memory_block info.data_size_in_bytes content
      ∧ (add_package_entry_from_disk info filename file).info.memory_block_capacity
        = info.memory_block_capacity
      ∧ (add_package_entry_from_disk info filename file).info.flags = info.flags := by
  cases file with
  | none => rw [disk_add_none] at hok; exact AddStatus.noConfusion hok
  | some content =>
    refine ⟨content, rfl, ?_⟩
    by_cases hcap : (info.data_size_in_bytes + content.length) % 2 ^ 64
        > info.memory_block_capacity
    · rw [disk_add_full info filename content hcap] at hok
      exact AddStatus.noConfusion hok
    · rw [disk_add_fits info filename content hcap]
      exact ⟨by omega, rfl, rfl, rfl, rfl, rfl, rfl⟩

/-- C17. In every builder state reached from `create_package_info` by add
calls, successful or failed: the entry list and the filename list have the
same length, the hash of entry `i` is `hash_filename` of filename `i`, and
`data_size_in_bytes` is the sum of the sizes of the entries (as a `uint64_t`:
modulo `2 ^ 64`, so the sum itself while it is below `2 ^ 64`). An add from
memory and a successful add from disk append one entry and one filename at the
end and leave the earlier ones as they are; a failed add changes nothing. -/
theorem builder_invariant (flags : PackageFlags) (capacity : Nat) (calls : List AddCall)
    (info : PackageInfo) (hinfo : info = run_calls (create_package_info flags capacity) calls) :
    info.entries.length = info.filenames.length
      ∧ (∀ (i : Nat) (e : EntryInfo) (name : List Nat), info.entries[i]? = some e →
          info.filenames[i]? = some name → e.filename_hash = hash_filename name)
      ∧ info.data_size_in_bytes = total_size info.entries % 2 ^ 64
      ∧ (total_size info.entries < 2 ^ 64 → info.data_size_in_bytes = total_size info.entries)
      ∧ (∀ (filename : List Nat) (size_in_bytes : Nat) (data : DataPtr),
          (add_package_entry_from_memory info filename size_in_bytes data).entries
              = info.entries ++ [{ size_in_bytes := size_in_bytes, data := data
                                   filename_hash := hash_filename filename }]
            ∧ (add_package_entry_from_memory info filename size_in_bytes data).filenames
              = info.filenames ++ [std_string filename])
      ∧ (∀ (filename : List Nat) (file : Option (List Nat)),
          (add_package_entry_from_disk info filename file).status = AddStatus.added →
          ∃ content, file = some content
            ∧ (add_package_entry_from_disk info filename file).info.entries
              = info.entries ++ [{ size_in_bytes := content.length
                                   data := DataPtr.memory_block info.data_size_in_bytes
                                   filename_hash := hash_filename filename }]
            ∧ (add_package_entry_from_disk info filename file).info.filenames
              = info.filenames ++ [std_string filename])
      ∧ (∀ (filename : List Nat) (file : Option (List Nat)),
          (add_package_entry_from_disk info filename file).status ≠ AddStatus.added →
          (add_package_entry_from_disk info filename file).info = info) := by
  have hh := run_calls_hashes flags capacity calls
  have hi := (run_calls_invariant flags capacity calls).1
  rw [← hinfo] at hh hi
  have hlen : info.entries.length = info.filenames.length := by
    have := congrArg List.length hh
    simpa using this
  refine ⟨hlen, ?_, hi, ?_, ?_, ?_, ?_⟩
  · intro i e name he hn
    have h1 : (info.entries.map (fun e => e.filename_hash))[i]? = some e.filename_hash := by
      rw [List.getElem?_map, he]; rfl
    have h2 : (info.filenames.map hash_filename)[i]? = some (hash_filename name) := by
      rw [List.getElem?_map, hn]; rfl
    rw [hh, h2] at h1
    exact (Option.some.inj h1).symm
  · intro ht
    rw [hi, Nat.mod_eq_of_lt ht]
  · intro filename size_in_bytes data
    exact ⟨rfl, rfl⟩
  · intro filename file hok
    obtain ⟨content, hfile, _, he, hf, _⟩ := successful_disk_add info filename file hok
    exact ⟨content, hfile, he, hf⟩
  · intro filename file hfail
    exact (failed_disk_add_atomic info filename file hfail).1

set_option maxRecDepth 100000 in
/-- Witness of C17: the builder of the example program after its three adds. -/
theorem builder_invariant_witness :
    (run_calls (create_package_info example_flags 64) example_calls).entries.length = 3
      ∧ (run_calls (create_package_info example_flags 64) example_calls).filenames.length = 3
      ∧ (run_calls (create_package_info example_flags 64) example_calls).data_size_in_bytes
        = total_size (run_calls (create_package_info example_flags 64) example_calls).entries
          % 2 ^ 64 :=
  ⟨by decide, by decide,
    (builder_invariant example_flags 64 example_calls _ rfl).2.2.1⟩

/-! ## C13 and C18: the block of the builder -/

/-- Where the entries of a reached builder lie in the block, while the sum of
the sizes is below `2 ^ 64`. -/
theorem run_calls_regions (flags : PackageFlags) (capacity : Nat) (calls : List AddCall) :
    (run_calls (create_package_info flags capacity) calls).memory_block_capacity = capacity
      ∧ (total_size (run_calls (create_package_info flags capacity) calls).entries < 2 ^ 64 →
          (run_calls (create_package_info flags capacity) calls).memory_block.length = capacity
            ∧ ∀ e ∈ (run_calls (create_package_info flags capacity) calls).entries,
                ∀ offset, e.data = DataPtr.memory_block offset →
                  offset + e.size_in_bytes
                    ≤ total_size (run_calls (create_package_info flags capacity) calls).entries
                  ∧ offset + e.size_in_bytes ≤ capacity) := by
  induction calls using List.reverseRecOn with
  | nil =>
    simp [run_calls, create_package_info, total_size]
  | append_singleton calls c ih =>
    have hds := (run_calls_invariant flags capacity calls).1
    rw [run_calls_append]
    generalize run_calls (create_package_info flags capacity) calls = info at ih hds ⊢
    obtain ⟨ih1, ih2⟩ := ih
    cases c with
    | from_memory filename size memory =>
      simp only [AddCall.run, add_package_entry_from_memory, total_size_append, total_size_cons]
      have ht : total_size ([] : List EntryInfo) = 0 := rfl
      rw [ht, Nat.add_zero]
      refine ⟨ih1, ?_⟩
      intro htot
      obtain ⟨hlen, hreg⟩ := ih2 (by omega)
      refine ⟨hlen, ?_⟩
      intro e he offset hoff
      rcases List.mem_append.mp he with h | h
      · have := hreg e h offset hoff
        exact ⟨by omega, this.2⟩
      · rw [List.mem_singleton.mp h] at hoff
        exact DataPtr.noConfusion hoff
    | from_disk filename file =>
      cases file with
      | none => exact ⟨ih1, ih2⟩
      | some content =>
        rw [run_from_disk_some]
        split
        · exact ⟨ih1, ih2⟩
        · rename_i hcap
          simp only [add_package_entry_from_memory, total_size_append, total_size_cons]
          have ht : total_size ([] : List EntryInfo) = 0 := rfl
          rw [ht, Nat.add_zero]
          refine ⟨ih1, ?_⟩
          intro htot
          obtain ⟨hlen, hreg⟩ := ih2 (by omega)
          have hd : info.data_size_in_bytes = total_size info.entries := by
            rw [hds]; exact Nat.mod_eq_of_lt (by omega)
          have hmod : (info.data_size_in_bytes + content.length) % 2 ^ 64
              = info.data_size_in_bytes + content.length := Nat.mod_eq_of_lt (by omega)
          rw [hmod, ih1] at hcap
          refine ⟨?_, ?_⟩
          · rw [length_memory_block_store _ _ _ (by omega)]; exact hlen
          · intro e he offset hoff
            rcases List.mem_append.mp he with h | h
            · have := hreg e h offset hoff
              exact ⟨by omega, this.2⟩
            · rw [List.mem_singleton.mp h] at hoff ⊢
              simp only [DataPtr.memory_block.injEq] at hoff
              simp only
              omega

theorem memory_block_store_before (mb : List Nat) (a : Nat) (bytes : List Nat)
    (offset size : Nat) (h : offset + size ≤ a) (ha : a ≤ mb.length) :
    ((memory_block_store mb a bytes).drop offset).take size = (mb.drop offset).take size := by
  have hl : (mb.take a).length = a := by rw [List.length_take]; omega
  unfold memory_block_store
  rw [List.append_assoc, List.drop_append_of_le_length (by omega),
    List.take_append_of_le_length (by rw [List.length_drop]; omega),
    take_drop_take _ offset size a h]

theorem memory_block_store_at (mb : List Nat) (a : Nat) (bytes : List Nat)
    (ha : a ≤ mb.length) :
    ((memory_block_store mb a bytes).drop a).take bytes.length = bytes := by
  have hl : (mb.take a).length = a := by rw [List.length_take]; omega
  unfold memory_block_store
  rw [List.append_assoc, drop_append_len _ _ a hl, take_append_len _ _ _ rfl]

/-- While the sizes of the entries and of the file stay below `2 ^ 64` in all,
so that the sum in the capacity test does not wrap: for every builder state
reached from `create_package_info` by add calls and every file, if
`add_package_entry_from_disk` succeeds, the region it records for the new
entry starts at `data_size_in_bytes` as it was before the call, is as long as
the file and ends inside the block; every earlier entry in the block ends at
or before the start of the new region, so they do not overlap, and keeps its
bytes; the new region holds the bytes of the file. -/
theorem disk_add_region (flags : PackageFlags) (capacity : Nat) (calls : List AddCall)
    (info : PackageInfo) (hinfo : info = run_calls (create_package_info flags capacity) calls)
    (filename content : List Nat)
    (htotal : total_size info.entries + content.length < 2 ^ 64)
    (hok : (add_package_entry_from_disk info filename (some content)).status
      = AddStatus.added) :
    (add_package_entry_from_disk info filename (some content)).info.entries
        = info.entries ++ [{ size_in_bytes := content.length
                             data := DataPtr.memory_block info.data_size_in_bytes
                             filename_hash := hash_filename filename }]
      ∧ info.data_size_in_bytes + content.length ≤ info.memory_block_capacity
      ∧ info.memory_block_capacity = info.memory_block.length
      ∧ (∀ e ∈ info.entries, ∀ offset, e.data = DataPtr.memory_block offset →
          offset + e.size_in_bytes ≤ info.data_size_in_bytes)
      ∧ (∀ e ∈ info.entries,
          entry_data (add_package_entry_from_disk info filename (some content)).info e
            = entry_data info e)
      ∧ entry_data (add_package_entry_from_disk info filename (some content)).info
          { size_in_bytes := content.length
            data := DataPtr.memory_block info.data_size_in_bytes
            filename_hash := hash_filename filename } = content := by
  obtain ⟨c1, hc1, hcap, he, _, _, hmb, _, _⟩ :=
    successful_disk_add info filename (some content) hok
  have hcc : c1 = content := (Option.some.inj hc1).symm
  subst hcc
  have hds := (run_calls_invariant flags capacity calls).1
  obtain ⟨hcapacity, hreg⟩ := run_calls_regions flags capacity calls
  rw [← hinfo] at hds hcapacity hreg
  obtain ⟨hlen, hregions⟩ := hreg (by omega)
  have hd : info.data_size_in_bytes = total_size info.entries := by
    rw [hds]; exact Nat.mod_eq_of_lt (by omega)
  rw [Nat.mod_eq_of_lt (by omega)] at hcap
  refine ⟨he, hcap, by rw [hcapacity, hlen], ?_, ?_, ?_⟩
  · intro e hmem offset hoff
    rw [hd]; exact (hregions e hmem offset hoff).1
  · intro e hmem
    unfold entry_data
    cases hdata : e.data with
    | caller memory => rfl
    | memory_block offset =>
      simp only
      rw [hmb]
      exact memory_block_store_before _ _ _ _ _
        (by rw [hd]; exact (hregions e hmem offset hdata).1) (by omega)
  · unfold entry_data
    simp only
    rw [hmb]
    exact memory_block_store_at _ _ _ (by omega)

set_option maxRecDepth 100000 in
/-- The add of `simple.txt` after the two adds from memory of the example
program, with a block of 64 bytes, lands inside the block. -/
theorem disk_add_region_witness :
    total_size (run_calls (create_package_info example_flags 64)
        (example_calls.take 2)).entries + [104, 105].length < 2 ^ 64
      ∧ (add_package_entry_from_disk
          (run_calls (create_package_info example_flags 64) (example_calls.take 2))
          [115, 105, 109, 112, 108, 101, 46, 116, 120, 116] (some [104, 105])).status
        = AddStatus.added
      ∧ (run_calls (create_package_info example_flags 64)
          (example_calls.take 2)).data_size_in_bytes + [104, 105].length
        ≤ (run_calls (create_package_info example_flags 64)
          (example_calls.take 2)).memory_block_capacity :=
  ⟨by decide, by decide,
    (disk_add_region example_flags 64 (example_calls.take 2) _ rfl
      [115, 105, 109, 112, 108, 101, 46, 116, 120, 116] [104, 105] (by decide)
      (by decide)).2.1⟩

set_option maxRecDepth 100000 in
/-- C18 fails on the code where the sum in the capacity test wraps. After an
add from memory that announces `2 ^ 64 - 1` bytes, `data_size_in_bytes` is
`2 ^ 64 - 1`; for a file of 2 bytes the test computes `(2 ^ 64 - 1 + 2) mod
2 ^ 64 = 1`, which is not above the capacity 8, so the add succeeds and records
the region that starts at `2 ^ 64 - 1`: it does not lie within the block. -/
theorem disk_add_outside_block :
    announced_info.data_size_in_bytes = 2 ^ 64 - 1
      ∧ announced_info.memory_block_capacity = 8
      ∧ (add_package_entry_from_disk announced_info [102] (some [1, 2])).status
        = AddStatus.added
      ∧ (add_package_entry_from_disk announced_info [102] (some [1, 2])).info.entries.getLast?
        = some { size_in_bytes := 2
                 data := DataPtr.memory_block (2 ^ 64 - 1)
                 filename_hash := hash_filename [102] }
      ∧ ¬ (announced_info.data_size_in_bytes + [1, 2].length
            ≤ announced_info.memory_block_capacity) := by
  decide

/-- C13, as amended. For every builder state reached from `create_package_info`
by add calls and every readable file of size `s` (the sizes of the entries and
of the file below `2 ^ 64` in all), `add_package_entry_from_disk` fails, with
the capacity failure, if and only if `s` is larger than `memory_block_capacity`
minus `data_size_in_bytes`, the sum of the sizes of all entries added so far:
those added from caller memory count as much as those read from disk. -/
theorem disk_add_capacity (flags : PackageFlags) (capacity : Nat) (calls : List AddCall)
    (info : PackageInfo) (hinfo : info = run_calls (create_package_info flags capacity) calls)
    (filename content : List Nat)
    (htotal : total_size info.entries + content.length < 2 ^ 64) :
    ((add_package_entry_from_disk info filename (some content)).status
          = AddStatus.out_of_space
        ↔ info.memory_block_capacity < info.data_size_in_bytes + content.length)
      ∧ info.memory_block_capacity = capacity
      ∧ info.data_size_in_bytes = total_size info.entries
      ∧ disk_size info.entries ≤ total_size info.entries
      ∧ (add_package_entry_from_disk info filename (some content)).status
        ≠ AddStatus.fclose_null := by
  have hds := (run_calls_invariant flags capacity calls).1
  have hcapacity := (run_calls_regions flags capacity calls).1
  rw [← hinfo] at hds hcapacity
  have hd : info.data_size_in_bytes = total_size info.entries := by
    rw [hds]; exact Nat.mod_eq_of_lt (by omega)
  have hmod : (info.data_size_in_bytes + content.length) % 2 ^ 64
      = info.data_size_in_bytes + content.length := Nat.mod_eq_of_lt (by omega)
  refine ⟨?_, hcapacity, hd, ?_, ?_⟩
  · by_cases h : (info.data_size_in_bytes + content.length) % 2 ^ 64
        > info.memory_block_capacity
    · rw [disk_add_full info filename content h]
      rw [hmod] at h
      exact ⟨fun _ => h, fun _ => rfl⟩
    · rw [disk_add_fits info filename content h]
      rw [hmod] at h
      exact ⟨fun hf => AddStatus.noConfusion hf, fun hc => absurd hc h⟩
  · unfold disk_size total_size
    exact List.Sublist.sum_le_sum (List.Sublist.map _ (List.filter_sublist _))
      (fun _ _ => Nat.zero_le _)
  · by_cases h : (info.data_size_in_bytes + content.length) % 2 ^ 64
        > info.memory_block_capacity
    · rw [disk_add_full info filename content h]; exact fun hf => AddStatus.noConfusion hf
    · rw [disk_add_fits info filename content h]; exact fun hf => AddStatus.noConfusion hf

set_option maxRecDepth 100000 in
/-- Witness of C13: a file of one byte after 8 bytes from memory, with a block
of 8 bytes. -/
theorem disk_add_capacity_witness :
    total_size memory_only_info.entries + [1].length < 2 ^ 64
      ∧ ((add_package_entry_from_disk memory_only_info [102] (some [1])).status
          = AddStatus.out_of_space
        ↔ memory_only_info.memory_block_capacity
          < memory_only_info.data_size_in_bytes + [1].length) :=
  ⟨by decide,
    (disk_add_capacity example_flags 8 [AddCall.from_memory [97] 8 [1, 2, 3, 4, 5, 6, 7, 8]]
      memory_only_info rfl [102] [1] (by decide)).1⟩

set_option maxRecDepth 100000 in
/-- C13 as stated fails: nothing has been read from disk into the block of 8
bytes, so a file of one byte is not larger than the space the claim counts as
remaining, and the add fails all the same, because 8 bytes were added from
memory. -/
theorem disk_add_capacity_counterexample :
    disk_size memory_only_info.entries = 0
      ∧ memory_only_info.memory_block_capacity = 8
      ∧ ¬ ([1].length > memory_only_info.memory_block_capacity
            - disk_size memory_only_info.entries)
      ∧ (add_package_entry_from_disk memory_only_info [102] (some [1])).status
        = AddStatus.out_of_space := by
  decide

/-! ## C16: the `save_` functions and the builder -/

theorem drop_of_getElem? {α : Type} (l : List α) (i : Nat) (a : α) (h : l[i]? = some a) :
    l.drop i = a :: l.drop (i + 1) := by
  induction l generalizing i with
  | nil => simp at h
  | cons b rest ih =>
    cases i with
    | zero =>
      simp only [List.getElem?_cons_zero, Option.some.injEq] at h
      subst h; rfl
    | succ i =>
      simp only [List.getElem?_cons_succ] at h
      simp only [List.drop_succ_cons]
      exact ih i h

theorem save_package_entries_loop_eq (info : PackageInfo) (fuel i data_offset : Nat) (f : FILE)
    (hfuel : info.entries.length ≤ i + fuel) :
    save_package_entries_loop fuel i data_offset info f
      = (info, save_package_entries (info.entries.drop i) data_offset f) := by
  induction fuel generalizing i data_offset f with
  | zero =>
    simp only [save_package_entries_loop]
    rw [List.drop_eq_nil_of_le (by omega)]
    rfl
  | succ fuel ih =>
    simp only [save_package_entries_loop]
    split
    · rename_i hi
      cases hget : info.entries[i]? with
      | none =>
        rw [List.getElem?_eq_none_iff] at hget
        omega
      | some e =>
        simp only
        rw [drop_of_getElem? _ _ _ hget, ih (i + 1) _ _ (by omega)]
        rfl
    · rename_i hi
      rw [List.drop_eq_nil_of_le (by omega)]
      rfl

theorem save_package_data_loop_eq (info : PackageInfo) (fuel i : Nat) (f : FILE)
    (hfuel : info.entries.length ≤ i + fuel) :
    save_package_data_loop fuel i info f
      = (info, save_package_data info (info.entries.drop i) f) := by
  induction fuel generalizing i f with
  | zero =>
    simp only [save_package_data_loop]
    rw [List.drop_eq_nil_of_le (by omega)]
    rfl
  | succ fuel ih =>
    simp only [save_package_data_loop]
    split
    · rename_i hi
      cases hget : info.entries[i]? with
      | none =>
        rw [List.getElem?_eq_none_iff] at hget
        omega
      | some e =>
        simp only
        rw [drop_of_getElem? _ _ _ hget, ih (i + 1) _ (by omega)]
        rfl
    · rename_i hi
      rw [List.drop_eq_nil_of_le (by omega)]
      rfl

theorem save_package_manifest_loop_eq (info : PackageInfo) (fuel i n : Nat) (f : FILE)
    (hfuel : info.filenames.length ≤ i + fuel) :
    save_package_manifest_loop fuel i n info f
      = (info, save_package_manifest_filenames (info.filenames.drop i) n f) := by
  induction fuel generalizing i n f with
  | zero =>
    simp only [save_package_manifest_loop]
    rw [List.drop_eq_nil_of_le (by omega)]
    rfl
  | succ fuel ih =>
    simp only [save_package_manifest_loop]
    split
    · rename_i hi
      cases hget : info.filenames[i]? with
      | none =>
        rw [List.getElem?_eq_none_iff] at hget
        omega
      | some name =>
        simp only
        rw [drop_of_getElem? _ _ _ hget, ih (i + 1) _ _ (by omega)]
        rfl
    · rename_i hi
      rw [List.drop_eq_nil_of_le (by omega)]
      rfl

/-- The run of `save_package` on the builder: the builder is left as it was and
the stream is that of `save_package`. -/
theorem save_package_call_eq (info : PackageInfo) :
    (save_package_call info).returned = true
      ∧ (save_package_call info).info = info
      ∧ (save_package_call info).file = save_package info := by
  have ha : ∀ f, save_package_entries_loop info.entries.length 0 0 info f
      = (info, save_package_entries info.entries 0 f) := by
    intro f
    rw [save_package_entries_loop_eq info _ 0 0 f (by omega), List.drop_zero]
  have hb : ∀ f, save_package_data_loop info.entries.length 0 info f
      = (info, save_package_data info info.entries f) := by
    intro f
    rw [save_package_data_loop_eq info _ 0 f (by omega), List.drop_zero]
  unfold save_package_call save_package
  simp only [ha, hb]
  exact ⟨trivial, trivial, rfl⟩

theorem save_package_manifest_call_eq (info : PackageInfo) :
    (save_package_manifest_call info).returned = true
      ∧ (save_package_manifest_call info).info = info
      ∧ (save_package_manifest_call info).file = save_package_manifest info := by
  have ha : ∀ f, save_package_manifest_loop info.filenames.length 0 0 info f
      = (info, save_package_manifest_filenames info.filenames 0 f) := by
    intro f
    rw [save_package_manifest_loop_eq info _ 0 0 f (by omega), List.drop_zero]
  unfold save_package_manifest_call save_package_manifest save_package_manifest_body
  simp only [ha]
  exact ⟨trivial, trivial, trivial⟩

/-- C16. The functions `save_package` and `save_package_manifest` leave the
builder behind `info` as it was, in every field; so saving the same builder
twice yields the same stream twice, and every add after a save does what it
would have done before it. -/
theorem save_is_pure_read (info : PackageInfo) :
    ((save_package_call info).info = info
        ∧ (save_package_call info).info.entries = info.entries
        ∧ (save_package_call info).info.filenames = info.filenames
        ∧ (save_package_call info).info.data_size_in_bytes = info.data_size_in_bytes
        ∧ (save_package_call info).info.memory_block_capacity = info.memory_block_capacity
        ∧ (save_package_call info).info.flags = info.flags)
      ∧ ((save_package_manifest_call info).info = info
        ∧ (save_package_manifest_call info).info.entries = info.entries
        ∧ (save_package_manifest_call info).info.filenames = info.filenames
        ∧ (save_package_manifest_call info).info.data_size_in_bytes = info.data_size_in_bytes
        ∧ (save_package_manifest_call info).info.memory_block_capacity
          = info.memory_block_capacity
        ∧ (save_package_manifest_call info).info.flags = info.flags)
      ∧ (save_package_call (save_package_call info).info).file = (save_package_call info).file
      ∧ (save_package_manifest_call (save_package_manifest_call info).info).file
        = (save_package_manifest_call info).file
      ∧ (save_package_manifest_call (save_package_call info).info).file
        = (save_package_manifest_call info).file
      ∧ (∀ c : AddCall,
          AddCall.run (save_package_manifest_call (save_package_call info).info).info c
            = AddCall.run info c) := by
  have h1 := (save_package_call_eq info).2.1
  have h2 := (save_package_manifest_call_eq info).2.1
  refine ⟨?_, ?_, ?_, ?_, ?_, ?_⟩
  · rw [h1]; exact ⟨rfl, rfl, rfl, rfl, rfl, rfl⟩
  · rw [h2]; exact ⟨rfl, rfl, rfl, rfl, rfl, rfl⟩
  · rw [h1]
  · rw [h2]
  · rw [h1]
  · intro c; rw [h1, h2]

/-! ## C15: counts of the package and of the manifest -/

/-- The index the loop of the loader builds is filled from the strings it
visits, in the order of the visits. -/
theorem load_package_manifest_scan_visits (buf : List Nat) (size fuel p : Nat)
    (m m1 : List (Nat × Nat)) (st : LoadStatus)
    (h : load_package_manifest_scan buf size fuel p m = some (st, m1)) :
    m1 = (load_package_manifest_visits buf size fuel p).foldl
      (fun acc q => map_insert acc (hash_filename (buf.drop q)) q) m := by
  induction fuel generalizing p m with
  | zero =>
    simp only [load_package_manifest_scan] at h
    split at h
    · exact Option.noConfusion h
    · simp only [Option.some.injEq, Prod.mk.injEq] at h
      simp only [load_package_manifest_visits, List.foldl_nil]
      exact h.2.symm
  | succ fuel ih =>
    simp only [load_package_manifest_scan] at h
    simp only [load_package_manifest_visits]
    split at h
    · rename_i hp
      rw [if_pos hp]
      split at h
      · rename_i hn
        rw [if_pos hn, List.foldl_cons]
        exact ih _ _ h
      · rename_i hn
        rw [if_neg hn]
        simp only [Option.some.injEq, Prod.mk.injEq] at h
        exact h.2.symm
    · rename_i hp
      rw [if_neg hp]
      simp only [Option.some.injEq, Prod.mk.injEq] at h
      exact h.2.symm

/-- On a buffer that holds NUL-terminated names from `p` on and ends with them,
the loop of the loader visits one string for each name, and the strings are the
names in their order. -/
theorem load_package_manifest_visits_names (names : List (List Nat)) (pre : List Nat)
    (fuel : Nat) (hfuel : names.length ≤ fuel)
    (hnul : ∀ name ∈ names, ∀ c ∈ name, c ≠ 0) :
    (load_package_manifest_visits (pre ++ names.flatMap (fun name => name ++ [0]))
        (pre ++ names.flatMap (fun name => name ++ [0])).length fuel pre.length).map
        (c_string_at (pre ++ names.flatMap (fun name => name ++ [0])))
      = names := by
  induction names generalizing pre fuel with
  | nil =>
    cases fuel with
    | zero => simp [load_package_manifest_visits]
    | succ fuel => simp [load_package_manifest_visits]
  | cons name rest ih =>
    cases fuel with
    | zero => simp at hfuel
    | succ fuel =>
      have hn := hnul name (List.mem_cons_self _ _)
      have hdrop : (pre ++ (name :: rest).flatMap (fun name => name ++ [0])).drop pre.length
          = name ++ 0 :: rest.flatMap (fun name => name ++ [0]) := by
        rw [drop_append_len _ _ _ rfl, List.flatMap_cons, List.append_assoc]
        rfl
      have hcs : c_string_at (pre ++ (name :: rest).flatMap (fun name => name ++ [0])) pre.length
          = name := by
        rw [c_string_at, hdrop, std_string_append_nul name _ hn]
      have hbuf : pre ++ (name :: rest).flatMap (fun name => name ++ [0])
          = (pre ++ name ++ [0]) ++ rest.flatMap (fun name => name ++ [0]) := by
        simp [List.flatMap_cons]
      have hp : pre.length + name.length + 1 = (pre ++ name ++ [0]).length := by
        simp only [List.length_append, List.length_singleton]
      simp only [load_package_manifest_visits, hcs]
      rw [if_pos (by rw [hbuf]; simp only [List.length_append, List.length_singleton]; omega),
        if_pos (by rw [hbuf]; simp only [List.length_append, List.length_singleton]; omega),
        List.map_cons, hcs, hbuf, hp,
        ih (pre ++ name ++ [0]) fuel (by simpa using hfuel)
          (fun x hx => hnul x (List.mem_cons_of_mem _ hx))]

/-- C15. For every builder reached from `create_package_info` by add calls
(fewer than `2 ^ 64` entries, names that take fewer than `2 ^ 64` bytes): the
`entries_count` in the header `save_package` writes, also as it stands in the
stream, is the number of records in the stream: after the 64 bytes of the
header the stream holds exactly that many 24-byte records, one for each entry
in order, and then the data section, and `load_package` reads that many records
back. It is also the number of strings the scan of `load_package_manifest`
visits in the stream of `save_package_manifest` for the same builder, and the
`k`-th string visited is the `k`-th recorded name. -/
theorem count_pairing (flags : PackageFlags) (capacity : Nat) (calls : List AddCall)
    (info : PackageInfo) (hinfo : info = run_calls (create_package_info flags capacity) calls)
    (hcount : info.entries.length < 2 ^ 64)
    (hsize : names_size info.filenames < 2 ^ 64) :
    (save_package_header info).entries_count = (entry_records info.entries 0).length
      ∧ (PackageHeader.of_bytes
          ((save_package info).content.take sizeof_PackageHeader)).entries_count
        = (entry_records info.entries 0).length
      ∧ (save_package info).content
        = (save_package_header info).to_bytes
          ++ (entry_records info.entries 0).flatMap PackageEntry.to_bytes
          ++ info.entries.flatMap (entry_data info)
      ∧ (∀ (k : Nat) (r : PackageEntry), (entry_records info.entries 0)[k]? = some r →
          ((save_package info).content.drop
              (sizeof_PackageHeader + sizeof_PackageEntry * k)).take sizeof_PackageEntry
            = r.to_bytes)
      ∧ ((save_package info).content.drop sizeof_PackageHeader).length
        = sizeof_PackageEntry * (save_package_header info).entries_count
          + (info.entries.flatMap (entry_data info)).length
      ∧ (total_size info.entries < 2 ^ 64 →
          (load_package Package.declared (save_package info).content).status
              = LoadStatus.loaded
            ∧ (load_package Package.declared (save_package info).content).value.entries
              = entry_records info.entries 0
            ∧ (load_package Package.declared (save_package info).content).value.entries.length
              = (load_package Package.declared
                  (save_package info).content).value.header.entries_count
            ∧ (load_package Package.declared
                  (save_package info).content).value.header.entries_count
              = (save_package_header info).entries_count)
      ∧ (load_package_manifest PackageManifest.declared
          (save_package_manifest info).content).status = LoadStatus.loaded
      ∧ (load_package_manifest PackageManifest.declared
          (save_package_manifest info).content).value.filename_hash_to_filename
        = (load_package_manifest_visits
            (load_package_manifest PackageManifest.declared
              (save_package_manifest info).content).value.filenames
            (load_package_manifest PackageManifest.declared
              (save_package_manifest info).content).value.filenames_size_in_bytes
            (load_package_manifest PackageManifest.declared
              (save_package_manifest info).content).value.filenames_size_in_bytes 0).foldl
            (fun acc q => map_insert acc (hash_filename
              ((load_package_manifest PackageManifest.declared
                (save_package_manifest info).content).value.filenames.drop q)) q) []
      ∧ (load_package_manifest_visits
            (load_package_manifest PackageManifest.declared
              (save_package_manifest info).content).value.filenames
            (load_package_manifest PackageManifest.declared
              (save_package_manifest info).content).value.filenames_size_in_bytes
            (load_package_manifest PackageManifest.declared
              (save_package_manifest info).content).value.filenames_size_in_bytes 0).length
        = (save_package_header info).entries_count
      ∧ (load_package_manifest_visits
            (load_package_manifest PackageManifest.declared
              (save_package_manifest info).content).value.filenames
            (load_package_manifest PackageManifest.declared
              (save_package_manifest info).content).value.filenames_size_in_bytes
            (load_package_manifest PackageManifest.declared
              (save_package_manifest info).content).value.filenames_size_in_bytes 0).map
          (c_string_at (load_package_manifest PackageManifest.declared
            (save_package_manifest info).content).value.filenames)
        = info.filenames := by
  have hnul := run_calls_filenames_nul_free flags capacity calls
  have hh := run_calls_hashes flags capacity calls
  rw [← hinfo] at hnul hh
  have hlen : info.entries.length = info.filenames.length := by
    have := congrArg List.length hh
    simpa using this
  have hl := load_save_package_manifest info hnul hsize
  have hv := load_package_manifest_visits_names info.filenames [] (names_size info.filenames)
    (names_size_pos_length _) hnul
  rw [List.nil_append, List.length_nil, length_flatMap_names] at hv
  have hscan := load_package_manifest_scan_names info.filenames [] (names_size info.filenames)
    [] (names_size_pos_length _) hnul
  rw [List.nil_append, List.length_nil, length_flatMap_names] at hscan
  have hfold := load_package_manifest_scan_visits _ _ _ _ _ _ _ hscan
  rw [hl.2]
  simp only
  have hhash := (run_calls_invariant flags capacity calls).2.1
  rw [← hinfo] at hhash
  refine ⟨?_, ?_, save_package_content info, ?_, ?_, ?_, hl.1, ?_, ?_, hv⟩
  · rw [length_entry_records]; rfl
  · rw [save_package_content, List.append_assoc, sizeof_PackageHeader,
      take_append_len _ _ 64 (length_header_to_bytes _),
      (header_of_bytes_to_bytes _).2.2.1, length_entry_records]
    exact Nat.mod_eq_of_lt hcount
  · intro k r hr
    rw [save_package_content, List.append_assoc, sizeof_PackageHeader, sizeof_PackageEntry,
      ← List.drop_drop, drop_append_len _ _ 64 (length_header_to_bytes _)]
    exact entry_bytes_chunk _ k r hr _
  · rw [save_package_content, List.append_assoc, sizeof_PackageHeader, sizeof_PackageEntry,
      drop_append_len _ _ 64 (length_header_to_bytes _), List.length_append,
      length_flatMap_entry_to_bytes, length_entry_records]
    rfl
  · intro htotal
    have hls := load_save_package info Package.declared hcount hhash htotal
    have hfr := load_package_index_frame (entry_records info.entries 0)
      { Package.declared with
        header := PackageHeader.of_bytes (save_package_header info).to_bytes
        entries := entry_records info.entries 0
        data := (info.entries.flatMap (entry_data info)).take
          (info.data_size_in_bytes % 2 ^ 64) }
    have hcnt : (load_package Package.declared
        (save_package info).content).value.header.entries_count
        = (save_package_header info).entries_count := by
      rw [hls.2, hfr.1]
      simp only
      rw [(header_of_bytes_to_bytes _).2.2.1]
      exact Nat.mod_eq_of_lt hcount
    have hents : (load_package Package.declared (save_package info).content).value.entries
        = entry_records info.entries 0 := by
      rw [hls.2, hfr.2.1]
    refine ⟨hls.1, hents, ?_, hcnt⟩
    rw [hcnt, hents, length_entry_records]
    rfl
  · exact hfold
  · have := congrArg List.length hv
    rw [List.length_map] at this
    rw [this, ← hlen]
    rfl

set_option maxRecDepth 100000 in
/-- Witness of C15: the builder of the example program after its three adds. -/
theorem count_pairing_witness :
    (run_calls (create_package_info example_flags 64) example_calls).entries.length < 2 ^ 64
      ∧ names_size (run_calls (create_package_info example_flags 64) example_calls).filenames
        < 2 ^ 64
      ∧ (save_package_header
          (run_calls (create_package_info example_flags 64) example_calls)).entries_count = 3
      ∧ (load_package_manifest_visits
            (load_package_manifest PackageManifest.declared (save_package_manifest
              (run_calls (create_package_info example_flags 64)
                example_calls)).content).value.filenames
            (load_package_manifest PackageManifest.declared (save_package_manifest
              (run_calls (create_package_info example_flags 64)
                example_calls)).content).value.filenames_size_in_bytes
            (load_package_manifest PackageManifest.declared (save_package_manifest
              (run_calls (create_package_info example_flags 64)
                example_calls)).content).value.filenames_size_in_bytes 0).length
        = (save_package_header
          (run_calls (create_package_info example_flags 64) example_calls)).entries_count :=
  ⟨by decide, by decide, by decide,
    (count_pairing example_flags 64 example_calls _ rfl (by decide) (by decide)).2.2.2.2.2.2.2.2.1⟩

end quark
